import Mathlib

/-!
# Verification of the LOD/kit layer-filter engine (`lodkitfilter.py`)

A shallow embedding of the layer-reorganization engine of the repository:
name parsing (`parse_name`), tag-file loading (`load_variants`), structure
building (`build_structure`), visibility projection (`apply_visibility`)
and the session lifecycle (`enable_filter` / `disable_filter`).

The host application (3ds Max via `pymxs`) is modelled as explicit state:
a fixed list of scene objects, a map from layer name to its visibility
flag (`none` = the layer does not exist; a freshly created layer is
visible), a map from object handle to its current layer name, and a map
from object handle to its hidden flag.  Host writes are additionally
recorded in an event trace so that claims about "zero host writes" and
about the redraw-suspension scope can be stated.  Python `for` loops over
lists and dict items are rendered as structural recursions in iteration
order.  Machine-level details that no claim touches (undo scopes, Unicode
digits in `\d`, the swallowed host-read failure inside
`record_original_layer`) are noted where they are simplified.
-/

namespace LodKit

/-- A Python value handed to `parse_name`: either a string or any
non-string value (the function only distinguishes these two cases). -/
inductive PyVal where
  | str (s : String)
  | nonStr
  deriving Repr, DecidableEq

/-- Decimal digit characters to a natural number, as Python `int()` does on
the matched digit group (ASCII digits; the regex `\d` group only reaches
`int()` on digit characters). -/
def digitsToNat (cs : List Char) : Nat :=
  cs.foldl (fun a c => 10 * a + (c.toNat - '0'.toNat)) 0

/-- Python `str.lower()` on the variant token (character-wise; the token
characters come from the matched name). -/
def lowerStr (cs : List Char) : String :=
  String.mk (cs.map Char.toLower)

/-- The part of the regex `^(?:lod|l)(\d+)_([^_]+)_` after the prefix
alternative: one or more digits, `_`, one or more non-underscore
characters, then a required `_`.  Both quantified groups are effectively
greedy-deterministic: `\d+` must be followed by `_` (never a digit) and
`[^_]+` must be followed by `_` (never a non-underscore), so no
backtracking inside the groups can succeed where the greedy match fails. -/
def matchAfterPrefix (cs : List Char) : Option (Nat × String) :=
  let ds := cs.takeWhile Char.isDigit
  let r1 := cs.dropWhile Char.isDigit
  if ds = [] then none
  else
    match r1 with
    | '_' :: r2 =>
      let tok := r2.takeWhile (fun c => !(c = '_'))
      let r3 := r2.dropWhile (fun c => !(c = '_'))
      if tok = [] then none
      else
        match r3 with
        | '_' :: _ => some (digitsToNat ds, lowerStr tok)
        | _ => none
    | _ => none

/-- `parse_name` (lodkitfilter.py lines 74-80): matches `_LOD_RE =
re.compile(r'^(?:lod|l)(\d+)_([^_]+)_', re.I)` against the name; returns
`none` for a non-string or a non-matching string, else the LOD index as a
number and the variant token lower-cased.  The regex alternation tries
the `lod` prefix first and falls back to the `l` prefix. -/
def parse_name (v : PyVal) : Option (Nat × String) :=
  match v with
  | .nonStr => none
  | .str s =>
    let lodTry :=
      match s.data with
      | c0 :: c1 :: c2 :: rest =>
        if c0.toLower = 'l' && c1.toLower = 'o' && c2.toLower = 'd' then
          matchAfterPrefix rest
        else none
      | _ => none
    match lodTry with
    | some r => some r
    | none =>
      match s.data with
      | c0 :: rest => if c0.toLower = 'l' then matchAfterPrefix rest else none
      | [] => none

example : parse_name (.str "LOD2_Sport_body") = some (2, "sport") := by decide
example : parse_name (.str "randomName") = none := by decide
example : parse_name (.str "l0_base") = none := by decide
example : parse_name (.str "l0_base_x") = some (0, "base") := by decide
example : parse_name (.str "LoD3_X_y") = some (3, "x") := by decide
example : parse_name (.str "lod_a_b") = none := by decide
example : parse_name .nonStr = none := by decide

/-- Decimal rendering of a natural number, as the Python f-string `f"{lod}"`
renders the parsed LOD index.  Structural fuel (`n + 1` initial fuel always
suffices since the argument shrinks by division by 10). -/
def natStrAux : Nat → Nat → List Char
  | 0, _ => []
  | fuel + 1, n =>
    if n < 10 then [Nat.digitChar n]
    else natStrAux fuel (n / 10) ++ [Nat.digitChar (n % 10)]

/-- Python `str(n)` for a natural number. -/
def natStr (n : Nat) : String := String.mk (natStrAux (n + 1) n)

example : natStr 0 = "0" := by decide
example : natStr 3 = "3" := by decide
example : natStr 12 = "12" := by decide

/-- The LOD layer name `f"{variant}_LOD{lod}"` synthesized by
`build_structure` (line 195) and looked up by `apply_visibility` (line
244) and `disable_filter` (line 309). -/
def lodLayerName (variant : String) (lod : Nat) : String :=
  variant ++ "_LOD" ++ natStr lod

/-- A scene object: a stable numeric handle and a display name.  All objects
in the modelled scene are live (`rt.isValidNode` holds), which is the only
case the round-trip and containment claims quantify over. -/
structure Obj where
  handle : Nat
  name : String
  deriving Repr, DecidableEq

/-- The host application's mutable state, as the engine observes it.
`layerOn name = none` means no layer of that name exists; layers are
identified by their unique name.  A freshly created layer is visible
(`some true`), matching the host's default.  Each object lives in exactly
one layer (`objLayer`) and has a hidden flag (`objHidden`).  `tags` is the
content of the persisted tag file's `groups` list. -/
structure Host where
  layerOn : String → Option Bool
  layerParent : String → Option String
  objLayer : Nat → String
  objHidden : Nat → Bool
  tags : List String

/-- The engine's module-level mutable state (lodkitfilter.py lines 13-28):
the original-assignment ledger `_original_layers` (insertion-ordered,
first-write-wins), `_current_variants`, the created-layer bookkeeping set
and flag, and the session caches `_layer_cache` (cached layer names),
`_layer_nodes`, `_layer_visible` and `_last_button_states`. -/
structure Engine where
  original_layers : List (Nat × String) := []
  current_variants : List String := []
  created_layers : List String := []
  track_created : Bool := false
  layer_cache : List String := []
  layer_nodes : List (String × List Nat) := []
  layer_visible : List (String × Bool) := []
  last_button_states : List (String × Bool) := []

/-- The fresh engine state at module import. -/
def Engine.init : Engine := {}

/-- A host write performed by the engine, recorded so that claims about
"zero host writes" and about the redraw-suspension scope are statable. -/
inductive Ev where
  | redrawOff
  | redrawOn
  | newLayer (name : String)
  | setParent (child parent : String)
  | addNode (hdl : Nat) (layer : String)
  | setLayerOn (name : String) (v : Bool)
  | setHidden (hdl : Nat) (v : Bool)
  | redrawViews
  deriving Repr, DecidableEq

/-- Pointwise update of a handle-indexed host map. -/
def updFun {β : Type} (f : Nat → β) (k : Nat) (v : β) : Nat → β :=
  fun x => if x = k then v else f x

/-- Pointwise update of a name-indexed host map. -/
def updStr {β : Type} (f : String → β) (k : String) (v : β) : String → β :=
  fun x => if x = k then v else f x

/-- Python-dict assignment `d[k] = v` on an insertion-ordered association
list: an existing key keeps its position, a new key is appended. -/
def upsert {β : Type} (l : List (String × β)) (k : String) (v : β) :
    List (String × β) :=
  match l with
  | [] => [(k, v)]
  | (k', v') :: t => if k' = k then (k, v) :: t else (k', v') :: upsert t k v

/-- Python `d.setdefault(k, []).append(v)` on an insertion-ordered
association list of lists. -/
def pushVal {β : Type} (l : List (String × List β)) (k : String) (v : β) :
    List (String × List β) :=
  match l with
  | [] => [(k, [v])]
  | (k', vs) :: t =>
    if k' = k then (k', vs ++ [v]) :: t else (k', vs) :: pushVal t k v

/-- `get_or_create_layer` (lines 82-95): consult `_layer_cache`, then the
host's `getLayerFromName`, and only then create the layer (visible by
default), recording its name in `_created_layers` when `_track_created`
is set.  `_created_layers` is a Python set; it is modelled as a list whose
membership is what matters. -/
def get_or_create_layer (name : String) (st : Engine) (h : Host) :
    Engine × Host × List Ev :=
  if st.layer_cache.contains name then (st, h, [])
  else if (h.layerOn name).isSome then
    ({st with layer_cache := st.layer_cache ++ [name]}, h, [])
  else
    ({st with
        layer_cache := st.layer_cache ++ [name],
        created_layers :=
          if st.track_created then st.created_layers ++ [name]
          else st.created_layers},
     {h with layerOn := updStr h.layerOn name (some true)},
     [.newLayer name])

/-- `get_layer_cached` (lines 97-104): cache-first lookup with one host
fallback; never creates.  Returns whether a layer was found. -/
def get_layer_cached (name : String) (st : Engine) (h : Host) :
    Bool × Engine :=
  if st.layer_cache.contains name then (true, st)
  else if (h.layerOn name).isSome then
    (true, {st with layer_cache := st.layer_cache ++ [name]})
  else (false, st)

/-- `record_original_layer` (lines 106-111): first-write-wins ledger entry
`obj.handle ↦ obj.layer.name`.  The swallowed host-read failure is not
modelled: reading an object's layer is total here. -/
def record_original_layer (o : Obj) (st : Engine) (h : Host) : Engine :=
  if (st.original_layers.lookup o.handle).isSome then st
  else
    {st with
      original_layers := st.original_layers ++ [(o.handle, h.objLayer o.handle)]}

/-- `_collect_layer_handles` (lines 141-150): cached node handles of a
layer, computed from the host's membership on a cache miss and memoised. -/
def collect_layer_handles (objs : List Obj) (name : String) (st : Engine)
    (h : Host) : List Nat × Engine :=
  match st.layer_nodes.lookup name with
  | some hs => (hs, st)
  | none =>
    let hs := (objs.filter (fun o => h.objLayer o.handle == name)).map (·.handle)
    (hs, {st with layer_nodes := upsert st.layer_nodes name hs})

/-- `_bulk_set_hidden` (lines 152-164): set the hidden flag of every listed
handle.  The generated MAXScript loop guards each handle with
`isValidNode`; every handle reaching this point names a live object, so
the writes are modelled as unconditional.  Failures of the script call are
swallowed by the source and not modelled. -/
def bulk_set_hidden (hdls : List Nat) (hidden : Bool) (h : Host) :
    Host × List Ev :=
  match hdls with
  | [] => (h, [])
  | hdl :: rest =>
    let r :=
      bulk_set_hidden rest hidden {h with objHidden := updFun h.objHidden hdl hidden}
    (r.1, .setHidden hdl hidden :: r.2)

/-- `_sync_layer_objects_visibility` (lines 166-172): propagate a layer's
`on` flag to the hidden flag of its (cached) member objects.  Callers only
pass layers that exist, so the `if not layer` guard is not modelled. -/
def sync_layer_objects_visibility (objs : List Obj) (name : String)
    (st : Engine) (h : Host) : Engine × Host × List Ev :=
  let visible := (h.layerOn name).getD true
  let ch := collect_layer_handles objs name st h
  let b := bulk_set_hidden ch.1 (!visible) h
  (ch.2, b.1, b.2)

/-- First-occurrence deduplication with an accumulator, as iterating the
keys of a Python dict built from a list (`build_structure`'s
`parent_layers` comprehension) or accumulating a set. -/
def dedupAux : List String → List String → List String
  | [], acc => acc
  | s :: rest, acc => dedupAux rest (if acc.contains s then acc else acc ++ [s])

/-- First-occurrence deduplication. -/
def dedup (l : List String) : List String := dedupAux l []

/-- Insertion into a `<`-sorted string list (Python's code-point order). -/
def insertStr (s : String) : List String → List String
  | [] => [s]
  | t :: ts => if t < s then t :: insertStr s ts else s :: t :: ts

/-- `sorted` on strings by code-point order. -/
def sortStrings (l : List String) : List String := l.foldr insertStr []

/-- `collect_scene_variants` (lines 58-66): the sorted set of variant
tokens of every live object whose name parses. -/
def collect_scene_variants (objs : List Obj) : List String :=
  sortStrings (dedup (objs.filterMap fun o => (parse_name (.str o.name)).map (·.2)))

/-- `save_variants` (lines 68-72): collect the scene variants, overwrite
the tag file with them, and return them. -/
def save_variants (objs : List Obj) (h : Host) : Host × List String :=
  let tags := collect_scene_variants objs
  ({h with tags := tags}, tags)

/-- Host-failure injection for the two unguarded host calls inside
`build_structure`: `hasSetParent` models the `hasattr(lod_layer,
'setParent')` test, `setParentFails name` a raising `setParent` on the
LOD layer of that name, and `addNodeFails hdl` a raising `addNode` for
that object handle. -/
structure Faults where
  hasSetParent : Bool
  setParentFails : String → Bool
  addNodeFails : Nat → Bool

/-- A host on which every call succeeds. -/
def noFaults : Faults :=
  { hasSetParent := true, setParentFails := fun _ => false,
    addNodeFails := fun _ => false }

/-- Intermediate state of `build_structure`'s collection pass (lines
183-201): engine and host plus the locals `lod_layers` (created LOD layer
names in first-encounter order), `nodes_by_layer` and `wrong_nodes`. -/
structure CollectSt where
  st : Engine
  host : Host
  lodLayers : List String
  nodesByLayer : List (String × List Nat)
  wrongNodes : List Nat

/-- The collection pass of `build_structure` (lines 184-201): classify each
live object by `parse_name`, record its original layer, create and parent
each distinct LOD layer once, and queue the object for its destination
layer.  Returns `false` when a `setParent` call raises, which aborts the
whole pass (the source has no handler around it); the state mutated so
far is kept, as Python's module-level state would be. -/
structure CRes where
  ok : Bool
  c : CollectSt
  trace : List Ev

def buildCollect (fl : Faults) (variants : List String) (assign_wrong : Bool) :
    List Obj → CollectSt → CRes
  | [], c => ⟨true, c, []⟩
  | o :: rest, c =>
    match parse_name (.str o.name) with
    | some (lod, variant) =>
      if variants.contains variant then
        let st1 := record_original_layer o c.st c.host
        let name := lodLayerName variant lod
        if c.lodLayers.contains name then
          buildCollect fl variants assign_wrong rest
            {c with st := st1, nodesByLayer := pushVal c.nodesByLayer name o.handle}
        else
          let g := get_or_create_layer name st1 c.host
          if fl.hasSetParent && fl.setParentFails name then
            ⟨false, {c with st := g.1, host := g.2.1}, g.2.2⟩
          else
            let h3 :=
              if fl.hasSetParent then
                {g.2.1 with layerParent := updStr g.2.1.layerParent name (some variant)}
              else g.2.1
            let tr3 := if fl.hasSetParent then [Ev.setParent name variant] else []
            let r := buildCollect fl variants assign_wrong rest
              { st := g.1, host := h3, lodLayers := c.lodLayers ++ [name],
                nodesByLayer := pushVal c.nodesByLayer name o.handle,
                wrongNodes := c.wrongNodes }
            ⟨r.ok, r.c, g.2.2 ++ tr3 ++ r.trace⟩
      else
        buildCollect fl variants assign_wrong rest
          (if assign_wrong then
            {c with st := record_original_layer o c.st c.host,
                    wrongNodes := c.wrongNodes ++ [o.handle]}
           else c)
    | none =>
      buildCollect fl variants assign_wrong rest
        (if assign_wrong then
          {c with st := record_original_layer o c.st c.host,
                  wrongNodes := c.wrongNodes ++ [o.handle]}
         else c)

/-- Result of a host-write loop that can be aborted by a raising call. -/
structure HRes where
  ok : Bool
  host : Host
  trace : List Ev

/-- One destination layer's `addNode` batch (lines 207-208): move each
queued handle into the layer; a raising `addNode` aborts the batch with
no handler (the moves already made are kept). -/
def assignHandles (fl : Faults) (name : String) : List Nat → Host → HRes
  | [], h => ⟨true, h, []⟩
  | hdl :: rest, h =>
    if fl.addNodeFails hdl then ⟨false, h, []⟩
    else
      let r := assignHandles fl name rest
        {h with objLayer := updFun h.objLayer hdl name}
      ⟨r.ok, r.host, .addNode hdl name :: r.trace⟩

/-- Result of `build_structure` and of its batched phases: whether the code
ran to completion (`ok = false` models an exception propagating out), the
final engine and host state, and the host-write trace. -/
structure BuildRes where
  ok : Bool
  st : Engine
  host : Host
  trace : List Ev

/-- The batched assignment loop of `build_structure` (lines 205-210):
per destination layer, move the queued objects, then memoise the layer's
handle list and current visibility. -/
def assignBatches (fl : Faults) :
    List (String × List Nat) → Engine → Host → BuildRes
  | [], st, h => ⟨true, st, h, []⟩
  | (name, hdls) :: rest, st, h =>
    let r := assignHandles fl name hdls h
    if r.ok then
      let st' :=
        {st with
          layer_nodes := upsert st.layer_nodes name hdls,
          layer_visible :=
            upsert st.layer_visible name ((r.host.layerOn name).getD true)}
      let r2 := assignBatches fl rest st' r.host
      ⟨r2.ok, r2.st, r2.host, r.trace ++ r2.trace⟩
    else ⟨false, st, r.host, r.trace⟩

/-- The catch-all batch (lines 212-216): move the wrong-named objects into
`WrongNames` and memoise that layer's handles and visibility. -/
def assignWrong (fl : Faults) (assign_wrong : Bool) (wrongNodes : List Nat)
    (st : Engine) (h : Host) : BuildRes :=
  if assign_wrong then
    let r := assignHandles fl "WrongNames" wrongNodes h
    if r.ok then
      ⟨true,
       {st with
         layer_nodes := upsert st.layer_nodes "WrongNames" wrongNodes,
         layer_visible :=
           upsert st.layer_visible "WrongNames"
             ((r.host.layerOn "WrongNames").getD true)},
       r.host, r.trace⟩
    else ⟨false, st, r.host, r.trace⟩
  else ⟨true, st, h, []⟩

/-- Result of an unfailing engine-and-host loop. -/
structure SRes where
  st : Engine
  host : Host
  trace : List Ev

/-- Visibility sync over a list of layers (lines 221-224 and 316-317). -/
def syncList (objs : List Obj) : List String → Engine → Host → SRes
  | [], st, h => ⟨st, h, []⟩
  | n :: rest, st, h =>
    let s := sync_layer_objects_visibility objs n st h
    let r := syncList objs rest s.1 s.2.1
    ⟨r.st, r.host, s.2.2 ++ r.trace⟩

/-- The variant-layer sync loop (lines 218-220): sync each parent layer and
memoise its visibility. -/
def syncParentLayers (objs : List Obj) : List String → Engine → Host → SRes
  | [], st, h => ⟨st, h, []⟩
  | n :: rest, st, h =>
    let s := sync_layer_objects_visibility objs n st h
    let st1 :=
      {s.1 with layer_visible := upsert s.1.layer_visible n ((s.2.1.layerOn n).getD true)}
    let r := syncParentLayers objs rest st1 s.2.1
    ⟨r.st, r.host, s.2.2 ++ r.trace⟩

/-- Creation of the variant parent layers (line 177): the dict
comprehension calls `get_or_create_layer` once per element of `variants`
(repeats hit the cache). -/
def createLayers : List String → Engine → Host → SRes
  | [], st, h => ⟨st, h, []⟩
  | v :: rest, st, h =>
    let g := get_or_create_layer v st h
    let r := createLayers rest g.1 g.2.1
    ⟨r.st, r.host, g.2.2 ++ r.trace⟩

/-- `build_structure` (lines 174-226): create the variant parent layers and
(when `assign_wrong`) the `WrongNames` layer, run the collection pass,
then — inside the scoped redraw-off region — apply the queued membership
batches and propagate every touched layer's visibility to its members
(the parent-layer loop iterates the dict's distinct keys), and finally
request one redraw.  The redraw-off region is entered only for the
batch-and-sync phase and is released on every exit path, including an
exception inside it (the `scene_redraw_off` context manager's `finally`);
an exception in the collection pass propagates before the region is
entered.  The surrounding undo scope has no observable effect here and is
not modelled.  `buildFinish` is the tail of `build_structure` after the
collection pass, taking the collection result and the events already
emitted. -/
def buildFinish (fl : Faults) (objs : List Obj) (variants : List String)
    (assign_wrong : Bool) (pre : List Ev) (rA : CRes) : BuildRes :=
  if rA.ok then
    let r1 := assignBatches fl rA.c.nodesByLayer rA.c.st rA.c.host
    if r1.ok then
      let r2 := assignWrong fl assign_wrong rA.c.wrongNodes r1.st r1.host
      if r2.ok then
        let r3 := syncParentLayers objs (dedup variants) r2.st r2.host
        let r4 := syncList objs rA.c.lodLayers r3.st r3.host
        let r5 : SRes :=
          if assign_wrong then
            let s5 := sync_layer_objects_visibility objs "WrongNames" r4.st r4.host
            ⟨s5.1, s5.2.1, s5.2.2⟩
          else ⟨r4.st, r4.host, []⟩
        ⟨true, r5.st, r5.host,
          pre ++ rA.trace ++ [Ev.redrawOff] ++ r1.trace ++ r2.trace ++
            r3.trace ++ r4.trace ++ r5.trace ++ [Ev.redrawOn, Ev.redrawViews]⟩
      else
        ⟨false, r2.st, r2.host,
          pre ++ rA.trace ++ [Ev.redrawOff] ++ r1.trace ++ r2.trace ++
            [Ev.redrawOn]⟩
    else
      ⟨false, r1.st, r1.host,
        pre ++ rA.trace ++ [Ev.redrawOff] ++ r1.trace ++ [Ev.redrawOn]⟩
  else ⟨false, rA.c.st, rA.c.host, pre ++ rA.trace⟩

def build_structure (fl : Faults) (objs : List Obj) (variants : List String)
    (assign_wrong : Bool) (st : Engine) (h : Host) : BuildRes :=
  let rP := createLayers variants st h
  let gW :=
    if assign_wrong then get_or_create_layer "WrongNames" rP.st rP.host
    else (rP.st, rP.host, [])
  buildFinish fl objs variants assign_wrong (rP.trace ++ gW.2.2)
    (buildCollect fl variants assign_wrong objs
      { st := gW.1, host := gW.2.1, lodLayers := [], nodesByLayer := [],
        wrongNodes := [] })

/-- Python `==` on the UI-state dicts: value equality of key-value sets
(`button_states == _last_button_states`, line 233). -/
def dictBeq (a b : List (String × Bool)) : Bool :=
  a.all (fun kv => b.lookup kv.1 == some kv.2) &&
  b.all (fun kv => a.lookup kv.1 == some kv.2)

/-- Result of `apply_visibility`: the returned `changed` flag, the final
engine and host state, and the host-write trace. -/
structure ApplyRes where
  changed : Bool
  st : Engine
  host : Host
  trace : List Ev

/-- The inner loop of lines 243-247: desired visibility of the four LOD
layers of one variant, each `variantVisible AND btnL<i> (default off)`,
restricted to layers that exist. -/
def desiredLods (bs : List (String × Bool)) (v : String) (varVis : Bool) :
    List Nat → List (String × Bool) → Engine → Host →
    List (String × Bool) × Engine
  | [], lv, st, _ => (lv, st)
  | i :: rest, lv, st, h =>
    let name := lodLayerName v i
    let g := get_layer_cached name st h
    let lv2 :=
      if g.1 then
        upsert lv name (varVis && (bs.lookup ("btnL" ++ natStr i)).getD false)
      else lv
    desiredLods bs v varVis rest lv2 g.2 h

/-- The `layer_visibility` dict of `apply_visibility` (lines 237-247): for
each variant, the desired visibility of its parent layer (`btnVar_...`,
default on) and of its four LOD layers. -/
def desiredVisAux (bs : List (String × Bool)) :
    List String → List (String × Bool) → Engine → Host →
    List (String × Bool) × Engine
  | [], lv, st, _ => (lv, st)
  | v :: rest, lv, st, h =>
    let varVis := (bs.lookup ("btnVar_" ++ v)).getD true
    let g := get_layer_cached v st h
    let lv1 := if g.1 then upsert lv v varVis else lv
    let d := desiredLods bs v varVis (List.range 4) lv1 g.2 h
    desiredVisAux bs rest d.1 d.2 h

/-- The desired per-layer visibility dict, starting empty. -/
def desiredVisibility (bs : List (String × Bool)) (variants : List String)
    (st : Engine) (h : Host) : List (String × Bool) × Engine :=
  desiredVisAux bs variants [] st h

/-- Result of the diffing write loop of `apply_visibility`. -/
structure WritesRes where
  changed : Bool
  hide : List Nat
  shw : List Nat
  st : Engine
  host : Host
  trace : List Ev

/-- The diffing write loop of `apply_visibility` (lines 254-265): a layer
whose memoised visibility equals the desired state is skipped (a missing
memo entry never equals a boolean, as Python's `None == state` is false);
otherwise its `on` flag is written, the memo updated, and its member
handles queued for the bulk hidden-flag update. -/
def applyWrites (objs : List Obj) :
    List (String × Bool) → Engine → Host → WritesRes
  | [], st, h => ⟨false, [], [], st, h, []⟩
  | (name, state) :: rest, st, h =>
    if st.layer_visible.lookup name == some state then
      applyWrites objs rest st h
    else
      let h1 := {h with layerOn := updStr h.layerOn name (some state)}
      let st1 := {st with layer_visible := upsert st.layer_visible name state}
      let ch := collect_layer_handles objs name st1 h1
      let r := applyWrites objs rest ch.2 h1
      ⟨true,
       (if state then r.hide else ch.1 ++ r.hide),
       (if state then ch.1 ++ r.shw else r.shw),
       r.st, r.host, .setLayerOn name state :: r.trace⟩

/-- `apply_visibility` (lines 231-269): no-op returning `false` when the
snapshot equals the last-applied one; otherwise store the snapshot,
compute the desired per-layer visibility, write only the changed layers
inside a redraw-off region, and bulk-update the queued hidden flags
(hide list first, then show list). -/
def apply_visibility (bs : List (String × Bool)) (variants : List String)
    (objs : List Obj) (st : Engine) (h : Host) : ApplyRes :=
  if dictBeq bs st.last_button_states then ⟨false, st, h, []⟩
  else
    let st0 := {st with last_button_states := bs}
    let d := desiredVisibility bs variants st0 h
    let r := applyWrites objs d.1 d.2 h
    let bh := bulk_set_hidden r.hide true r.host
    let bs2 := bulk_set_hidden r.shw false bh.1
    ⟨r.changed, r.st, bs2.1,
      [Ev.redrawOff] ++ r.trace ++ bh.2 ++ bs2.2 ++ [Ev.redrawOn]⟩

/-- The preparation phase of `enable_filter` (lines 283-288): refresh the
variant registry into `_current_variants`, then clear the four session
caches.  Neither the original-assignment ledger `_original_layers` nor
`_created_layers` is touched here. -/
def enable_prepare (objs : List Obj) (st : Engine) (h : Host) :
    Engine × Host :=
  let sv := save_variants objs h
  ({st with
      current_variants := sv.2, layer_cache := [], layer_nodes := [],
      layer_visible := [], last_button_states := []},
   sv.1)

/-- `enable_filter` (lines 281-293): prepare, then build the structure for
the refreshed variants with the catch-all enabled and creation tracking
on.  On success `_track_created` is reset and a final redraw requested;
if the build raises, both are skipped (the undo scope, which has no
observable effect here, is not modelled). -/
def enable_filter (fl : Faults) (objs : List Obj) (st : Engine) (h : Host) :
    BuildRes :=
  let p := enable_prepare objs st h
  let r := build_structure fl objs p.1.current_variants true
    {p.1 with track_created := true} p.2
  if r.ok then
    ⟨true, {r.st with track_created := false}, r.host,
      r.trace ++ [Ev.redrawViews]⟩
  else ⟨false, r.st, r.host, r.trace⟩

/-- The grouping pass of `restore_original_layers` (lines 116-128): walk
the ledger in insertion order, drop entries whose handle no longer names
a live object or whose layer cannot be resolved, and group the surviving
handles by resolved layer.  The local `layer_cache` dict memoises only
found layers (a stored `None` looks absent to `dict.get`), so it is
modelled as the list of names already found. -/
def restoreCollect (objs : List Obj) :
    List (Nat × String) → List String → Engine → Host →
    List (String × List Nat) → Engine × List (String × List Nat)
  | [], _, st, _, acc => (st, acc)
  | (hdl, lname) :: rest, memo, st, h, acc =>
    if objs.any (fun o => o.handle == hdl) then
      if memo.contains lname then
        restoreCollect objs rest memo st h (pushVal acc lname hdl)
      else
        let g := get_layer_cached lname st h
        if g.1 then
          restoreCollect objs rest (memo ++ [lname]) g.2 h (pushVal acc lname hdl)
        else restoreCollect objs rest memo g.2 h acc
    else restoreCollect objs rest memo st h acc

/-- The inner write loop of `restore_original_layers` (lines 132-137):
re-add each node of one group to its original layer and set its hidden
flag to the inverse of that layer's current visibility (the swallowed
per-node failure of the hidden write is not modelled). -/
def restoreNodes (lname : String) : List Nat → Host → Host × List Ev
  | [], h => (h, [])
  | hdl :: rest, h =>
    let hm := {h with objLayer := updFun h.objLayer hdl lname}
    let hid := !((hm.layerOn lname).getD true)
    let hm2 := {hm with objHidden := updFun hm.objHidden hdl hid}
    let r := restoreNodes lname rest hm2
    (r.1, .addNode hdl lname :: .setHidden hdl hid :: r.2)

/-- The write pass of `restore_original_layers` (lines 130-137), one group
per resolved original layer. -/
def restoreWrite : List (String × List Nat) → Host → Host × List Ev
  | [], h => (h, [])
  | (lname, hdls) :: rest, h =>
    let r1 := restoreNodes lname hdls h
    let r2 := restoreWrite rest r1.1
    (r2.1, r1.2 ++ r2.2)

/-- `restore_original_layers` (lines 113-139): clear the `_layer_nodes`
cache, group the ledger's surviving entries by resolved original layer,
re-add every grouped node inside a redraw-off region, and clear the
ledger unconditionally. -/
def restore_original_layers (objs : List Obj) (st : Engine) (h : Host) :
    SRes :=
  let st0 := {st with layer_nodes := []}
  let rc := restoreCollect objs st0.original_layers [] st0 h []
  let rw := restoreWrite rc.2 h
  ⟨{rc.1 with original_layers := []}, rw.1,
   [Ev.redrawOff] ++ rw.2 ++ [Ev.redrawOn]⟩

/-- The LOD part of the `layers_to_show` collection (lines 308-311). -/
def showLods (h : Host) (v : String) : List Nat → List String
  | [] => []
  | i :: rest =>
    (if (h.layerOn (lodLayerName v i)).isSome then [lodLayerName v i] else []) ++
      showLods h v rest

/-- The `layers_to_show` collection of `disable_filter` (lines 303-311):
for each current variant, the variant layer and its `..._LOD0` to
`..._LOD3` layers, restricted to layers that exist (direct host lookup,
no cache). -/
def showNames (h : Host) : List String → List String
  | [] => []
  | v :: rest =>
    ((if (h.layerOn v).isSome then [v] else []) ++ showLods h v (List.range 4)) ++
      showNames h rest

/-- The forcing loop of `disable_filter` (lines 314-315): set every listed
layer visible. -/
def forceOn : List String → Host → Host × List Ev
  | [], h => (h, [])
  | n :: rest, h =>
    let r := forceOn rest {h with layerOn := updStr h.layerOn n (some true)}
    (r.1, .setLayerOn n true :: r.2)

/-- `disable_filter` (lines 296-327): restore every recorded object to its
original layer, then — inside a redraw-off region — force the current
variant and LOD layers visible and propagate that visibility to their
members, and finally clear every session cache, the created-layers set,
the current variant list and the tracking flag, and request a redraw. -/
def disable_filter (objs : List Obj) (st : Engine) (h : Host) : SRes :=
  let r1 := restore_original_layers objs st h
  let names := showNames r1.host r1.st.current_variants
  let f := forceOn names r1.host
  let r2 := syncList objs names r1.st f.1
  ⟨{r2.st with
      layer_cache := [], layer_nodes := [], layer_visible := [],
      last_button_states := [], created_layers := [],
      current_variants := [], track_created := false},
   r2.host,
   r1.trace ++ [Ev.redrawOff] ++ f.2 ++ r2.trace ++ [Ev.redrawOn, Ev.redrawViews]⟩

/-- A JSON value as `json.load` returns it (objects are parsed dicts, so
their keys are unique with later duplicates already collapsed). -/
inductive Json where
  | null
  | bool (b : Bool)
  | num (n : Int)
  | str (s : String)
  | arr (elems : List Json)
  | obj (fields : List (String × Json))

/-- The state of the tag file `nametags.json` as `load_variants` finds it:
absent, present but not parseable as JSON, or parsed to a JSON value. -/
inductive TagFile where
  | absent
  | malformed
  | parsed (j : Json)

/-- The Python exceptions `load_variants` can propagate. -/
inductive PyErr where
  | jsonDecodeError
  | attributeError
  | typeError
  deriving Repr, DecidableEq

/-- `[v.lower() for v in groups]` over a parsed JSON array: each element
must be a string, else `v.lower()` raises `AttributeError`. -/
def lowerElems : List Json → Except PyErr (List String)
  | [] => .ok []
  | .str s :: rest =>
    match lowerElems rest with
    | .ok r => .ok (lowerStr s.data :: r)
    | .error e => .error e
  | _ :: _ => .error .attributeError

/-- `load_variants` (lines 51-56): empty when the file is absent; otherwise
`json.load` the file — a parse failure raises `JSONDecodeError`, there is
no handler — then `[v.lower() for v in data.get('groups', [])]`.
`data.get` raises `AttributeError` when the document is not an object;
iterating a non-sequence `groups` value raises `TypeError`; iterating a
string yields its one-character strings and a dict its keys. -/
def load_variants : TagFile → Except PyErr (List String)
  | .absent => .ok []
  | .malformed => .error .jsonDecodeError
  | .parsed j =>
    match j with
    | .obj fields =>
      match (fields.lookup "groups").getD (.arr []) with
      | .arr xs => lowerElems xs
      | .str s => .ok (s.data.map fun c => lowerStr [c])
      | .obj kvs => .ok (kvs.map fun kv => lowerStr kv.1.data)
      | _ => .error .typeError
    | _ => .error .attributeError

/-! ## Concrete fixtures for instantiations -/

/-- A minimal host: no layers exist, every object sits in a layer named
`base` and is visible. -/
def hostW : Host :=
  { layerOn := fun _ => none, layerParent := fun _ => none,
    objLayer := fun _ => "base", objHidden := fun _ => false, tags := [] }

/-- A host on which only the layer `car_LOD1` exists (and is off). -/
def hostC3 : Host :=
  { layerOn := fun nm => if nm = "car_LOD1" then some false else none,
    layerParent := fun _ => none, objLayer := fun _ => "base",
    objHidden := fun _ => false, tags := [] }

/-- A host whose objects sit in a layer named `bar`; no layers exist yet. -/
def hostC6 : Host :=
  { layerOn := fun _ => none, layerParent := fun _ => none,
    objLayer := fun _ => "bar", objHidden := fun _ => false, tags := [] }

/-- Faults for which `addNode` raises exactly on object handle 1. -/
def faultsC7 : Faults :=
  { hasSetParent := true, setParentFails := fun _ => false,
    addNodeFails := fun x => x == 1 }

/-- A host with a visible layer `base` holding a hidden object. -/
def hostC1 : Host :=
  { layerOn := fun nm => if nm = "base" then some true else none,
    layerParent := fun _ => none, objLayer := fun _ => "base",
    objHidden := fun _ => true, tags := [] }

/-! ## Association-list and map lemmas -/

theorem lookup_cons {α β : Type} [BEq α] [LawfulBEq α] [DecidableEq α] (x k : α) (v : β)
    (t : List (α × β)) :
    List.lookup x ((k, v) :: t) = if x = k then some v else List.lookup x t := by
  by_cases h : x = k
  · have hb : (x == k) = true := beq_iff_eq.mpr h
    simp [List.lookup, hb, h]
  · have hb : (x == k) = false := beq_eq_false_iff_ne.mpr h
    simp [List.lookup, hb, h]

theorem lookup_upsert_self {β : Type} (l : List (String × β)) (k : String) (v : β) :
    (upsert l k v).lookup k = some v := by
  induction l with
  | nil => simp [upsert, lookup_cons]
  | cons p t ih =>
    obtain ⟨k', v'⟩ := p
    by_cases hk : k' = k
    · simp [upsert, hk, lookup_cons]
    · simp [upsert, hk, lookup_cons, ih, Ne.symm hk]

theorem lookup_upsert_ne {β : Type} (l : List (String × β)) (k : String) (v : β)
    {x : String} (h : x ≠ k) : (upsert l k v).lookup x = l.lookup x := by
  induction l with
  | nil => simp [upsert, lookup_cons, h]
  | cons p t ih =>
    obtain ⟨k', v'⟩ := p
    by_cases hk : k' = k
    · subst hk
      simp [upsert, lookup_cons, h]
    · simp [upsert, hk, lookup_cons, ih]

theorem mem_keys_upsert {β : Type} {l : List (String × β)} {k a : String} {v : β}
    (h : a ∈ (upsert l k v).map Prod.fst) : a ∈ l.map Prod.fst ∨ a = k := by
  induction l with
  | nil => simpa [upsert] using h
  | cons p t ih =>
    obtain ⟨k', v'⟩ := p
    by_cases hk : k' = k
    · subst hk
      simp only [upsert, if_true, List.map_cons, List.mem_cons] at h
      rcases h with h | h
      · exact Or.inr h
      · exact Or.inl (by simp [h])
    · simp only [upsert, hk, if_false, List.map_cons, List.mem_cons] at h
      rcases h with h | h
      · exact Or.inl (by simp [h])
      · rcases ih h with h' | h'
        · exact Or.inl (by simp [h'])
        · exact Or.inr h'

theorem keys_nodup_upsert {β : Type} {l : List (String × β)} (k : String) (v : β)
    (h : (l.map Prod.fst).Nodup) : ((upsert l k v).map Prod.fst).Nodup := by
  induction l with
  | nil => simp [upsert]
  | cons p t ih =>
    obtain ⟨k', v'⟩ := p
    simp only [List.map_cons, List.nodup_cons] at h
    by_cases hk : k' = k
    · subst hk
      simp only [upsert, if_true, List.map_cons, List.nodup_cons]
      exact h
    · simp only [upsert, hk, if_false, List.map_cons, List.nodup_cons]
      refine ⟨fun hm => ?_, ih h.2⟩
      rcases mem_keys_upsert hm with h' | h'
      · exact h.1 h'
      · exact hk h'


theorem lookup_mem {α β : Type} [BEq α] [LawfulBEq α] [DecidableEq α] {l : List (α × β)} {k : α} {v : β}
    (h : l.lookup k = some v) : (k, v) ∈ l := by
  induction l with
  | nil => simp [List.lookup] at h
  | cons p t ih =>
    obtain ⟨k', v'⟩ := p
    rw [lookup_cons] at h
    by_cases hk : k = k'
    · subst hk
      simp at h
      simp [h]
    · simp [hk] at h
      exact List.mem_cons_of_mem _ (ih h)

theorem mem_lookup_nodup {α β : Type} [BEq α] [LawfulBEq α] [DecidableEq α] {l : List (α × β)} {k : α} {v : β}
    (hn : (l.map Prod.fst).Nodup) (h : (k, v) ∈ l) : l.lookup k = some v := by
  induction l with
  | nil => simp at h
  | cons p t ih =>
    obtain ⟨k', v'⟩ := p
    simp only [List.map_cons, List.nodup_cons] at hn
    rcases List.mem_cons.mp h with h1 | ht
    · rw [Prod.mk.injEq] at h1
      obtain ⟨rfl, rfl⟩ := h1
      simp [lookup_cons]
    · have hk : k ≠ k' := fun he =>
        hn.1 (he ▸ List.mem_map.mpr ⟨(k, v), ht, rfl⟩)
      rw [lookup_cons, if_neg hk]
      exact ih hn.2 ht

/-! ## Character lemmas -/

theorem char_ofNat_toNat_of_valid {m : Nat} (h1 : 97 ≤ m) (h2 : m ≤ 122) :
    (Char.ofNat m).toNat = m := by
  have hv : m.isValidChar := Or.inl (by omega)
  rw [Char.ofNat, dif_pos hv]
  rfl

theorem toLower_toNat (c : Char) :
    c.toLower.toNat = if 65 ≤ c.toNat ∧ c.toNat ≤ 90 then c.toNat + 32 else c.toNat := by
  rw [Char.toLower]
  by_cases h : c.toNat ≥ 65 ∧ c.toNat ≤ 90
  · rw [if_pos h, if_pos ⟨h.1, h.2⟩]
    exact char_ofNat_toNat_of_valid (by omega) (by omega)
  · rw [if_neg h, if_neg (by tauto)]

theorem toNat_inj_char {c d : Char} (h : c.toNat = d.toNat) : c = d := by
  rw [← Char.ofNat_toNat c, ← Char.ofNat_toNat d, h]

theorem toLower_ne_underscore {c : Char} (hc : c ≠ '_') : c.toLower ≠ '_' := by
  intro he
  have h1 : c.toLower.toNat = 95 := by rw [he]; rfl
  rw [toLower_toNat] at h1
  by_cases h : 65 ≤ c.toNat ∧ c.toNat ≤ 90
  · rw [if_pos h] at h1; omega
  · rw [if_neg h] at h1
    exact hc (toNat_inj_char (by rw [h1]; rfl))

theorem digit_toLower {c : Char} (h : c.isDigit = true) : c.toLower = c := by
  simp only [Char.isDigit, Bool.and_eq_true, decide_eq_true_eq] at h
  have hle : c.val.toNat ≤ 57 := UInt32.toNat_le_of_le (by norm_num [UInt32.size]) h.2
  apply toNat_inj_char
  rw [toLower_toNat, if_neg]
  rintro ⟨h65, _⟩
  have : c.toNat = c.val.toNat := rfl
  omega

theorem digit_toLower_ne_o {c : Char} (h : c.isDigit = true) : c.toLower ≠ 'o' := by
  rw [digit_toLower h]
  intro he
  simp only [Char.isDigit, Bool.and_eq_true, decide_eq_true_eq] at h
  have hle : c.val.toNat ≤ 57 := UInt32.toNat_le_of_le (by norm_num [UInt32.size]) h.2
  rw [he] at hle
  exact absurd hle (by decide)

theorem digit_ne_underscore {c : Char} (h : c.isDigit = true) : c ≠ '_' := by
  intro he
  simp only [Char.isDigit, Bool.and_eq_true, decide_eq_true_eq] at h
  have hle : c.val.toNat ≤ 57 := UInt32.toNat_le_of_le (by norm_num [UInt32.size]) h.2
  rw [he] at hle
  exact absurd hle (by decide)

/-! ## String and decimal-rendering lemmas -/

theorem takeWhile_append_eq {α : Type} (p : α → Bool) (xs : List α) (y : α) (ys : List α)
    (hx : ∀ x ∈ xs, p x = true) (hy : p y = false) :
    (xs ++ y :: ys).takeWhile p = xs := by
  induction xs with
  | nil => simp [List.takeWhile_cons, hy]
  | cons a t ih =>
    have ha : p a = true := hx a (by simp)
    simp only [List.cons_append, List.takeWhile_cons_of_pos ha]
    rw [ih fun x hx' => hx x (by simp [hx'])]

theorem dropWhile_append_eq {α : Type} (p : α → Bool) (xs : List α) (y : α) (ys : List α)
    (hx : ∀ x ∈ xs, p x = true) (hy : p y = false) :
    (xs ++ y :: ys).dropWhile p = y :: ys := by
  induction xs with
  | nil => simp [List.dropWhile_cons, hy]
  | cons a t ih =>
    have ha : p a = true := hx a (by simp)
    simp only [List.cons_append, List.dropWhile_cons_of_pos ha]
    exact ih fun x hx' => hx x (by simp [hx'])

theorem string_data_append (a b : String) : (a ++ b).data = a.data ++ b.data := rfl

theorem natStrAux_ne_nil (fuel n : Nat) : natStrAux (fuel + 1) n ≠ [] := by
  rw [natStrAux]
  by_cases h : n < 10
  · simp [h]
  · simp [h]

theorem natStr_lt10 {n : Nat} (h : n < 10) : natStr n = String.mk [Nat.digitChar n] := by
  rw [natStr, natStrAux, if_pos h]

theorem natStr_ge10_len {n : Nat} (h : 10 ≤ n) : 2 ≤ (natStr n).data.length := by
  rw [natStr, natStrAux, if_neg (by omega)]
  show 2 ≤ (natStrAux n (n / 10) ++ [Nat.digitChar (n % 10)]).length
  rw [List.length_append]
  obtain ⟨f, rfl⟩ : ∃ f, n = f + 1 := ⟨n - 1, by omega⟩
  have := natStrAux_ne_nil f ((f + 1) / 10)
  have hl : 1 ≤ (natStrAux (f + 1) ((f + 1) / 10)).length := by
    cases hq : natStrAux (f + 1) ((f + 1) / 10) with
    | nil => exact absurd hq this
    | cons a t => simp
  simp
  omega

theorem natStr_ne_of_ge4_lt4 {n i : Nat} (hn : 4 ≤ n) (hi : i < 4) :
    natStr n ≠ natStr i := by
  intro he
  interval_cases i <;>
  · by_cases h10 : n < 10
    · interval_cases n <;> exact absurd he (by decide)
    · have h2 := natStr_ge10_len (by omega : 10 ≤ n)
      rw [he] at h2
      simp [natStr, natStrAux] at h2

theorem mem_data_lodLayerName (v : String) (i : Nat) :
    '_' ∈ (lodLayerName v i).data := by
  rw [lodLayerName, string_data_append, string_data_append]
  refine List.mem_append.mpr (Or.inl (List.mem_append.mpr (Or.inr ?_)))
  show '_' ∈ ['_', 'L', 'O', 'D']
  simp

theorem var_ne_lodLayerName {v w : String} {j : Nat} (hv : '_' ∉ v.data) :
    v ≠ lodLayerName w j := by
  intro he
  exact hv (he ▸ mem_data_lodLayerName w j)

theorem lodLayerName_inj {v w : String} {i j : Nat}
    (hv : '_' ∉ v.data) (hw : '_' ∉ w.data)
    (h : lodLayerName v i = lodLayerName w j) : v = w ∧ natStr i = natStr j := by
  have hd : v.data ++ '_' :: ('L' :: 'O' :: 'D' :: (natStr i).data) =
      w.data ++ '_' :: ('L' :: 'O' :: 'D' :: (natStr j).data) := by
    have := congrArg String.data h
    rw [lodLayerName, lodLayerName, string_data_append, string_data_append,
        string_data_append, string_data_append] at this
    simpa using this
  have hvtk : ∀ x ∈ v.data, (!(x = '_' : Bool)) = true := by
    intro x hx
    simp only [Bool.not_eq_true']
    exact decide_eq_false (fun he => hv (he ▸ hx))
  have hwtk : ∀ x ∈ w.data, (!(x = '_' : Bool)) = true := by
    intro x hx
    simp only [Bool.not_eq_true']
    exact decide_eq_false (fun he => hw (he ▸ hx))
  have hu : (!('_' = '_' : Bool)) = false := by simp
  have h1 : v.data = w.data := by
    have hv' := takeWhile_append_eq (fun c => !(c = '_' : Bool)) v.data '_'
      ('L' :: 'O' :: 'D' :: (natStr i).data) hvtk hu
    have hw' := takeWhile_append_eq (fun c => !(c = '_' : Bool)) w.data '_'
      ('L' :: 'O' :: 'D' :: (natStr j).data) hwtk hu
    rw [← hv', ← hw', hd]
  refine ⟨congrArg String.mk h1, ?_⟩
  rw [h1] at hd
  have h2 := List.append_cancel_left hd
  simp only [List.cons.injEq] at h2
  obtain ⟨-, -, -, -, h2⟩ := h2
  exact congrArg String.mk h2

/-! ## Batch, dedup, sort and parse lemmas -/

/-- Membership of a handle in a named batch of a `nodes_by_layer` list. -/
def inBatch (x : Nat) (nm : String) (l : List (String × List Nat)) : Prop :=
  ∃ hs, (nm, hs) ∈ l ∧ x ∈ hs

theorem inBatch_pushVal_mono {l : List (String × List Nat)} {k : String} {v : Nat}
    {nm : String} {x : Nat} (h : inBatch x nm l) : inBatch x nm (pushVal l k v) := by
  induction l with
  | nil => simp [inBatch] at h
  | cons p t ih =>
    obtain ⟨k', vs⟩ := p
    obtain ⟨hs, hm, hx⟩ := h
    rw [pushVal]
    by_cases hk : k' = k
    · rw [if_pos hk]
      rcases List.mem_cons.mp hm with hm | hm
      · rw [Prod.mk.injEq] at hm
        obtain ⟨h1, h2⟩ := hm
        exact ⟨vs ++ [v], by rw [h1]; exact List.mem_cons_self _ _,
          List.mem_append.mpr (Or.inl (h2 ▸ hx))⟩
      · exact ⟨hs, List.mem_cons_of_mem _ hm, hx⟩
    · rw [if_neg hk]
      rcases List.mem_cons.mp hm with hm | hm
      · exact ⟨hs, List.mem_cons.mpr (Or.inl hm), hx⟩
      · obtain ⟨hs', hm', hx'⟩ := ih ⟨hs, hm, hx⟩
        exact ⟨hs', List.mem_cons_of_mem _ hm', hx'⟩

theorem inBatch_pushVal_self (l : List (String × List Nat)) (k : String) (v : Nat) :
    inBatch v k (pushVal l k v) := by
  induction l with
  | nil => exact ⟨[v], by simp [pushVal], by simp⟩
  | cons p t ih =>
    obtain ⟨k', vs⟩ := p
    rw [pushVal]
    by_cases hk : k' = k
    · rw [if_pos hk]
      subst hk
      exact ⟨vs ++ [v], List.mem_cons_self _ _, List.mem_append.mpr (Or.inr (by simp))⟩
    · rw [if_neg hk]
      obtain ⟨hs', hm', hx'⟩ := ih
      exact ⟨hs', List.mem_cons_of_mem _ hm', hx'⟩

theorem inBatch_pushVal_src {l : List (String × List Nat)} {k : String} {v : Nat}
    {nm : String} {x : Nat} (h : inBatch x nm (pushVal l k v)) :
    inBatch x nm l ∨ (nm = k ∧ x = v) := by
  induction l with
  | nil =>
    obtain ⟨hs, hm, hx⟩ := h
    rw [pushVal, List.mem_singleton, Prod.mk.injEq] at hm
    obtain ⟨h1, h2⟩ := hm
    subst h1; subst h2
    rw [List.mem_singleton] at hx
    exact Or.inr ⟨rfl, hx⟩
  | cons p t ih =>
    obtain ⟨k', vs⟩ := p
    obtain ⟨hs, hm, hx⟩ := h
    rw [pushVal] at hm
    by_cases hk : k' = k
    · rw [if_pos hk] at hm
      rcases List.mem_cons.mp hm with hm | hm
      · rw [Prod.mk.injEq] at hm
        obtain ⟨h1, h2⟩ := hm
        subst h1; subst h2
        rcases List.mem_append.mp hx with hx | hx
        · exact Or.inl ⟨vs, List.mem_cons_self _ _, hx⟩
        · rw [List.mem_singleton] at hx
          exact Or.inr ⟨hk, hx⟩
      · exact Or.inl ⟨hs, List.mem_cons_of_mem _ hm, hx⟩
    · rw [if_neg hk] at hm
      rcases List.mem_cons.mp hm with hm | hm
      · exact Or.inl ⟨hs, List.mem_cons.mpr (Or.inl hm), hx⟩
      · rcases ih ⟨hs, hm, hx⟩ with h' | h'
        · obtain ⟨hs', hm', hx'⟩ := h'
          exact Or.inl ⟨hs', List.mem_cons_of_mem _ hm', hx'⟩
        · exact Or.inr h'

theorem mem_dedupAux {l acc : List String} {x : String} :
    x ∈ dedupAux l acc ↔ x ∈ acc ∨ x ∈ l := by
  induction l generalizing acc with
  | nil => simp [dedupAux]
  | cons s t ih =>
    rw [dedupAux]
    by_cases hc : acc.contains s
    · rw [if_pos hc, ih]
      constructor
      · rintro (h | h)
        · exact Or.inl h
        · exact Or.inr (by simp [h])
      · rintro (h | h)
        · exact Or.inl h
        · rcases List.mem_cons.mp h with rfl | h
          · exact Or.inl (by simpa using hc)
          · exact Or.inr h
    · rw [if_neg hc, ih]
      constructor
      · rintro (h | h)
        · rcases List.mem_append.mp h with h | h
          · exact Or.inl h
          · rw [List.mem_singleton] at h
            exact Or.inr (by simp [h])
        · exact Or.inr (by simp [h])
      · rintro (h | h)
        · exact Or.inl (List.mem_append.mpr (Or.inl h))
        · rcases List.mem_cons.mp h with rfl | h
          · exact Or.inl (List.mem_append.mpr (Or.inr (by simp)))
          · exact Or.inr h

theorem nodup_dedupAux {l acc : List String} (h : acc.Nodup) :
    (dedupAux l acc).Nodup := by
  induction l generalizing acc with
  | nil => exact h
  | cons s t ih =>
    rw [dedupAux]
    by_cases hc : acc.contains s
    · rw [if_pos hc]
      exact ih h
    · rw [if_neg hc]
      refine ih ?_
      have hs : s ∉ acc := by simpa using hc
      rw [List.nodup_append]
      refine ⟨h, List.nodup_singleton s, ?_⟩
      intro a ha hb
      rw [List.mem_singleton] at hb
      subst hb
      exact hs ha

theorem mem_dedup {l : List String} {x : String} : x ∈ dedup l ↔ x ∈ l := by
  rw [dedup, mem_dedupAux]
  simp

theorem nodup_dedup (l : List String) : (dedup l).Nodup :=
  nodup_dedupAux List.nodup_nil

theorem mem_insertStr {s x : String} {l : List String} :
    x ∈ insertStr s l ↔ x = s ∨ x ∈ l := by
  induction l with
  | nil => simp [insertStr]
  | cons t ts ih =>
    rw [insertStr]
    by_cases h : t < s
    · rw [if_pos h]
      simp only [List.mem_cons, ih]
      tauto
    · rw [if_neg h]
      exact List.mem_cons

theorem mem_sortStrings {l : List String} {x : String} :
    x ∈ sortStrings l ↔ x ∈ l := by
  induction l with
  | nil => simp [sortStrings]
  | cons s t ih =>
    show x ∈ insertStr s (sortStrings t) ↔ _
    rw [mem_insertStr, ih]
    simp

theorem nodup_insertStr {s : String} {l : List String} (h : l.Nodup)
    (hs : s ∉ l) : (insertStr s l).Nodup := by
  induction l with
  | nil => simp [insertStr]
  | cons t ts ih =>
    rw [insertStr]
    by_cases hlt : t < s
    · rw [if_pos hlt]
      rcases List.nodup_cons.mp h with ⟨ht, hts⟩
      refine List.nodup_cons.mpr
        ⟨?_, ih hts (fun hm => hs (List.mem_cons_of_mem _ hm))⟩
      intro hm
      rcases mem_insertStr.mp hm with rfl | hm
      · exact hs (List.mem_cons_self _ _)
      · exact ht hm
    · rw [if_neg hlt]
      refine List.nodup_cons.mpr ⟨?_, h⟩
      intro hm
      rcases List.mem_cons.mp hm with rfl | hm
      · exact hs (List.mem_cons_self _ _)
      · exact hs (List.mem_cons_of_mem _ hm)

theorem nodup_sortStrings {l : List String} (h : l.Nodup) :
    (sortStrings l).Nodup := by
  induction l with
  | nil => simp [sortStrings]
  | cons s t ih =>
    rcases List.nodup_cons.mp h with ⟨hs, ht⟩
    show (insertStr s (sortStrings t)).Nodup
    exact nodup_insertStr (ih ht) (fun hm => hs (mem_sortStrings.mp hm))

theorem mem_collect_scene_variants {objs : List Obj} {x : String} :
    x ∈ collect_scene_variants objs ↔
      ∃ o ∈ objs, ∃ l, parse_name (.str o.name) = some (l, x) := by
  rw [collect_scene_variants, mem_sortStrings, mem_dedup]
  simp only [List.mem_filterMap, Option.map_eq_some']
  constructor
  · rintro ⟨o, ho, ⟨l, v⟩, hp, rfl⟩
    exact ⟨o, ho, l, hp⟩
  · rintro ⟨o, ho, l, hp⟩
    exact ⟨o, ho, (l, x), hp, rfl⟩

theorem nodup_collect_scene_variants (objs : List Obj) :
    (collect_scene_variants objs).Nodup :=
  nodup_sortStrings (nodup_dedup _)

/-- Characterization of the post-prefix regex fragment. -/
theorem matchAfterPrefix_eq_some {cs : List Char} {n : Nat} {v : String} :
    matchAfterPrefix cs = some (n, v) ↔
      ∃ ds tok r, cs = ds ++ '_' :: (tok ++ '_' :: r) ∧
        ds ≠ [] ∧ (∀ c ∈ ds, c.isDigit = true) ∧
        tok ≠ [] ∧ (∀ c ∈ tok, c ≠ '_') ∧
        n = digitsToNat ds ∧ v = lowerStr tok := by
  constructor
  · intro h
    simp only [matchAfterPrefix] at h
    split at h
    · exact absurd h (by simp)
    · rename_i hds
      split at h
      · rename_i r2 hr1
        split at h
        · exact absurd h (by simp)
        · rename_i htok
          split at h
          · rename_i r3tail hr3
            rw [Option.some.injEq, Prod.mk.injEq] at h
            obtain ⟨hn, hv⟩ := h
            refine ⟨cs.takeWhile Char.isDigit,
              r2.takeWhile (fun c => !(c = '_' : Bool)), r3tail, ?_, hds, ?_, htok, ?_,
              hn.symm, hv.symm⟩
            · conv_lhs => rw [← List.takeWhile_append_dropWhile Char.isDigit cs]
              rw [hr1]
              congr 1
              conv_lhs =>
                rw [← List.takeWhile_append_dropWhile
                  (fun c => !(c = '_' : Bool)) r2]
              rw [hr3]
            · intro c hc
              exact List.mem_takeWhile_imp hc
            · intro c hc
              have := List.mem_takeWhile_imp hc
              simpa using this
          · exact absurd h (by simp)
      · exact absurd h (by simp)
  · rintro ⟨ds, tok, r, rfl, hds, hdig, htok, hund, rfl, rfl⟩
    have hu : Char.isDigit '_' = false := by decide
    have htk := takeWhile_append_eq Char.isDigit ds '_' (tok ++ '_' :: r) hdig hu
    have hdr := dropWhile_append_eq Char.isDigit ds '_' (tok ++ '_' :: r) hdig hu
    have htk2 := takeWhile_append_eq (fun c => !(c = '_' : Bool)) tok '_' r
      (fun x hx => by simpa using hund x hx) (by simp)
    have hdr2 := dropWhile_append_eq (fun c => !(c = '_' : Bool)) tok '_' r
      (fun x hx => by simpa using hund x hx) (by simp)
    simp only [matchAfterPrefix, htk, hdr, htk2, hdr2, if_neg hds, if_neg htok]

theorem matchAfterPrefix_no_underscore {cs : List Char} {l : Nat} {v : String}
    (h : matchAfterPrefix cs = some (l, v)) : '_' ∉ v.data := by
  obtain ⟨ds, tok, r, -, -, -, -, hund, -, rfl⟩ := matchAfterPrefix_eq_some.mp h
  intro hm
  rw [lowerStr] at hm
  simp only [List.mem_map] at hm
  obtain ⟨c, hc, he⟩ := hm
  exact toLower_ne_underscore (hund c hc) he

theorem parse_no_underscore {nm : String} {l : Nat} {v : String}
    (h : parse_name (.str nm) = some (l, v)) : '_' ∉ v.data := by
  simp only [parse_name] at h
  split at h
  · rename_i r heq
    rw [Option.some.injEq] at h
    subst h
    split at heq
    · split at heq
      · exact matchAfterPrefix_no_underscore heq
      · exact absurd heq (by simp)
    · exact absurd heq (by simp)
  · split at h
    · split at h
      · exact matchAfterPrefix_no_underscore h
      · exact absurd h (by simp)
    · exact absurd h (by simp)

theorem dictBeq_refl {bs : List (String × Bool)} (h : (bs.map Prod.fst).Nodup) :
    dictBeq bs bs = true := by
  rw [dictBeq]
  have hall : ∀ kv ∈ bs, (bs.lookup kv.1 == some kv.2) = true := by
    rintro ⟨k, v⟩ hm
    exact beq_iff_eq.mpr (mem_lookup_nodup h hm)
  simp only [Bool.and_eq_true, List.all_eq_true]
  exact ⟨hall, hall⟩

/-! ## C2: the name-parsing contract -/

theorem map_toLower_eq_lod {p : List Char} (h : p.map Char.toLower = ['l', 'o', 'd']) :
    ∃ a b c, p = [a, b, c] ∧ a.toLower = 'l' ∧ b.toLower = 'o' ∧ c.toLower = 'd' := by
  cases p with
  | nil => simp at h
  | cons a p1 =>
    cases p1 with
    | nil => simp at h
    | cons b p2 =>
      cases p2 with
      | nil => simp at h
      | cons c p3 =>
        cases p3 with
        | cons d p4 => simp at h
        | nil =>
          simp only [List.map_cons, List.map_nil, List.cons.injEq, and_true] at h
          exact ⟨a, b, c, rfl, h.1, h.2.1, h.2.2⟩

theorem map_toLower_eq_l {p : List Char} (h : p.map Char.toLower = ['l']) :
    ∃ a, p = [a] ∧ a.toLower = 'l' := by
  cases p with
  | nil => simp at h
  | cons a p1 =>
    cases p1 with
    | cons b p2 => simp at h
    | nil =>
      simp only [List.map_cons, List.map_nil, List.cons.injEq, and_true] at h
      exact ⟨a, rfl, h⟩

/-- Full characterization of `parse_name` on strings: it succeeds exactly on
the strings matched by `^(?:lod|l)(\d+)_([^_]+)_` (case-insensitive), with
the documented groups. -/
theorem parse_name_eq_some_iff (s : String) (n : Nat) (v : String) :
    parse_name (.str s) = some (n, v) ↔
      ∃ p ds tok r, s.data = p ++ (ds ++ '_' :: (tok ++ '_' :: r)) ∧
        (p.map Char.toLower = ['l', 'o', 'd'] ∨ p.map Char.toLower = ['l']) ∧
        ds ≠ [] ∧ (∀ c ∈ ds, c.isDigit = true) ∧
        tok ≠ [] ∧ (∀ c ∈ tok, c ≠ '_') ∧
        n = digitsToNat ds ∧ v = lowerStr tok := by
  constructor
  · intro h
    simp only [parse_name] at h
    split at h
    · rename_i r0 heq
      rw [Option.some.injEq] at h
      subst h
      split at heq
      · rename_i c0 c1 c2 rest hsd
        split at heq
        · rename_i hcond
          simp only [Bool.and_eq_true, decide_eq_true_eq] at hcond
          obtain ⟨ds, tok, r, hrest, hds, hdig, htok, hund, hn, hv⟩ :=
            matchAfterPrefix_eq_some.mp heq
          exact ⟨[c0, c1, c2], ds, tok, r, by simp [hsd, hrest],
            Or.inl (by simp [hcond.1.1, hcond.1.2, hcond.2]),
            hds, hdig, htok, hund, hn, hv⟩
        · exact absurd heq (by simp)
      · exact absurd heq (by simp)
    · rename_i heq0
      split at h
      · rename_i c0 rest hsd
        split at h
        · rename_i hcond
          obtain ⟨ds, tok, r, hrest, hds, hdig, htok, hund, hn, hv⟩ :=
            matchAfterPrefix_eq_some.mp h
          exact ⟨[c0], ds, tok, r, by simp [hsd, hrest],
            Or.inr (by simp [decide_eq_true_eq] at hcond ⊢; exact hcond),
            hds, hdig, htok, hund, hn, hv⟩
        · exact absurd h (by simp)
      · exact absurd h (by simp)
  · rintro ⟨p, ds, tok, r, hs, hp, hds, hdig, htok, hund, rfl, rfl⟩
    have hmm : matchAfterPrefix (ds ++ '_' :: (tok ++ '_' :: r)) =
        some (digitsToNat ds, lowerStr tok) :=
      matchAfterPrefix_eq_some.mpr ⟨ds, tok, r, rfl, hds, hdig, htok, hund, rfl, rfl⟩
    rcases hp with hp | hp
    · obtain ⟨a, b, c, rfl, hla, hlb, hlc⟩ := map_toLower_eq_lod hp
      simp only [parse_name, hs]
      simp only [List.cons_append, List.nil_append]
      rw [if_pos (by simp [hla, hlb, hlc]), hmm]
    · obtain ⟨a, rfl, hla⟩ := map_toLower_eq_l hp
      obtain ⟨d0, ds', rfl⟩ : ∃ d0 ds', ds = d0 :: ds' := by
        cases ds with
        | nil => exact absurd rfl hds
        | cons d0 ds' => exact ⟨d0, ds', rfl⟩
      have hd0 : d0.isDigit = true := hdig d0 (by simp)
      -- the tail after the first digit is nonempty, so the `lod` alternative is
      -- attempted on `a :: d0 :: e :: ...` and fails on the digit in place of `o`
      obtain ⟨e, mid, hmid⟩ :
          ∃ e mid, ds' ++ '_' :: (tok ++ '_' :: r) = e :: mid := by
        cases ds' with
        | nil => exact ⟨'_', _, rfl⟩
        | cons e ds'' => exact ⟨e, _, rfl⟩
      simp only [parse_name, hs]
      simp only [List.cons_append, List.nil_append, hmid]
      rw [if_neg (by simp [digit_toLower_ne_o hd0])]
      rw [if_pos (by simp [hla])]
      rw [← hmid]
      show matchAfterPrefix (d0 :: (ds' ++ '_' :: (tok ++ '_' :: r))) =
        some (digitsToNat (d0 :: ds'), lowerStr tok)
      rw [show d0 :: (ds' ++ '_' :: (tok ++ '_' :: r)) =
        (d0 :: ds') ++ '_' :: (tok ++ '_' :: r) from rfl, hmm]

/-- C2: `parse_name` is a pure total function: it returns `none` (the
no-match result) for every non-string input and for every string the
pattern `^(?:lod|l)(\\d+)_([^_]+)_` (case-insensitive) does not match,
and never raises; on a match it returns the digit group as an integer and
the variant token lower-cased, so `parse_name "LOD2_Sport_body" = some
(2, "sport")` and `parse_name "randomName" = none`.  Matching is
characterized exactly: a prefix spelling `lod` or `l` case-insensitively,
one or more digits, an underscore, one or more non-underscore characters,
and a required trailing underscore. -/
theorem C2_parse_name_contract :
    parse_name .nonStr = none ∧
    parse_name (.str "LOD2_Sport_body") = some (2, "sport") ∧
    parse_name (.str "randomName") = none ∧
    ∀ (s : String) (n : Nat) (v : String),
      parse_name (.str s) = some (n, v) ↔
        ∃ p ds tok r, s.data = p ++ (ds ++ '_' :: (tok ++ '_' :: r)) ∧
          (p.map Char.toLower = ['l', 'o', 'd'] ∨ p.map Char.toLower = ['l']) ∧
          ds ≠ [] ∧ (∀ c ∈ ds, c.isDigit = true) ∧
          tok ≠ [] ∧ (∀ c ∈ tok, c ≠ '_') ∧
          n = digitsToNat ds ∧ v = lowerStr tok :=
  ⟨rfl, by decide, by decide, parse_name_eq_some_iff⟩

/-! ## Frame lemmas for the primitive operations -/

theorem updFun_same {b : Type} (f : Nat → b) (k : Nat) (v : b) : updFun f k v k = v := by
  simp [updFun]

theorem updFun_ne {b : Type} (f : Nat → b) {k x : Nat} (v : b) (h : x ≠ k) :
    updFun f k v x = f x := by
  simp [updFun, h]

theorem updStr_same {b : Type} (f : String → b) (k : String) (v : b) :
    updStr f k v k = v := by
  simp [updStr]

theorem updStr_ne {b : Type} (f : String → b) {k x : String} (v : b) (h : x ≠ k) :
    updStr f k v x = f x := by
  simp [updStr, h]

theorem contains_mem {l : List String} {x : String} (h : l.contains x = true) :
    x ∈ l := by
  simpa using h

theorem mem_contains {l : List String} {x : String} (h : x ∈ l) :
    l.contains x = true := by
  simpa using h

theorem lookup_append_left {α β : Type} [BEq α] [LawfulBEq α] [DecidableEq α]
    {l1 l2 : List (α × β)} {k : α} {x : β} (h : l1.lookup k = some x) :
    (l1 ++ l2).lookup k = some x := by
  induction l1 with
  | nil => simp [List.lookup] at h
  | cons p t ih =>
    obtain ⟨k', v'⟩ := p
    rw [lookup_cons] at h
    rw [List.cons_append, lookup_cons]
    by_cases hk : k = k'
    · rwa [if_pos hk] at h ⊢
    · rw [if_neg hk] at h ⊢
      exact ih h

theorem lookup_append_right {α β : Type} [BEq α] [LawfulBEq α] [DecidableEq α]
    {l1 : List (α × β)} (l2 : List (α × β)) {k : α} (h : l1.lookup k = none) :
    (l1 ++ l2).lookup k = l2.lookup k := by
  induction l1 with
  | nil => simp
  | cons p t ih =>
    obtain ⟨k', v'⟩ := p
    rw [lookup_cons] at h
    rw [List.cons_append, lookup_cons]
    by_cases hk : k = k'
    · rw [if_pos hk] at h
      exact absurd h (by simp)
    · rw [if_neg hk] at h ⊢
      exact ih h

/-- Every name cached in `_layer_cache` still names an existing layer. -/
def cacheValid (st : Engine) (h : Host) : Prop :=
  ∀ nm ∈ st.layer_cache, (h.layerOn nm).isSome = true

/-- Frame and extension facts for `get_or_create_layer`. -/
theorem get_or_create_layer_spec (name : String) (st : Engine) (h : Host) :
    (get_or_create_layer name st h).1.original_layers = st.original_layers ∧
    (get_or_create_layer name st h).1.layer_nodes = st.layer_nodes ∧
    (get_or_create_layer name st h).1.layer_visible = st.layer_visible ∧
    (get_or_create_layer name st h).1.last_button_states = st.last_button_states ∧
    (get_or_create_layer name st h).1.current_variants = st.current_variants ∧
    (get_or_create_layer name st h).2.1.objLayer = h.objLayer ∧
    (get_or_create_layer name st h).2.1.objHidden = h.objHidden ∧
    (get_or_create_layer name st h).2.1.tags = h.tags ∧
    (∀ m b, h.layerOn m = some b → (get_or_create_layer name st h).2.1.layerOn m = some b) := by
  rw [get_or_create_layer]
  by_cases h1 : st.layer_cache.contains name
  · rw [if_pos h1]
    exact ⟨rfl, rfl, rfl, rfl, rfl, rfl, rfl, rfl, fun m b hb => hb⟩
  · rw [if_neg h1]
    by_cases h2 : (h.layerOn name).isSome
    · rw [if_pos h2]
      exact ⟨rfl, rfl, rfl, rfl, rfl, rfl, rfl, rfl, fun m b hb => hb⟩
    · rw [if_neg h2]
      refine ⟨rfl, rfl, rfl, rfl, rfl, rfl, rfl, rfl, fun m b hb => ?_⟩
      show updStr h.layerOn name (some true) m = some b
      have hm : m ≠ name := by
        rintro rfl
        rw [hb] at h2
        exact h2 rfl
      rw [updStr_ne _ _ hm]
      exact hb

/-- `get_or_create_layer` keeps the cache valid and makes the requested
layer exist. -/
theorem get_or_create_layer_valid {name : String} {st : Engine} {h : Host}
    (hv : cacheValid st h) :
    cacheValid (get_or_create_layer name st h).1 (get_or_create_layer name st h).2.1 ∧
    ((get_or_create_layer name st h).2.1.layerOn name).isSome = true := by
  rw [get_or_create_layer]
  by_cases h1 : st.layer_cache.contains name
  · rw [if_pos h1]
    exact ⟨hv, hv name (contains_mem h1)⟩
  · rw [if_neg h1]
    by_cases h2 : (h.layerOn name).isSome
    · rw [if_pos h2]
      refine ⟨?_, h2⟩
      intro nm hm
      rcases List.mem_append.mp hm with hm | hm
      · exact hv nm hm
      · rw [List.mem_singleton] at hm
        subst hm
        exact h2
    · rw [if_neg h2]
      constructor
      · intro nm hm
        show (updStr h.layerOn name (some true) nm).isSome = true
        rcases List.mem_append.mp hm with hm2 | hm2
        · have hn : nm ≠ name := fun he => h1 (he ▸ mem_contains hm2)
          rw [updStr_ne _ _ hn]
          exact hv nm hm2
        · rw [List.mem_singleton] at hm2
          subst hm2
          rw [updStr_same]
          rfl
      · show (updStr h.layerOn name (some true) name).isSome = true
        rw [updStr_same]
        rfl

/-- Frame facts for `get_layer_cached`. -/
theorem get_layer_cached_spec (name : String) (st : Engine) (h : Host) :
    (get_layer_cached name st h).2.original_layers = st.original_layers ∧
    (get_layer_cached name st h).2.layer_nodes = st.layer_nodes ∧
    (get_layer_cached name st h).2.layer_visible = st.layer_visible ∧
    (get_layer_cached name st h).2.last_button_states = st.last_button_states ∧
    (get_layer_cached name st h).2.current_variants = st.current_variants := by
  rw [get_layer_cached]
  by_cases h1 : st.layer_cache.contains name
  · rw [if_pos h1]
    exact ⟨rfl, rfl, rfl, rfl, rfl⟩
  · rw [if_neg h1]
    by_cases h2 : (h.layerOn name).isSome
    · rw [if_pos h2]
      exact ⟨rfl, rfl, rfl, rfl, rfl⟩
    · rw [if_neg h2]
      exact ⟨rfl, rfl, rfl, rfl, rfl⟩

theorem get_layer_cached_found {name : String} {st : Engine} {h : Host}
    (he : (h.layerOn name).isSome = true) : (get_layer_cached name st h).1 = true := by
  rw [get_layer_cached]
  by_cases h1 : st.layer_cache.contains name
  · rw [if_pos h1]
  · rw [if_neg h1, if_pos he]

/-- Frame and lookup facts for `record_original_layer`. -/
theorem record_original_layer_spec (o : Obj) (st : Engine) (h : Host) :
    (record_original_layer o st h).layer_cache = st.layer_cache ∧
    (record_original_layer o st h).layer_nodes = st.layer_nodes ∧
    (record_original_layer o st h).layer_visible = st.layer_visible ∧
    (record_original_layer o st h).last_button_states = st.last_button_states ∧
    (record_original_layer o st h).current_variants = st.current_variants ∧
    (record_original_layer o st h).created_layers = st.created_layers ∧
    (record_original_layer o st h).track_created = st.track_created := by
  rw [record_original_layer]
  split
  · exact ⟨rfl, rfl, rfl, rfl, rfl, rfl, rfl⟩
  · exact ⟨rfl, rfl, rfl, rfl, rfl, rfl, rfl⟩

theorem record_original_layer_lookup_mono {o : Obj} {st : Engine} {h : Host}
    {k : Nat} {x : String} (hl : st.original_layers.lookup k = some x) :
    (record_original_layer o st h).original_layers.lookup k = some x := by
  rw [record_original_layer]
  split
  · exact hl
  · exact lookup_append_left hl

theorem record_original_layer_lookup_self (o : Obj) (st : Engine) (h : Host) :
    (record_original_layer o st h).original_layers.lookup o.handle =
      some ((st.original_layers.lookup o.handle).getD (h.objLayer o.handle)) := by
  rw [record_original_layer]
  split
  · rename_i hs
    obtain ⟨x, hx⟩ := Option.isSome_iff_exists.mp hs
    rw [hx]
    rfl
  · rename_i hs
    have hn : st.original_layers.lookup o.handle = none := by
      cases hq : st.original_layers.lookup o.handle with
      | none => rfl
      | some x => rw [hq] at hs; exact absurd rfl hs
    show (st.original_layers ++ [(o.handle, h.objLayer o.handle)]).lookup o.handle = _
    rw [lookup_append_right _ hn, hn]
    simp [lookup_cons]

theorem record_original_layer_keys_nodup {o : Obj} {st : Engine} {h : Host}
    (hn : (st.original_layers.map Prod.fst).Nodup) :
    ((record_original_layer o st h).original_layers.map Prod.fst).Nodup := by
  rw [record_original_layer]
  split
  · exact hn
  · rename_i hs
    rw [List.map_append, List.nodup_append]
    refine ⟨hn, by simp, ?_⟩
    intro a ha hb
    simp only [List.map_cons, List.map_nil, List.mem_singleton] at hb
    subst hb
    obtain ⟨⟨k, y⟩, hm, hk⟩ := List.mem_map.mp ha
    simp only at hk
    subst hk
    have := mem_lookup_nodup hn hm
    rw [this] at hs
    exact hs (by simp)

theorem collect_layer_handles_spec (objs : List Obj) (name : String)
    (st : Engine) (h : Host) :
    (collect_layer_handles objs name st h).2.original_layers = st.original_layers ∧
    (collect_layer_handles objs name st h).2.layer_cache = st.layer_cache ∧
    (collect_layer_handles objs name st h).2.layer_visible = st.layer_visible ∧
    (collect_layer_handles objs name st h).2.last_button_states = st.last_button_states ∧
    (collect_layer_handles objs name st h).2.current_variants = st.current_variants := by
  rw [collect_layer_handles]
  split
  · exact ⟨rfl, rfl, rfl, rfl, rfl⟩
  · exact ⟨rfl, rfl, rfl, rfl, rfl⟩

/-- `_bulk_set_hidden` only rewrites the listed handles' hidden flags. -/
theorem bulk_set_hidden_spec (hdls : List Nat) (hidden : Bool) (h : Host) :
    ((bulk_set_hidden hdls hidden h).1.layerOn = h.layerOn) ∧
    ((bulk_set_hidden hdls hidden h).1.layerParent = h.layerParent) ∧
    ((bulk_set_hidden hdls hidden h).1.objLayer = h.objLayer) ∧
    ((bulk_set_hidden hdls hidden h).1.tags = h.tags) ∧
    (∀ x, (bulk_set_hidden hdls hidden h).1.objHidden x =
      if x ∈ hdls then hidden else h.objHidden x) := by
  induction hdls generalizing h with
  | nil =>
    rw [bulk_set_hidden]
    exact ⟨rfl, rfl, rfl, rfl, fun x => by simp⟩
  | cons hd t ih =>
    rw [bulk_set_hidden]
    obtain ⟨i1, i2, i3, i4, i5⟩ := ih {h with objHidden := updFun h.objHidden hd hidden}
    refine ⟨i1, i2, i3, i4, fun x => ?_⟩
    rw [i5 x]
    by_cases hx : x ∈ hd :: t
    · rw [if_pos hx]
      rcases List.mem_cons.mp hx with rfl | hx'
      · by_cases hxt : x ∈ t
        · rw [if_pos hxt]
        · rw [if_neg hxt]
          show updFun h.objHidden x hidden x = hidden
          rw [updFun_same]
      · rw [if_pos hx']
    · rw [if_neg hx]
      have hx1 : x ∉ t := fun hc => hx (List.mem_cons_of_mem _ hc)
      have hx2 : x ≠ hd := fun hc => hx (hc ▸ List.mem_cons_self _ _)
      rw [if_neg hx1]
      show updFun h.objHidden hd hidden x = h.objHidden x
      rw [updFun_ne _ _ hx2]

/-- Sync only rewrites hidden flags and the `_layer_nodes` cache. -/
theorem sync_layer_spec (objs : List Obj) (name : String) (st : Engine) (h : Host) :
    ((sync_layer_objects_visibility objs name st h).2.1.layerOn = h.layerOn) ∧
    ((sync_layer_objects_visibility objs name st h).2.1.objLayer = h.objLayer) ∧
    ((sync_layer_objects_visibility objs name st h).2.1.tags = h.tags) ∧
    ((sync_layer_objects_visibility objs name st h).1.original_layers = st.original_layers) ∧
    ((sync_layer_objects_visibility objs name st h).1.layer_cache = st.layer_cache) ∧
    ((sync_layer_objects_visibility objs name st h).1.layer_visible = st.layer_visible) ∧
    ((sync_layer_objects_visibility objs name st h).1.last_button_states = st.last_button_states) ∧
    ((sync_layer_objects_visibility objs name st h).1.current_variants = st.current_variants) := by
  rw [sync_layer_objects_visibility]
  obtain ⟨c1, c2, c3, c4, c5⟩ := collect_layer_handles_spec objs name st h
  obtain ⟨b1, b2, b3, b4, b5⟩ := bulk_set_hidden_spec
    ((collect_layer_handles objs name st h).1) (!(h.layerOn name).getD true) h
  exact ⟨b1, b3, b4, c1, c2, c3, c4, c5⟩

theorem syncList_spec (objs : List Obj) (names : List String) (st : Engine) (h : Host) :
    ((syncList objs names st h).host.layerOn = h.layerOn) ∧
    ((syncList objs names st h).host.objLayer = h.objLayer) ∧
    ((syncList objs names st h).st.original_layers = st.original_layers) ∧
    ((syncList objs names st h).st.layer_visible = st.layer_visible) ∧
    ((syncList objs names st h).st.last_button_states = st.last_button_states) ∧
    ((syncList objs names st h).st.current_variants = st.current_variants) := by
  induction names generalizing st h with
  | nil =>
    rw [syncList]
    exact ⟨rfl, rfl, rfl, rfl, rfl, rfl⟩
  | cons n rest ih =>
    rw [syncList]
    obtain ⟨s1, s2, -, s4, s5, s6, s7, s8⟩ := sync_layer_spec objs n st h
    obtain ⟨i1, i2, i3, i4, i5, i6⟩ := ih
      ((sync_layer_objects_visibility objs n st h).1)
      ((sync_layer_objects_visibility objs n st h).2.1)
    exact ⟨by rw [i1, s1], by rw [i2, s2], by rw [i3, s4],
      by rw [i4, s6], by rw [i5, s7], by rw [i6, s8]⟩

/-! ## The collection pass: frame and content lemmas -/

/-- The collection pass neither moves nor hides objects, extends the layer
map conservatively, and only appends to the ledger; the session caches it
does not own are untouched. -/
theorem buildCollect_frame (fl : Faults) (variants : List String) (aw : Bool)
    (objs : List Obj) (c : CollectSt) :
    ((buildCollect fl variants aw objs c).c.host.objLayer = c.host.objLayer) ∧
    ((buildCollect fl variants aw objs c).c.host.objHidden = c.host.objHidden) ∧
    (∀ m b, c.host.layerOn m = some b →
      (buildCollect fl variants aw objs c).c.host.layerOn m = some b) ∧
    (∀ k x, c.st.original_layers.lookup k = some x →
      (buildCollect fl variants aw objs c).c.st.original_layers.lookup k = some x) ∧
    ((buildCollect fl variants aw objs c).c.st.layer_nodes = c.st.layer_nodes) ∧
    ((buildCollect fl variants aw objs c).c.st.layer_visible = c.st.layer_visible) ∧
    ((buildCollect fl variants aw objs c).c.st.last_button_states =
      c.st.last_button_states) ∧
    ((buildCollect fl variants aw objs c).c.st.current_variants =
      c.st.current_variants) := by
  induction objs generalizing c with
  | nil =>
    rw [buildCollect]
    exact ⟨rfl, rfl, fun m b hb => hb, fun k x hl => hl, rfl, rfl, rfl, rfl⟩
  | cons o rest ih =>
    rw [buildCollect]
    have step : ∀ c' : CollectSt,
        c'.host.objLayer = c.host.objLayer →
        c'.host.objHidden = c.host.objHidden →
        (∀ m b, c.host.layerOn m = some b → c'.host.layerOn m = some b) →
        (∀ k x, c.st.original_layers.lookup k = some x →
          c'.st.original_layers.lookup k = some x) →
        c'.st.layer_nodes = c.st.layer_nodes →
        c'.st.layer_visible = c.st.layer_visible →
        c'.st.last_button_states = c.st.last_button_states →
        c'.st.current_variants = c.st.current_variants →
        ((buildCollect fl variants aw rest c').c.host.objLayer = c.host.objLayer) ∧
        ((buildCollect fl variants aw rest c').c.host.objHidden = c.host.objHidden) ∧
        (∀ m b, c.host.layerOn m = some b →
          (buildCollect fl variants aw rest c').c.host.layerOn m = some b) ∧
        (∀ k x, c.st.original_layers.lookup k = some x →
          (buildCollect fl variants aw rest c').c.st.original_layers.lookup k = some x) ∧
        ((buildCollect fl variants aw rest c').c.st.layer_nodes = c.st.layer_nodes) ∧
        ((buildCollect fl variants aw rest c').c.st.layer_visible = c.st.layer_visible) ∧
        ((buildCollect fl variants aw rest c').c.st.last_button_states =
          c.st.last_button_states) ∧
        ((buildCollect fl variants aw rest c').c.st.current_variants =
          c.st.current_variants) := by
      intro c' e1 e2 e3 e4 e5 e6 e7 e8
      obtain ⟨i1, i2, i3, i4, i5, i6, i7, i8⟩ := ih c'
      exact ⟨by rw [i1, e1], by rw [i2, e2], fun m b hb => i3 m b (e3 m b hb),
        fun k x hx => i4 k x (e4 k x hx),
        by rw [i5, e5], by rw [i6, e6], by rw [i7, e7], by rw [i8, e8]⟩
    have wrongStep :
        ((buildCollect fl variants aw rest
          (if aw then
            {c with st := record_original_layer o c.st c.host,
                    wrongNodes := c.wrongNodes ++ [o.handle]}
           else c)).c.host.objLayer = c.host.objLayer) ∧
        ((buildCollect fl variants aw rest
          (if aw then
            {c with st := record_original_layer o c.st c.host,
                    wrongNodes := c.wrongNodes ++ [o.handle]}
           else c)).c.host.objHidden = c.host.objHidden) ∧
        (∀ m b, c.host.layerOn m = some b →
          (buildCollect fl variants aw rest
            (if aw then
              {c with st := record_original_layer o c.st c.host,
                      wrongNodes := c.wrongNodes ++ [o.handle]}
             else c)).c.host.layerOn m = some b) ∧
        (∀ k x, c.st.original_layers.lookup k = some x →
          (buildCollect fl variants aw rest
            (if aw then
              {c with st := record_original_layer o c.st c.host,
                      wrongNodes := c.wrongNodes ++ [o.handle]}
             else c)).c.st.original_layers.lookup k = some x) ∧
        ((buildCollect fl variants aw rest
          (if aw then
            {c with st := record_original_layer o c.st c.host,
                    wrongNodes := c.wrongNodes ++ [o.handle]}
           else c)).c.st.layer_nodes = c.st.layer_nodes) ∧
        ((buildCollect fl variants aw rest
          (if aw then
            {c with st := record_original_layer o c.st c.host,
                    wrongNodes := c.wrongNodes ++ [o.handle]}
           else c)).c.st.layer_visible = c.st.layer_visible) ∧
        ((buildCollect fl variants aw rest
          (if aw then
            {c with st := record_original_layer o c.st c.host,
                    wrongNodes := c.wrongNodes ++ [o.handle]}
           else c)).c.st.last_button_states = c.st.last_button_states) ∧
        ((buildCollect fl variants aw rest
          (if aw then
            {c with st := record_original_layer o c.st c.host,
                    wrongNodes := c.wrongNodes ++ [o.handle]}
           else c)).c.st.current_variants = c.st.current_variants) := by
      obtain ⟨r1, r2, r3, r4, r5, r6, r7⟩ := record_original_layer_spec o c.st c.host
      by_cases haw : aw
      · simp only [if_pos haw]
        exact step _ rfl rfl (fun m b hb => hb)
          (fun k x hx => record_original_layer_lookup_mono hx) r2 r3 r4 r5
      · simp only [if_neg haw]
        exact step c rfl rfl (fun m b hb => hb) (fun k x hx => hx) rfl rfl rfl rfl
    cases hp : parse_name (.str o.name) with
    | none => exact wrongStep
    | some p =>
      obtain ⟨lod, variant⟩ := p
      dsimp only
      by_cases hv : variants.contains variant
      · rw [if_pos hv]
        by_cases hl : c.lodLayers.contains (lodLayerName variant lod)
        · rw [if_pos hl]
          obtain ⟨r1, r2, r3, r4, r5, r6, r7⟩ := record_original_layer_spec o c.st c.host
          exact step _ rfl rfl (fun m b hb => hb)
            (fun k x hx => record_original_layer_lookup_mono hx) r2 r3 r4 r5
        · rw [if_neg hl]
          obtain ⟨g1, g2, g3, g4, g5, g6, g7, g8, g9⟩ :=
            get_or_create_layer_spec (lodLayerName variant lod)
              (record_original_layer o c.st c.host) c.host
          obtain ⟨r1, r2, r3, r4, r5, r6, r7⟩ := record_original_layer_spec o c.st c.host
          by_cases hf : fl.hasSetParent && fl.setParentFails (lodLayerName variant lod)
          · rw [if_pos hf]
            refine ⟨g6, g7, fun m b hb => g9 m b hb, ?_, ?_, ?_, ?_, ?_⟩
            · intro k x hx
              show (get_or_create_layer (lodLayerName variant lod)
                (record_original_layer o c.st c.host) c.host).1.original_layers.lookup k
                = some x
              rw [g1]
              exact record_original_layer_lookup_mono hx
            · show (get_or_create_layer _ _ _).1.layer_nodes = _
              rw [g2, r2]
            · show (get_or_create_layer _ _ _).1.layer_visible = _
              rw [g3, r3]
            · show (get_or_create_layer _ _ _).1.last_button_states = _
              rw [g4, r4]
            · show (get_or_create_layer _ _ _).1.current_variants = _
              rw [g5, r5]
          · rw [if_neg hf]
            refine step _ ?_ ?_ ?_ ?_ ?_ ?_ ?_ ?_
            · show (if fl.hasSetParent then _ else _ : Host).objLayer = _
              split
              · exact g6
              · exact g6
            · show (if fl.hasSetParent then _ else _ : Host).objHidden = _
              split
              · exact g7
              · exact g7
            · intro m b hb
              show (if fl.hasSetParent then _ else _ : Host).layerOn m = some b
              split
              · exact g9 m b hb
              · exact g9 m b hb
            · intro k x hx
              show (get_or_create_layer _ _ _).1.original_layers.lookup k = some x
              rw [g1]
              exact record_original_layer_lookup_mono hx
            · show (get_or_create_layer _ _ _).1.layer_nodes = _
              rw [g2, r2]
            · show (get_or_create_layer _ _ _).1.layer_visible = _
              rw [g3, r3]
            · show (get_or_create_layer _ _ _).1.last_button_states = _
              rw [g4, r4]
            · show (get_or_create_layer _ _ _).1.current_variants = _
              rw [g5, r5]
      · rw [if_neg hv]
        exact wrongStep

/-- With a host on which no call fails, the collection pass completes. -/
theorem buildCollect_ok (variants : List String) (aw : Bool)
    (objs : List Obj) (c : CollectSt) :
    (buildCollect noFaults variants aw objs c).ok = true := by
  induction objs generalizing c with
  | nil => rw [buildCollect]
  | cons o rest ih =>
    rw [buildCollect]
    cases hp : parse_name (.str o.name) with
    | none => exact ih _
    | some p =>
      obtain ⟨lod, variant⟩ := p
      dsimp only
      by_cases hv : variants.contains variant
      · rw [if_pos hv]
        by_cases hl : c.lodLayers.contains (lodLayerName variant lod)
        · rw [if_pos hl]
          exact ih _
        · rw [if_neg hl]
          rw [if_neg (by simp [noFaults])]
          exact ih _
      · rw [if_neg hv]
        exact ih _

/-- Content already collected survives the rest of the pass. -/
theorem buildCollect_mono (fl : Faults) (variants : List String) (aw : Bool)
    (objs : List Obj) (c : CollectSt) :
    (∀ x ∈ c.wrongNodes, x ∈ (buildCollect fl variants aw objs c).c.wrongNodes) ∧
    (∀ x nm, inBatch x nm c.nodesByLayer →
      inBatch x nm (buildCollect fl variants aw objs c).c.nodesByLayer) ∧
    (∀ nm ∈ c.lodLayers, nm ∈ (buildCollect fl variants aw objs c).c.lodLayers) := by
  induction objs generalizing c with
  | nil =>
    rw [buildCollect]
    exact ⟨fun x hx => hx, fun x nm hx => hx, fun nm hx => hx⟩
  | cons o rest ih =>
    rw [buildCollect]
    have wrongStep :
        (∀ x ∈ c.wrongNodes, x ∈ (buildCollect fl variants aw rest
          (if aw then
            {c with st := record_original_layer o c.st c.host,
                    wrongNodes := c.wrongNodes ++ [o.handle]}
           else c)).c.wrongNodes) ∧
        (∀ x nm, inBatch x nm c.nodesByLayer →
          inBatch x nm (buildCollect fl variants aw rest
            (if aw then
              {c with st := record_original_layer o c.st c.host,
                      wrongNodes := c.wrongNodes ++ [o.handle]}
             else c)).c.nodesByLayer) ∧
        (∀ nm ∈ c.lodLayers, nm ∈ (buildCollect fl variants aw rest
          (if aw then
            {c with st := record_original_layer o c.st c.host,
                    wrongNodes := c.wrongNodes ++ [o.handle]}
           else c)).c.lodLayers) := by
      by_cases haw : aw
      · simp only [if_pos haw]
        obtain ⟨i1, i2, i3⟩ := ih
          {c with st := record_original_layer o c.st c.host,
                  wrongNodes := c.wrongNodes ++ [o.handle]}
        exact ⟨fun x hx => i1 x (List.mem_append.mpr (Or.inl hx)), i2, i3⟩
      · simp only [if_neg haw]
        exact ih c
    cases hp : parse_name (.str o.name) with
    | none => exact wrongStep
    | some p =>
      obtain ⟨lod, variant⟩ := p
      dsimp only
      by_cases hv : variants.contains variant
      · rw [if_pos hv]
        by_cases hl : c.lodLayers.contains (lodLayerName variant lod)
        · rw [if_pos hl]
          obtain ⟨i1, i2, i3⟩ := ih
            {c with st := record_original_layer o c.st c.host,
                    nodesByLayer := pushVal c.nodesByLayer (lodLayerName variant lod) o.handle}
          exact ⟨i1, fun x nm hx => i2 x nm (inBatch_pushVal_mono hx), i3⟩
        · rw [if_neg hl]
          by_cases hf : fl.hasSetParent && fl.setParentFails (lodLayerName variant lod)
          · rw [if_pos hf]
            exact ⟨fun x hx => hx, fun x nm hx => hx, fun nm hx => hx⟩
          · rw [if_neg hf]
            obtain ⟨i1, i2, i3⟩ := ih
              { st := (get_or_create_layer (lodLayerName variant lod)
                  (record_original_layer o c.st c.host) c.host).1,
                host :=
                  if fl.hasSetParent then
                    {(get_or_create_layer (lodLayerName variant lod)
                        (record_original_layer o c.st c.host) c.host).2.1 with
                      layerParent := updStr
                        (get_or_create_layer (lodLayerName variant lod)
                          (record_original_layer o c.st c.host) c.host).2.1.layerParent
                        (lodLayerName variant lod) (some variant)}
                  else (get_or_create_layer (lodLayerName variant lod)
                    (record_original_layer o c.st c.host) c.host).2.1,
                lodLayers := c.lodLayers ++ [lodLayerName variant lod],
                nodesByLayer := pushVal c.nodesByLayer (lodLayerName variant lod) o.handle,
                wrongNodes := c.wrongNodes }
            exact ⟨i1, fun x nm hx => i2 x nm (inBatch_pushVal_mono hx),
              fun nm hx => i3 nm (List.mem_append.mpr (Or.inl hx))⟩
      · rw [if_neg hv]
        exact wrongStep

/-- A matched object always ends up queued for its LOD layer, which is in
the created-LOD-layer list, provided the pass completed. -/
theorem buildCollect_adds_matched (fl : Faults) (variants : List String) (aw : Bool)
    {objs : List Obj} {c : CollectSt} {o : Obj} {lod : Nat} {variant : String}
    (ho : o ∈ objs) (hp : parse_name (.str o.name) = some (lod, variant))
    (hv : variants.contains variant = true)
    (hok : (buildCollect fl variants aw objs c).ok = true) :
    inBatch o.handle (lodLayerName variant lod)
      (buildCollect fl variants aw objs c).c.nodesByLayer ∧
    lodLayerName variant lod ∈ (buildCollect fl variants aw objs c).c.lodLayers := by
  induction objs generalizing c with
  | nil => simp at ho
  | cons o' rest ih =>
    rw [buildCollect] at hok ⊢
    rcases List.mem_cons.mp ho with rfl | ho'
    · rw [hp] at hok ⊢
      dsimp only at hok ⊢
      rw [if_pos hv] at hok ⊢
      by_cases hl : c.lodLayers.contains (lodLayerName variant lod)
      · rw [if_pos hl] at hok ⊢
        obtain ⟨-, m2, m3⟩ := buildCollect_mono fl variants aw rest
          {c with st := record_original_layer o c.st c.host,
                  nodesByLayer := pushVal c.nodesByLayer (lodLayerName variant lod) o.handle}
        exact ⟨m2 _ _ (inBatch_pushVal_self _ _ _), m3 _ (contains_mem hl)⟩
      · rw [if_neg hl] at hok ⊢
        by_cases hf : fl.hasSetParent && fl.setParentFails (lodLayerName variant lod)
        · rw [if_pos hf] at hok
          exact absurd hok (by simp)
        · rw [if_neg hf] at hok ⊢
          obtain ⟨-, m2, m3⟩ := buildCollect_mono fl variants aw rest
            { st := (get_or_create_layer (lodLayerName variant lod)
                (record_original_layer o c.st c.host) c.host).1,
              host :=
                if fl.hasSetParent then
                  {(get_or_create_layer (lodLayerName variant lod)
                      (record_original_layer o c.st c.host) c.host).2.1 with
                    layerParent := updStr
                      (get_or_create_layer (lodLayerName variant lod)
                        (record_original_layer o c.st c.host) c.host).2.1.layerParent
                      (lodLayerName variant lod) (some variant)}
                else (get_or_create_layer (lodLayerName variant lod)
                  (record_original_layer o c.st c.host) c.host).2.1,
              lodLayers := c.lodLayers ++ [lodLayerName variant lod],
              nodesByLayer := pushVal c.nodesByLayer (lodLayerName variant lod) o.handle,
              wrongNodes := c.wrongNodes }
          exact ⟨m2 _ _ (inBatch_pushVal_self _ _ _),
            m3 _ (List.mem_append.mpr (Or.inr (by simp)))⟩
    · cases hp' : parse_name (.str o'.name) with
      | none =>
        rw [hp'] at hok
        exact ih ho' hok
      | some p' =>
        obtain ⟨lod', variant'⟩ := p'
        rw [hp'] at hok
        dsimp only at hok ⊢
        by_cases hv' : variants.contains variant'
        · rw [if_pos hv'] at hok ⊢
          by_cases hl' : c.lodLayers.contains (lodLayerName variant' lod')
          · rw [if_pos hl'] at hok ⊢
            exact ih ho' hok
          · rw [if_neg hl'] at hok ⊢
            by_cases hf' : fl.hasSetParent && fl.setParentFails (lodLayerName variant' lod')
            · rw [if_pos hf'] at hok
              exact absurd hok (by simp)
            · rw [if_neg hf'] at hok ⊢
              exact ih ho' hok
        · rw [if_neg hv'] at hok ⊢
          exact ih ho' hok

/-- An unmatched object always ends up queued for the catch-all layer when
the catch-all is enabled and the pass completed. -/
theorem buildCollect_adds_wrong (fl : Faults) (variants : List String)
    {objs : List Obj} {c : CollectSt} {o : Obj}
    (ho : o ∈ objs)
    (hum : ∀ l v, parse_name (.str o.name) = some (l, v) →
      variants.contains v = false)
    (hok : (buildCollect fl variants true objs c).ok = true) :
    o.handle ∈ (buildCollect fl variants true objs c).c.wrongNodes := by
  induction objs generalizing c with
  | nil => simp at ho
  | cons o' rest ih =>
    rw [buildCollect] at hok ⊢
    rcases List.mem_cons.mp ho with rfl | ho'
    · obtain ⟨m1, -, -⟩ := buildCollect_mono fl variants true rest
        {c with st := record_original_layer o c.st c.host,
                wrongNodes := c.wrongNodes ++ [o.handle]}
      cases hp : parse_name (.str o.name) with
      | none =>
        simp only [if_pos rfl]
        exact m1 o.handle (List.mem_append.mpr (Or.inr (by simp)))
      | some p =>
        obtain ⟨lod, variant⟩ := p
        dsimp only
        rw [if_neg (by rw [hum lod variant hp]; simp)]
        simp only [if_pos rfl]
        exact m1 o.handle (List.mem_append.mpr (Or.inr (by simp)))
    · cases hp' : parse_name (.str o'.name) with
      | none =>
        rw [hp'] at hok
        exact ih ho' hok
      | some p' =>
        obtain ⟨lod', variant'⟩ := p'
        rw [hp'] at hok
        dsimp only at hok ⊢
        by_cases hv' : variants.contains variant'
        · rw [if_pos hv'] at hok ⊢
          by_cases hl' : c.lodLayers.contains (lodLayerName variant' lod')
          · rw [if_pos hl'] at hok ⊢
            exact ih ho' hok
          · rw [if_neg hl'] at hok ⊢
            by_cases hf' : fl.hasSetParent && fl.setParentFails (lodLayerName variant' lod')
            · rw [if_pos hf'] at hok
              exact absurd hok (by simp)
            · rw [if_neg hf'] at hok ⊢
              exact ih ho' hok
        · rw [if_neg hv'] at hok ⊢
          exact ih ho' hok

theorem lookup_append_single_ne {α β : Type} [BEq α] [LawfulBEq α] [DecidableEq α]
    (l : List (α × β)) (a : α) (b : β) {k : α} (hk : k ≠ a) :
    (l ++ [(a, b)]).lookup k = l.lookup k := by
  cases hq : l.lookup k with
  | some y => exact lookup_append_left hq
  | none =>
    rw [lookup_append_right _ hq]
    rw [lookup_cons, if_neg hk]
    rfl

theorem record_original_layer_lookup_ne {o : Obj} {st : Engine} {h : Host}
    {k : Nat} (hk : k ≠ o.handle) :
    (record_original_layer o st h).original_layers.lookup k =
      st.original_layers.lookup k := by
  rw [record_original_layer]
  split
  · rfl
  · exact lookup_append_single_ne _ _ _ hk

theorem record_original_layer_lookup_getD (o : Obj) (st : Engine) (h : Host)
    (k : Nat) :
    ((record_original_layer o st h).original_layers.lookup k).getD (h.objLayer k) =
      (st.original_layers.lookup k).getD (h.objLayer k) := by
  by_cases hk : k = o.handle
  · subst hk
    rw [record_original_layer_lookup_self]
    cases hq : st.original_layers.lookup o.handle with
    | none => simp [hq]
    | some y => simp [hq]
  · rw [record_original_layer_lookup_ne hk]

theorem record_original_layer_domain {o : Obj} {st : Engine} {h : Host}
    {k : Nat} {x : String}
    (hl : (record_original_layer o st h).original_layers.lookup k = some x) :
    st.original_layers.lookup k = some x ∨ (k = o.handle ∧ x = h.objLayer k) := by
  rw [record_original_layer] at hl
  split at hl
  · exact Or.inl hl
  · by_cases hk : k = o.handle
    · subst hk
      rename_i hs
      have hn : st.original_layers.lookup o.handle = none := by
        cases hq : st.original_layers.lookup o.handle with
        | none => rfl
        | some y => rw [hq] at hs; exact absurd rfl hs
      rw [lookup_append_right _ hn, lookup_cons, if_pos rfl] at hl
      rw [Option.some.injEq] at hl
      exact Or.inr ⟨rfl, hl.symm⟩
    · rw [lookup_append_single_ne _ _ _ hk] at hl
      exact Or.inl hl

/-- Every object of the scene has a ledger entry after the collection pass
(catch-all enabled), holding the first-recorded layer. -/
theorem buildCollect_ledger_lookup (fl : Faults) (variants : List String)
    {objs : List Obj} {c : CollectSt} {o : Obj}
    (ho : o ∈ objs)
    (hok : (buildCollect fl variants true objs c).ok = true) :
    (buildCollect fl variants true objs c).c.st.original_layers.lookup o.handle =
      some ((c.st.original_layers.lookup o.handle).getD (c.host.objLayer o.handle)) := by
  induction objs generalizing c with
  | nil => simp at ho
  | cons o' rest ih =>
    rw [buildCollect] at hok ⊢
    have hmono := fun (c' : CollectSt) =>
      (buildCollect_frame fl variants true rest c').2.2.2.1
    rcases List.mem_cons.mp ho with rfl | ho'
    · have hrec := record_original_layer_lookup_self o c.st c.host
      cases hp : parse_name (.str o.name) with
      | none =>
        simp only [if_pos rfl]
        exact hmono _ _ _ hrec
      | some p =>
        obtain ⟨lod, variant⟩ := p
        rw [hp] at hok
        dsimp only at hok ⊢
        by_cases hv : variants.contains variant
        · rw [if_pos hv] at hok ⊢
          by_cases hl : c.lodLayers.contains (lodLayerName variant lod)
          · rw [if_pos hl] at hok ⊢
            exact hmono _ _ _ hrec
          · rw [if_neg hl] at hok ⊢
            by_cases hf : fl.hasSetParent && fl.setParentFails (lodLayerName variant lod)
            · rw [if_pos hf] at hok
              exact absurd hok (by simp)
            · rw [if_neg hf] at hok ⊢
              refine hmono _ _ _ ?_
              show (get_or_create_layer (lodLayerName variant lod)
                (record_original_layer o c.st c.host) c.host).1.original_layers.lookup
                  o.handle = _
              rw [(get_or_create_layer_spec _ _ _).1]
              exact hrec
        · rw [if_neg hv] at hok ⊢
          simp only [if_pos rfl]
          exact hmono _ _ _ hrec
    · have key : ∀ (c' : CollectSt),
          c'.host.objLayer = c.host.objLayer →
          (c'.st.original_layers.lookup o.handle).getD (c'.host.objLayer o.handle) =
            (c.st.original_layers.lookup o.handle).getD (c.host.objLayer o.handle) →
          (buildCollect fl variants true rest c').ok = true →
          (buildCollect fl variants true rest c').c.st.original_layers.lookup o.handle =
            some ((c.st.original_layers.lookup o.handle).getD
              (c.host.objLayer o.handle)) := by
        intro c' he hg hok'
        rw [ih ho' hok', hg]
      cases hp : parse_name (.str o'.name) with
      | none =>
        rw [hp] at hok
        refine key _ rfl ?_ hok
        exact record_original_layer_lookup_getD o' c.st c.host o.handle
      | some p =>
        obtain ⟨lod', variant'⟩ := p
        rw [hp] at hok
        dsimp only at hok ⊢
        by_cases hv : variants.contains variant'
        · rw [if_pos hv] at hok ⊢
          by_cases hl : c.lodLayers.contains (lodLayerName variant' lod')
          · rw [if_pos hl] at hok ⊢
            refine key _ rfl ?_ hok
            exact record_original_layer_lookup_getD o' c.st c.host o.handle
          · rw [if_neg hl] at hok ⊢
            by_cases hf : fl.hasSetParent && fl.setParentFails (lodLayerName variant' lod')
            · rw [if_pos hf] at hok
              exact absurd hok (by simp)
            · rw [if_neg hf] at hok ⊢
              refine key _ ?_ ?_ hok
              · show (if fl.hasSetParent then _ else _ : Host).objLayer = _
                have := (get_or_create_layer_spec (lodLayerName variant' lod')
                  (record_original_layer o' c.st c.host) c.host).2.2.2.2.2.1
                split
                · exact this
                · exact this
              · have hol : (if fl.hasSetParent then
                    {(get_or_create_layer (lodLayerName variant' lod')
                        (record_original_layer o' c.st c.host) c.host).2.1 with
                      layerParent := updStr
                        (get_or_create_layer (lodLayerName variant' lod')
                          (record_original_layer o' c.st c.host) c.host).2.1.layerParent
                        (lodLayerName variant' lod') (some variant')}
                  else (get_or_create_layer (lodLayerName variant' lod')
                    (record_original_layer o' c.st c.host) c.host).2.1).objLayer =
                    c.host.objLayer := by
                  have := (get_or_create_layer_spec (lodLayerName variant' lod')
                    (record_original_layer o' c.st c.host) c.host).2.2.2.2.2.1
                  split
                  · exact this
                  · exact this
                rw [hol]
                show ((get_or_create_layer (lodLayerName variant' lod')
                  (record_original_layer o' c.st c.host) c.host).1.original_layers.lookup
                    o.handle).getD (c.host.objLayer o.handle) = _
                rw [(get_or_create_layer_spec _ _ _).1]
                exact record_original_layer_lookup_getD o' c.st c.host o.handle
        · rw [if_neg hv] at hok ⊢
          refine key _ rfl ?_ hok
          exact record_original_layer_lookup_getD o' c.st c.host o.handle

/-- The ledger's keys stay duplicate-free through the collection pass. -/
theorem buildCollect_ledger_nodup (fl : Faults) (variants : List String) (aw : Bool)
    (objs : List Obj) (c : CollectSt)
    (hn : (c.st.original_layers.map Prod.fst).Nodup) :
    ((buildCollect fl variants aw objs c).c.st.original_layers.map Prod.fst).Nodup := by
  induction objs generalizing c with
  | nil =>
    rw [buildCollect]
    exact hn
  | cons o rest ih =>
    rw [buildCollect]
    cases hp : parse_name (.str o.name) with
    | none =>
      by_cases haw : aw
      · simp only [if_pos haw]
        exact ih _ (record_original_layer_keys_nodup hn)
      · simp only [if_neg haw]
        exact ih _ hn
    | some p =>
      obtain ⟨lod, variant⟩ := p
      dsimp only
      by_cases hv : variants.contains variant
      · rw [if_pos hv]
        by_cases hl : c.lodLayers.contains (lodLayerName variant lod)
        · rw [if_pos hl]
          exact ih _ (record_original_layer_keys_nodup hn)
        · rw [if_neg hl]
          by_cases hf : fl.hasSetParent && fl.setParentFails (lodLayerName variant lod)
          · rw [if_pos hf]
            show ((get_or_create_layer (lodLayerName variant lod)
              (record_original_layer o c.st c.host) c.host).1.original_layers.map
                Prod.fst).Nodup
            rw [(get_or_create_layer_spec _ _ _).1]
            exact record_original_layer_keys_nodup hn
          · rw [if_neg hf]
            refine ih _ ?_
            show ((get_or_create_layer (lodLayerName variant lod)
              (record_original_layer o c.st c.host) c.host).1.original_layers.map
                Prod.fst).Nodup
            rw [(get_or_create_layer_spec _ _ _).1]
            exact record_original_layer_keys_nodup hn
      · rw [if_neg hv]
        by_cases haw : aw
        · simp only [if_pos haw]
          exact ih _ (record_original_layer_keys_nodup hn)
        · simp only [if_neg haw]
          exact ih _ hn

/-- Every ledger entry after the collection pass either predates it or
names a scene object with its pre-pass layer. -/
theorem buildCollect_ledger_domain (fl : Faults) (variants : List String) (aw : Bool)
    (objs : List Obj) (c : CollectSt) {k : Nat} {x : String}
    (hl : (buildCollect fl variants aw objs c).c.st.original_layers.lookup k = some x) :
    c.st.original_layers.lookup k = some x ∨
      ((∃ o ∈ objs, o.handle = k) ∧ x = c.host.objLayer k) := by
  induction objs generalizing c with
  | nil =>
    rw [buildCollect] at hl
    exact Or.inl hl
  | cons o rest ih =>
    rw [buildCollect] at hl
    have key : ∀ c' : CollectSt,
        (buildCollect fl variants aw rest c').c.st.original_layers.lookup k = some x →
        (c'.st.original_layers.lookup k = some x ∨
          (k = o.handle ∧ x = c.host.objLayer k) ∨
          (c'.st.original_layers.lookup k = some x → False)) →
        True := fun _ _ _ => trivial
    clear key
    have stepRec : ∀ (c' : CollectSt),
        c'.host.objLayer = c.host.objLayer →
        (∀ y, c'.st.original_layers.lookup k = some y →
          c.st.original_layers.lookup k = some y ∨ (k = o.handle ∧ y = c.host.objLayer k)) →
        (buildCollect fl variants aw rest c').c.st.original_layers.lookup k = some x →
        c.st.original_layers.lookup k = some x ∨
          ((∃ o' ∈ o :: rest, o'.handle = k) ∧ x = c.host.objLayer k) := by
      intro c' he hdm hl'
      rcases ih c' hl' with h | ⟨⟨o2, ho2, hk2⟩, hx2⟩
      · rcases hdm x h with h' | ⟨hk', hx'⟩
        · exact Or.inl h'
        · exact Or.inr ⟨⟨o, List.mem_cons_self _ _, hk'.symm⟩, hx'⟩
      · exact Or.inr ⟨⟨o2, List.mem_cons_of_mem _ ho2, hk2⟩, by rw [hx2, he]⟩
    have hdmRec : ∀ y, (record_original_layer o c.st c.host).original_layers.lookup k
        = some y →
        c.st.original_layers.lookup k = some y ∨ (k = o.handle ∧ y = c.host.objLayer k) := by
      intro y hy
      rcases record_original_layer_domain hy with h | ⟨h1, h2⟩
      · exact Or.inl h
      · exact Or.inr ⟨h1, by rw [h2, h1]⟩
    have hdmId : ∀ y, c.st.original_layers.lookup k = some y →
        c.st.original_layers.lookup k = some y ∨ (k = o.handle ∧ y = c.host.objLayer k) :=
      fun y hy => Or.inl hy
    cases hp : parse_name (.str o.name) with
    | none =>
      rw [hp] at hl
      dsimp only at hl
      by_cases haw : aw
      · simp only [if_pos haw] at hl
        exact stepRec
          {c with st := record_original_layer o c.st c.host,
                  wrongNodes := c.wrongNodes ++ [o.handle]} rfl hdmRec hl
      · simp only [if_neg haw] at hl
        exact stepRec c rfl hdmId hl
    | some p =>
      obtain ⟨lod, variant⟩ := p
      rw [hp] at hl
      dsimp only at hl
      by_cases hv : variants.contains variant
      · rw [if_pos hv] at hl
        by_cases hlc : c.lodLayers.contains (lodLayerName variant lod)
        · rw [if_pos hlc] at hl
          exact stepRec
            {c with st := record_original_layer o c.st c.host,
                    nodesByLayer :=
                      pushVal c.nodesByLayer (lodLayerName variant lod) o.handle}
            rfl hdmRec hl
        · rw [if_neg hlc] at hl
          by_cases hf : fl.hasSetParent && fl.setParentFails (lodLayerName variant lod)
          · rw [if_pos hf] at hl
            have hl2 : (get_or_create_layer (lodLayerName variant lod)
                (record_original_layer o c.st c.host) c.host).1.original_layers.lookup k
                = some x := hl
            rw [(get_or_create_layer_spec _ _ _).1] at hl2
            rcases hdmRec x hl2 with h | ⟨h1, h2⟩
            · exact Or.inl h
            · exact Or.inr ⟨⟨o, List.mem_cons_self _ _, h1.symm⟩, h2⟩
          · rw [if_neg hf] at hl
            refine stepRec _ ?_ ?_ hl
            · show (if fl.hasSetParent then _ else _ : Host).objLayer = _
              have := (get_or_create_layer_spec (lodLayerName variant lod)
                (record_original_layer o c.st c.host) c.host).2.2.2.2.2.1
              split
              · exact this
              · exact this
            · intro y hy
              have hy2 : (get_or_create_layer (lodLayerName variant lod)
                  (record_original_layer o c.st c.host) c.host).1.original_layers.lookup k
                  = some y := hy
              rw [(get_or_create_layer_spec _ _ _).1] at hy2
              exact hdmRec y hy2
      · rw [if_neg hv] at hl
        by_cases haw : aw
        · simp only [if_pos haw] at hl
          exact stepRec
            {c with st := record_original_layer o c.st c.host,
                    wrongNodes := c.wrongNodes ++ [o.handle]} rfl hdmRec hl
        · simp only [if_neg haw] at hl
          exact stepRec c rfl hdmId hl

theorem get_or_create_layer_trace (name : String) (st : Engine) (h : Host) :
    ∀ e ∈ (get_or_create_layer name st h).2.2, e = Ev.newLayer name := by
  rw [get_or_create_layer]
  by_cases h1 : st.layer_cache.contains name
  · rw [if_pos h1]
    intro e he
    simp at he
  · rw [if_neg h1]
    by_cases h2 : (h.layerOn name).isSome
    · rw [if_pos h2]
      intro e he
      simp at he
    · rw [if_neg h2]
      intro e he
      rw [List.mem_singleton] at he
      exact he

/-- The collection pass emits only layer-creation and parenting events. -/
theorem buildCollect_trace_events (fl : Faults) (variants : List String) (aw : Bool)
    (objs : List Obj) (c : CollectSt) :
    ∀ e ∈ (buildCollect fl variants aw objs c).trace,
      (∃ nm, e = Ev.newLayer nm) ∨ ∃ a b, e = Ev.setParent a b := by
  induction objs generalizing c with
  | nil =>
    rw [buildCollect]
    intro e he
    simp at he
  | cons o rest ih =>
    rw [buildCollect]
    cases hp : parse_name (.str o.name) with
    | none => exact ih _
    | some p =>
      obtain ⟨lod, variant⟩ := p
      dsimp only
      by_cases hv : variants.contains variant
      · rw [if_pos hv]
        by_cases hl : c.lodLayers.contains (lodLayerName variant lod)
        · rw [if_pos hl]
          exact ih _
        · rw [if_neg hl]
          by_cases hf : fl.hasSetParent && fl.setParentFails (lodLayerName variant lod)
          · rw [if_pos hf]
            intro e he
            exact Or.inl ⟨lodLayerName variant lod,
              get_or_create_layer_trace _ _ _ e he⟩
          · rw [if_neg hf]
            intro e he
            rcases List.mem_append.mp he with he | he
            · rcases List.mem_append.mp he with he | he
              · exact Or.inl ⟨lodLayerName variant lod,
                  get_or_create_layer_trace _ _ _ e he⟩
              · by_cases hsp : fl.hasSetParent
                · rw [if_pos hsp] at he
                  rw [List.mem_singleton] at he
                  exact Or.inr ⟨lodLayerName variant lod, variant, he⟩
                · rw [if_neg hsp] at he
                  simp at he
            · exact ih _ e he
      · rw [if_neg hv]
        exact ih _

/-- The collection pass keeps the cache valid and every created LOD layer
existing. -/
theorem buildCollect_valid (fl : Faults) (variants : List String) (aw : Bool)
    (objs : List Obj) (c : CollectSt)
    (hcv : cacheValid c.st c.host)
    (hll : ∀ nm ∈ c.lodLayers, (c.host.layerOn nm).isSome = true) :
    cacheValid (buildCollect fl variants aw objs c).c.st
      (buildCollect fl variants aw objs c).c.host ∧
    (∀ nm ∈ (buildCollect fl variants aw objs c).c.lodLayers,
      ((buildCollect fl variants aw objs c).c.host.layerOn nm).isSome = true) := by
  induction objs generalizing c with
  | nil =>
    rw [buildCollect]
    exact ⟨hcv, hll⟩
  | cons o rest ih =>
    rw [buildCollect]
    have hrecv : cacheValid (record_original_layer o c.st c.host) c.host := by
      intro nm hm
      refine hcv nm ?_
      have := (record_original_layer_spec o c.st c.host).1
      rw [this] at hm
      exact hm
    cases hp : parse_name (.str o.name) with
    | none =>
      by_cases haw : aw
      · simp only [if_pos haw]
        exact ih _ hrecv hll
      · simp only [if_neg haw]
        exact ih _ hcv hll
    | some p =>
      obtain ⟨lod, variant⟩ := p
      dsimp only
      by_cases hv : variants.contains variant
      · rw [if_pos hv]
        by_cases hl : c.lodLayers.contains (lodLayerName variant lod)
        · rw [if_pos hl]
          exact ih _ hrecv hll
        · rw [if_neg hl]
          obtain ⟨gv, ge⟩ := @get_or_create_layer_valid (lodLayerName variant lod)
            (record_original_layer o c.st c.host) c.host hrecv
          have g9 := (get_or_create_layer_spec (lodLayerName variant lod)
            (record_original_layer o c.st c.host) c.host).2.2.2.2.2.2.2.2
          by_cases hf : fl.hasSetParent && fl.setParentFails (lodLayerName variant lod)
          · rw [if_pos hf]
            refine ⟨gv, ?_⟩
            intro nm hm
            obtain ⟨b, hb⟩ := Option.isSome_iff_exists.mp (hll nm hm)
            rw [g9 nm b hb]
            rfl
          · rw [if_neg hf]
            have hOnEq : (if fl.hasSetParent then
                {(get_or_create_layer (lodLayerName variant lod)
                    (record_original_layer o c.st c.host) c.host).2.1 with
                  layerParent := updStr
                    (get_or_create_layer (lodLayerName variant lod)
                      (record_original_layer o c.st c.host) c.host).2.1.layerParent
                    (lodLayerName variant lod) (some variant)}
              else (get_or_create_layer (lodLayerName variant lod)
                (record_original_layer o c.st c.host) c.host).2.1).layerOn =
                (get_or_create_layer (lodLayerName variant lod)
                  (record_original_layer o c.st c.host) c.host).2.1.layerOn := by
              split
              · rfl
              · rfl
            refine ih _ ?_ ?_
            · intro nm hm
              rw [hOnEq]
              exact gv nm hm
            · intro nm hm
              rw [hOnEq]
              rcases List.mem_append.mp hm with hm | hm
              · obtain ⟨b, hb⟩ := Option.isSome_iff_exists.mp (hll nm hm)
                rw [g9 nm b hb]
                rfl
              · rw [List.mem_singleton] at hm
                subst hm
                exact ge
      · rw [if_neg hv]
        by_cases haw : aw
        · simp only [if_pos haw]
          exact ih _ hrecv hll
        · simp only [if_neg haw]
          exact ih _ hcv hll

/-- Frame, trace, success and effect facts for one `addNode` batch. -/
theorem assignHandles_spec (fl : Faults) (name : String) (hdls : List Nat) (h : Host) :
    ((assignHandles fl name hdls h).host.layerOn = h.layerOn) ∧
    ((assignHandles fl name hdls h).host.objHidden = h.objHidden) ∧
    ((assignHandles fl name hdls h).host.layerParent = h.layerParent) ∧
    ((assignHandles fl name hdls h).host.tags = h.tags) ∧
    (∀ e ∈ (assignHandles fl name hdls h).trace, ∃ x, e = Ev.addNode x name) ∧
    ((assignHandles fl name hdls h).ok = true ↔
      ∀ x ∈ hdls, fl.addNodeFails x = false) ∧
    (∀ x, x ∉ hdls → (assignHandles fl name hdls h).host.objLayer x = h.objLayer x) ∧
    ((assignHandles fl name hdls h).ok = true →
      ∀ x ∈ hdls, (assignHandles fl name hdls h).host.objLayer x = name) := by
  induction hdls generalizing h with
  | nil =>
    rw [assignHandles]
    exact ⟨rfl, rfl, rfl, rfl, fun e he => absurd he (by simp),
      ⟨fun _ x hx => absurd hx (by simp), fun _ => rfl⟩,
      fun x _ => rfl, fun _ x hx => absurd hx (by simp)⟩
  | cons hd t ih =>
    rw [assignHandles]
    by_cases hf : fl.addNodeFails hd = true
    · rw [if_pos hf]
      refine ⟨rfl, rfl, rfl, rfl, fun e he => absurd he (by simp), ?_,
        fun x _ => rfl, ?_⟩
      · constructor
        · intro hfalse
          exact absurd hfalse (by simp)
        · intro hall
          have := hall hd (List.mem_cons_self _ _)
          rw [hf] at this
          exact absurd this (by simp)
      · intro hfalse
        exact absurd hfalse (by simp)
    · rw [if_neg hf]
      obtain ⟨i1, i2, i3, i4, i5, i6, i7, i8⟩ :=
        ih {h with objLayer := updFun h.objLayer hd name}
      refine ⟨i1, i2, i3, i4, ?_, ?_, ?_, ?_⟩
      · intro e he
        rcases List.mem_cons.mp he with he' | he'
        · exact ⟨hd, he'⟩
        · exact i5 e he'
      · constructor
        · intro hok x hx
          rcases List.mem_cons.mp hx with he' | hx'
          · subst he'
            exact Bool.not_eq_true _ ▸ eq_false_of_ne_true hf
          · exact (i6.mp hok) x hx'
        · intro hall
          exact i6.mpr (fun x hx => hall x (List.mem_cons_of_mem _ hx))
      · intro x hx
        have hxt : x ∉ t := fun hc => hx (List.mem_cons_of_mem _ hc)
        have hxh : x ≠ hd := fun hc => hx (hc ▸ List.mem_cons_self _ _)
        rw [i7 x hxt]
        show updFun h.objLayer hd name x = h.objLayer x
        rw [updFun_ne _ _ hxh]
      · intro hok x hx
        rcases List.mem_cons.mp hx with he' | hx'
        · subst he'
          by_cases hxt : x ∈ t
          · exact i8 hok x hxt
          · rw [i7 x hxt]
            show updFun h.objLayer x name x = name
            rw [updFun_same]
        · exact i8 hok x hx'

/-- Frame, trace, success and effect facts for the batched assignment phase
of `build_structure`. -/
theorem assignBatches_spec (fl : Faults) (batches : List (String × List Nat))
    (st : Engine) (h : Host) :
    ((assignBatches fl batches st h).host.layerOn = h.layerOn) ∧
    ((assignBatches fl batches st h).host.objHidden = h.objHidden) ∧
    ((assignBatches fl batches st h).host.layerParent = h.layerParent) ∧
    ((assignBatches fl batches st h).host.tags = h.tags) ∧
    ((assignBatches fl batches st h).st.original_layers = st.original_layers) ∧
    ((assignBatches fl batches st h).st.layer_cache = st.layer_cache) ∧
    ((assignBatches fl batches st h).st.last_button_states = st.last_button_states) ∧
    ((assignBatches fl batches st h).st.current_variants = st.current_variants) ∧
    ((assignBatches fl batches st h).st.created_layers = st.created_layers) ∧
    ((assignBatches fl batches st h).st.track_created = st.track_created) ∧
    (∀ e ∈ (assignBatches fl batches st h).trace, ∃ x nm, e = Ev.addNode x nm) ∧
    ((assignBatches fl batches st h).ok = true ↔
      ∀ nm hs, (nm, hs) ∈ batches → ∀ x ∈ hs, fl.addNodeFails x = false) ∧
    (∀ x, (∀ nm hs, (nm, hs) ∈ batches → x ∉ hs) →
      (assignBatches fl batches st h).host.objLayer x = h.objLayer x) ∧
    ((assignBatches fl batches st h).ok = true → ∀ x L, inBatch x L batches →
      (∀ nm hs, (nm, hs) ∈ batches → x ∈ hs → nm = L) →
      (assignBatches fl batches st h).host.objLayer x = L) := by
  induction batches generalizing st h with
  | nil =>
    rw [assignBatches]
    refine ⟨rfl, rfl, rfl, rfl, rfl, rfl, rfl, rfl, rfl, rfl,
      fun e he => absurd he (by simp),
      ⟨fun _ nm hs hm => absurd hm (by simp), fun _ => rfl⟩,
      fun x _ => rfl, ?_⟩
    intro _ x L hb _
    obtain ⟨hs, hm, -⟩ := hb
    exact absurd hm (by simp)
  | cons p rest ih =>
    obtain ⟨name, hdls⟩ := p
    rw [assignBatches]
    obtain ⟨a1, a2, a3, a4, a5, a6, a7, a8⟩ := assignHandles_spec fl name hdls h
    by_cases hok : (assignHandles fl name hdls h).ok = true
    · rw [if_pos hok]
      dsimp only
      obtain ⟨i1, i2, i3, i4, i5, i6, i7, i8, i9, i10, i11, i12, i13, i14⟩ :=
        ih {st with
              layer_nodes := upsert st.layer_nodes name hdls,
              layer_visible := upsert st.layer_visible name
                (((assignHandles fl name hdls h).host.layerOn name).getD true)}
          (assignHandles fl name hdls h).host
      refine ⟨by rw [i1, a1], by rw [i2, a2], by rw [i3, a3], by rw [i4, a4],
        i5, i6, i7, i8, i9, i10, ?_, ?_, ?_, ?_⟩
      · intro e he
        rcases List.mem_append.mp he with he' | he'
        · obtain ⟨x, hx⟩ := a5 e he'
          exact ⟨x, name, hx⟩
        · exact i11 e he'
      · constructor
        · intro hall nm hs hm x hx
          rcases List.mem_cons.mp hm with hm' | hm'
          · rw [Prod.mk.injEq] at hm'
            exact (a6.mp hok) x (hm'.2 ▸ hx)
          · exact (i12.mp hall) nm hs hm' x hx
        · intro hall
          exact i12.mpr (fun nm hs hm x hx =>
            hall nm hs (List.mem_cons_of_mem _ hm) x hx)
      · intro x hx
        have hx1 : x ∉ hdls := hx name hdls (List.mem_cons_self _ _)
        rw [i13 x (fun nm hs hm => hx nm hs (List.mem_cons_of_mem _ hm))]
        exact a7 x hx1
      · intro hrok x L hb huniq
        obtain ⟨hs, hm, hxin⟩ := hb
        by_cases hx1 : x ∈ hdls
        · have hL : name = L := huniq name hdls (List.mem_cons_self _ _) hx1
          by_cases hrest : ∃ nm hs', (nm, hs') ∈ rest ∧ x ∈ hs'
          · obtain ⟨nm', hs', hm', hx'⟩ := hrest
            have hL' : nm' = L := huniq nm' hs' (List.mem_cons_of_mem _ hm') hx'
            exact i14 hrok x L ⟨hs', hL' ▸ hm', hx'⟩
              (fun nm hs hmm hxx => huniq nm hs (List.mem_cons_of_mem _ hmm) hxx)
          · have hnone : ∀ nm hs', (nm, hs') ∈ rest → x ∉ hs' := by
              intro nm hs' hmm hxx
              exact hrest ⟨nm, hs', hmm, hxx⟩
            rw [i13 x hnone]
            rw [a8 hok x hx1]
            exact hL
        · have hm2 : (L, hs) ∈ rest := by
            rcases List.mem_cons.mp hm with hm' | hm'
            · rw [Prod.mk.injEq] at hm'
              exact absurd (hm'.2 ▸ hxin) hx1
            · exact hm'
          exact i14 hrok x L ⟨hs, hm2, hxin⟩
            (fun nm hs' hmm hxx => huniq nm hs' (List.mem_cons_of_mem _ hmm) hxx)
    · rw [if_neg hok]
      refine ⟨a1, a2, a3, a4, rfl, rfl, rfl, rfl, rfl, rfl, ?_, ?_, ?_, ?_⟩
      · intro e he
        obtain ⟨x, hx⟩ := a5 e he
        exact ⟨x, name, hx⟩
      · constructor
        · intro hfalse
          exact absurd hfalse (by simp)
        · intro hall
          exact absurd (a6.mpr (fun x hx =>
            hall name hdls (List.mem_cons_self _ _) x hx)) hok
      · intro x hx
        exact a7 x (hx name hdls (List.mem_cons_self _ _))
      · intro hfalse
        exact absurd hfalse (by simp)

/-- Frame, trace, success and effect facts for the catch-all batch of
`build_structure`. -/
theorem assignWrong_spec (fl : Faults) (aw : Bool) (wn : List Nat)
    (st : Engine) (h : Host) :
    ((assignWrong fl aw wn st h).host.layerOn = h.layerOn) ∧
    ((assignWrong fl aw wn st h).host.objHidden = h.objHidden) ∧
    ((assignWrong fl aw wn st h).host.layerParent = h.layerParent) ∧
    ((assignWrong fl aw wn st h).host.tags = h.tags) ∧
    ((assignWrong fl aw wn st h).st.original_layers = st.original_layers) ∧
    ((assignWrong fl aw wn st h).st.layer_cache = st.layer_cache) ∧
    ((assignWrong fl aw wn st h).st.last_button_states = st.last_button_states) ∧
    ((assignWrong fl aw wn st h).st.current_variants = st.current_variants) ∧
    ((assignWrong fl aw wn st h).st.created_layers = st.created_layers) ∧
    ((assignWrong fl aw wn st h).st.track_created = st.track_created) ∧
    (∀ e ∈ (assignWrong fl aw wn st h).trace, ∃ x, e = Ev.addNode x "WrongNames") ∧
    ((assignWrong fl aw wn st h).ok = true ↔
      (aw = true → ∀ x ∈ wn, fl.addNodeFails x = false)) ∧
    (∀ x, x ∉ wn → (assignWrong fl aw wn st h).host.objLayer x = h.objLayer x) ∧
    ((assignWrong fl aw wn st h).ok = true → aw = true →
      ∀ x ∈ wn, (assignWrong fl aw wn st h).host.objLayer x = "WrongNames") := by
  rw [assignWrong]
  by_cases haw : aw = true
  · rw [if_pos haw]
    obtain ⟨a1, a2, a3, a4, a5, a6, a7, a8⟩ := assignHandles_spec fl "WrongNames" wn h
    by_cases hok : (assignHandles fl "WrongNames" wn h).ok = true
    · rw [if_pos hok]
      exact ⟨a1, a2, a3, a4, rfl, rfl, rfl, rfl, rfl, rfl, a5,
        ⟨fun _ _ x hx => (a6.mp hok) x hx, fun _ => rfl⟩, a7,
        fun _ _ x hx => a8 hok x hx⟩
    · rw [if_neg hok]
      refine ⟨a1, a2, a3, a4, rfl, rfl, rfl, rfl, rfl, rfl, a5, ?_, a7, ?_⟩
      · constructor
        · intro hfalse
          exact absurd hfalse (by simp)
        · intro hall
          exact absurd (a6.mpr (hall haw)) hok
      · intro hfalse
        exact absurd hfalse (by simp)
  · rw [if_neg haw]
    refine ⟨rfl, rfl, rfl, rfl, rfl, rfl, rfl, rfl, rfl, rfl,
      fun e he => absurd he (by simp),
      ⟨fun _ ha _ _ => absurd ha haw, fun _ => rfl⟩,
      fun x _ => rfl, fun _ ha => absurd ha haw⟩

/-- The bulk hidden-flag write emits only `setHidden` events. -/
theorem bulk_set_hidden_trace (hdls : List Nat) (hidden : Bool) (h : Host) :
    ∀ e ∈ (bulk_set_hidden hdls hidden h).2, ∃ x, e = Ev.setHidden x hidden := by
  induction hdls generalizing h with
  | nil =>
    rw [bulk_set_hidden]
    intro e he
    exact absurd he (by simp)
  | cons hd t ih =>
    rw [bulk_set_hidden]
    intro e he
    rcases List.mem_cons.mp he with he' | he'
    · exact ⟨hd, he'⟩
    · exact ih _ e he'

/-- The per-layer visibility sync emits only `setHidden` events. -/
theorem sync_layer_trace (objs : List Obj) (name : String) (st : Engine) (h : Host) :
    ∀ e ∈ (sync_layer_objects_visibility objs name st h).2.2,
      ∃ x b, e = Ev.setHidden x b := by
  rw [sync_layer_objects_visibility]
  intro e he
  obtain ⟨x, hx⟩ := bulk_set_hidden_trace _ _ _ e he
  exact ⟨x, _, hx⟩

/-- The layer-list visibility sync emits only `setHidden` events. -/
theorem syncList_trace (objs : List Obj) (names : List String) (st : Engine) (h : Host) :
    ∀ e ∈ (syncList objs names st h).trace, ∃ x b, e = Ev.setHidden x b := by
  induction names generalizing st h with
  | nil =>
    rw [syncList]
    intro e he
    exact absurd he (by simp)
  | cons n rest ih =>
    rw [syncList]
    intro e he
    rcases List.mem_append.mp he with he' | he'
    · exact sync_layer_trace objs n st h e he'
    · exact ih _ _ e he'

/-- Frame and trace facts for the parent-layer sync loop. -/
theorem syncParentLayers_spec (objs : List Obj) (names : List String)
    (st : Engine) (h : Host) :
    ((syncParentLayers objs names st h).host.layerOn = h.layerOn) ∧
    ((syncParentLayers objs names st h).host.objLayer = h.objLayer) ∧
    ((syncParentLayers objs names st h).st.original_layers = st.original_layers) ∧
    ((syncParentLayers objs names st h).st.layer_cache = st.layer_cache) ∧
    ((syncParentLayers objs names st h).st.last_button_states =
      st.last_button_states) ∧
    ((syncParentLayers objs names st h).st.current_variants = st.current_variants) ∧
    (∀ e ∈ (syncParentLayers objs names st h).trace, ∃ x b, e = Ev.setHidden x b) := by
  induction names generalizing st h with
  | nil =>
    rw [syncParentLayers]
    exact ⟨rfl, rfl, rfl, rfl, rfl, rfl, fun e he => absurd he (by simp)⟩
  | cons n rest ih =>
    rw [syncParentLayers]
    obtain ⟨s1, s2, -, s4, s5, s6, s7, s8⟩ := sync_layer_spec objs n st h
    obtain ⟨i1, i2, i3, i4, i5, i6, i7⟩ := ih
      {(sync_layer_objects_visibility objs n st h).1 with
        layer_visible := upsert (sync_layer_objects_visibility objs n st h).1.layer_visible n
          (((sync_layer_objects_visibility objs n st h).2.1.layerOn n).getD true)}
      ((sync_layer_objects_visibility objs n st h).2.1)
    refine ⟨by rw [i1, s1], by rw [i2, s2], by rw [i3]; exact s4,
      by rw [i4]; exact s5, by rw [i5]; exact s7, by rw [i6]; exact s8, ?_⟩
    intro e he
    rcases List.mem_append.mp he with he' | he'
    · exact sync_layer_trace objs n st h e he'
    · exact i7 e he'

/-- Frame, extension and trace facts for the variant parent-layer creation
loop. -/
theorem createLayers_spec (variants : List String) (st : Engine) (h : Host) :
    ((createLayers variants st h).host.objLayer = h.objLayer) ∧
    ((createLayers variants st h).host.objHidden = h.objHidden) ∧
    ((createLayers variants st h).st.original_layers = st.original_layers) ∧
    ((createLayers variants st h).st.layer_nodes = st.layer_nodes) ∧
    ((createLayers variants st h).st.layer_visible = st.layer_visible) ∧
    ((createLayers variants st h).st.last_button_states = st.last_button_states) ∧
    ((createLayers variants st h).st.current_variants = st.current_variants) ∧
    (∀ m b, h.layerOn m = some b → (createLayers variants st h).host.layerOn m = some b) ∧
    (∀ e ∈ (createLayers variants st h).trace, ∃ nm, e = Ev.newLayer nm) := by
  induction variants generalizing st h with
  | nil =>
    rw [createLayers]
    exact ⟨rfl, rfl, rfl, rfl, rfl, rfl, rfl, fun m b hb => hb,
      fun e he => absurd he (by simp)⟩
  | cons v rest ih =>
    rw [createLayers]
    obtain ⟨g1, g2, g3, g4, g5, g6, g7, g8, g9⟩ := get_or_create_layer_spec v st h
    obtain ⟨i1, i2, i3, i4, i5, i6, i7, i8, i9⟩ := ih
      (get_or_create_layer v st h).1 (get_or_create_layer v st h).2.1
    refine ⟨by rw [i1, g6], by rw [i2, g7], by rw [i3]; exact g1,
      by rw [i4]; exact g2, by rw [i5]; exact g3, by rw [i6]; exact g4,
      by rw [i7]; exact g5, fun m b hb => i8 m b (g9 m b hb), ?_⟩
    intro e he
    rcases List.mem_append.mp he with he' | he'
    · exact ⟨v, get_or_create_layer_trace v st h e he'⟩
    · exact i9 e he'

/-- The parent-layer creation loop keeps the cache valid and makes every
listed variant's layer exist. -/
theorem createLayers_valid (variants : List String) (st : Engine) (h : Host)
    (hcv : cacheValid st h) :
    cacheValid (createLayers variants st h).st (createLayers variants st h).host ∧
    (∀ v ∈ variants, ((createLayers variants st h).host.layerOn v).isSome = true) := by
  induction variants generalizing st h with
  | nil =>
    rw [createLayers]
    exact ⟨hcv, fun v hv => absurd hv (by simp)⟩
  | cons v rest ih =>
    rw [createLayers]
    obtain ⟨gv, ge⟩ := @get_or_create_layer_valid v st h hcv
    obtain ⟨iv, ie⟩ := ih (get_or_create_layer v st h).1 (get_or_create_layer v st h).2.1 gv
    refine ⟨iv, ?_⟩
    intro w hw
    rcases List.mem_cons.mp hw with hw' | hw'
    · rw [hw']
      obtain ⟨b, hb⟩ := Option.isSome_iff_exists.mp ge
      have := (createLayers_spec rest (get_or_create_layer v st h).1
        (get_or_create_layer v st h).2.1).2.2.2.2.2.2.2.1 v b hb
      rw [this]
      rfl
    · exact ie w hw'

/-- Every handle in a destination batch of the collection pass comes from
the initial batches or from a matched scene object. -/
theorem buildCollect_batch_src (fl : Faults) (variants : List String) (aw : Bool)
    (objs : List Obj) (c : CollectSt) {x : Nat} {nm : String}
    (hb : inBatch x nm (buildCollect fl variants aw objs c).c.nodesByLayer) :
    inBatch x nm c.nodesByLayer ∨
      ∃ o ∈ objs, o.handle = x ∧ ∃ lod variant,
        parse_name (.str o.name) = some (lod, variant) ∧
        variants.contains variant = true ∧ nm = lodLayerName variant lod := by
  induction objs generalizing c with
  | nil =>
    rw [buildCollect] at hb
    exact Or.inl hb
  | cons o rest ih =>
    rw [buildCollect] at hb
    cases hp : parse_name (.str o.name) with
    | none =>
      rw [hp] at hb
      rcases ih _ hb with h' | h'
      · by_cases haw : aw
        · rw [if_pos haw] at h'
          exact Or.inl h'
        · rw [if_neg haw] at h'
          exact Or.inl h'
      · obtain ⟨o', ho', rest'⟩ := h'
        exact Or.inr ⟨o', List.mem_cons_of_mem _ ho', rest'⟩
    | some p =>
      obtain ⟨lod, variant⟩ := p
      rw [hp] at hb
      dsimp only at hb
      by_cases hv : variants.contains variant
      · rw [if_pos hv] at hb
        by_cases hl : c.lodLayers.contains (lodLayerName variant lod)
        · rw [if_pos hl] at hb
          rcases ih _ hb with h' | h'
          · rcases inBatch_pushVal_src h' with h'' | h''
            · exact Or.inl h''
            · exact Or.inr ⟨o, List.mem_cons_self _ _, h''.2.symm,
                lod, variant, hp, hv, h''.1⟩
          · obtain ⟨o', ho', rest'⟩ := h'
            exact Or.inr ⟨o', List.mem_cons_of_mem _ ho', rest'⟩
        · rw [if_neg hl] at hb
          by_cases hf : fl.hasSetParent && fl.setParentFails (lodLayerName variant lod)
          · rw [if_pos hf] at hb
            exact Or.inl hb
          · rw [if_neg hf] at hb
            rcases ih _ hb with h' | h'
            · rcases inBatch_pushVal_src h' with h'' | h''
              · exact Or.inl h''
              · exact Or.inr ⟨o, List.mem_cons_self _ _, h''.2.symm,
                  lod, variant, hp, hv, h''.1⟩
            · obtain ⟨o', ho', rest'⟩ := h'
              exact Or.inr ⟨o', List.mem_cons_of_mem _ ho', rest'⟩
      · rw [if_neg hv] at hb
        rcases ih _ hb with h' | h'
        · by_cases haw : aw
          · rw [if_pos haw] at h'
            exact Or.inl h'
          · rw [if_neg haw] at h'
            exact Or.inl h'
        · obtain ⟨o', ho', rest'⟩ := h'
          exact Or.inr ⟨o', List.mem_cons_of_mem _ ho', rest'⟩

/-- Every handle in the wrong-named queue of the collection pass comes from
the initial queue or from an unmatched scene object. -/
theorem buildCollect_wrong_src (fl : Faults) (variants : List String) (aw : Bool)
    (objs : List Obj) (c : CollectSt) {x : Nat}
    (hw : x ∈ (buildCollect fl variants aw objs c).c.wrongNodes) :
    x ∈ c.wrongNodes ∨
      ∃ o ∈ objs, o.handle = x ∧
        ∀ lod variant, parse_name (.str o.name) = some (lod, variant) →
          variants.contains variant = false := by
  induction objs generalizing c with
  | nil =>
    rw [buildCollect] at hw
    exact Or.inl hw
  | cons o rest ih =>
    rw [buildCollect] at hw
    cases hp : parse_name (.str o.name) with
    | none =>
      rw [hp] at hw
      by_cases haw : aw
      · rw [if_pos haw] at hw
        rcases ih _ hw with h' | h'
        · rcases List.mem_append.mp h' with h'' | h''
          · exact Or.inl h''
          · rw [List.mem_singleton] at h''
            refine Or.inr ⟨o, List.mem_cons_self _ _, h''.symm, ?_⟩
            intro lod variant hpc
            rw [hp] at hpc
            exact absurd hpc (by simp)
        · obtain ⟨o', ho', rest'⟩ := h'
          exact Or.inr ⟨o', List.mem_cons_of_mem _ ho', rest'⟩
      · rw [if_neg haw] at hw
        rcases ih _ hw with h' | h'
        · exact Or.inl h'
        · obtain ⟨o', ho', rest'⟩ := h'
          exact Or.inr ⟨o', List.mem_cons_of_mem _ ho', rest'⟩
    | some p =>
      obtain ⟨lod, variant⟩ := p
      rw [hp] at hw
      dsimp only at hw
      by_cases hv : variants.contains variant
      · rw [if_pos hv] at hw
        by_cases hl : c.lodLayers.contains (lodLayerName variant lod)
        · rw [if_pos hl] at hw
          rcases ih _ hw with h' | h'
          · exact Or.inl h'
          · obtain ⟨o', ho', rest'⟩ := h'
            exact Or.inr ⟨o', List.mem_cons_of_mem _ ho', rest'⟩
        · rw [if_neg hl] at hw
          by_cases hf : fl.hasSetParent && fl.setParentFails (lodLayerName variant lod)
          · rw [if_pos hf] at hw
            exact Or.inl hw
          · rw [if_neg hf] at hw
            rcases ih _ hw with h' | h'
            · exact Or.inl h'
            · obtain ⟨o', ho', rest'⟩ := h'
              exact Or.inr ⟨o', List.mem_cons_of_mem _ ho', rest'⟩
      · rw [if_neg hv] at hw
        by_cases haw : aw
        · rw [if_pos haw] at hw
          rcases ih _ hw with h' | h'
          · rcases List.mem_append.mp h' with h'' | h''
            · exact Or.inl h''
            · rw [List.mem_singleton] at h''
              refine Or.inr ⟨o, List.mem_cons_self _ _, h''.symm, ?_⟩
              intro lod' variant' hpc
              rw [hp] at hpc
              rw [Option.some.injEq, Prod.mk.injEq] at hpc
              rw [← hpc.2]
              exact Bool.not_eq_true _ ▸ eq_false_of_ne_true hv
          · obtain ⟨o', ho', rest'⟩ := h'
            exact Or.inr ⟨o', List.mem_cons_of_mem _ ho', rest'⟩
        · rw [if_neg haw] at hw
          rcases ih _ hw with h' | h'
          · exact Or.inl h'
          · obtain ⟨o', ho', rest'⟩ := h'
            exact Or.inr ⟨o', List.mem_cons_of_mem _ ho', rest'⟩

/-- Distinct-handle scenes: an object is determined by its handle. -/
theorem handle_inj {objs : List Obj} (hnd : (objs.map Obj.handle).Nodup)
    {a b : Obj} (ha : a ∈ objs) (hb : b ∈ objs) (he : a.handle = b.handle) :
    a = b := by
  induction objs with
  | nil => simp at ha
  | cons o rest ih =>
    rw [List.map_cons, List.nodup_cons] at hnd
    rcases List.mem_cons.mp ha with ha' | ha'
    · rcases List.mem_cons.mp hb with hb' | hb'
      · rw [ha', hb']
      · exfalso
        apply hnd.1
        rw [← ha', he]
        exact List.mem_map_of_mem _ hb'
    · rcases List.mem_cons.mp hb with hb' | hb'
      · exfalso
        apply hnd.1
        rw [← hb', ← he]
        exact List.mem_map_of_mem _ ha'
      · exact ih hnd.2 ha' hb'

/-- Frame, effect and trace facts for the batch-and-sync tail of
`build_structure`: the host's layer map and the ledger and UI caches pass
through unchanged, moved objects land on their destination layer, and
every acquired redraw suspension is released with only assignment and
hidden-flag writes inside it. -/
theorem buildFinish_spec (fl : Faults) (objs : List Obj) (variants : List String)
    (aw : Bool) (pre : List Ev) (rA : CRes) :
    ((buildFinish fl objs variants aw pre rA).host.layerOn = rA.c.host.layerOn) ∧
    ((buildFinish fl objs variants aw pre rA).st.original_layers =
      rA.c.st.original_layers) ∧
    ((buildFinish fl objs variants aw pre rA).st.last_button_states =
      rA.c.st.last_button_states) ∧
    ((buildFinish fl objs variants aw pre rA).st.current_variants =
      rA.c.st.current_variants) ∧
    (∀ x, (∀ nm hs, (nm, hs) ∈ rA.c.nodesByLayer → x ∉ hs) →
      x ∉ rA.c.wrongNodes →
      (buildFinish fl objs variants aw pre rA).host.objLayer x =
        rA.c.host.objLayer x) ∧
    ((buildFinish fl objs variants aw pre rA).ok = true → aw = true →
      ∀ x ∈ rA.c.wrongNodes,
      (buildFinish fl objs variants aw pre rA).host.objLayer x = "WrongNames") ∧
    ((buildFinish fl objs variants aw pre rA).ok = true → ∀ x L,
      inBatch x L rA.c.nodesByLayer →
      (∀ nm hs, (nm, hs) ∈ rA.c.nodesByLayer → x ∈ hs → nm = L) →
      x ∉ rA.c.wrongNodes →
      (buildFinish fl objs variants aw pre rA).host.objLayer x = L) ∧
    (rA.ok = false →
      (buildFinish fl objs variants aw pre rA).trace = pre ++ rA.trace) ∧
    (rA.ok = true → ∃ mid tl,
      (buildFinish fl objs variants aw pre rA).trace =
        pre ++ rA.trace ++ [Ev.redrawOff] ++ mid ++ [Ev.redrawOn] ++ tl ∧
      (∀ e ∈ mid, (∃ x nm, e = Ev.addNode x nm) ∨ ∃ x b, e = Ev.setHidden x b) ∧
      (∀ e ∈ tl, e = Ev.redrawViews)) := by
  rw [buildFinish]
  by_cases hA : rA.ok = true
  · rw [if_pos hA]
    dsimp only
    generalize hr1 : assignBatches fl rA.c.nodesByLayer rA.c.st rA.c.host = r1
    have s1 := assignBatches_spec fl rA.c.nodesByLayer rA.c.st rA.c.host
    rw [hr1] at s1
    obtain ⟨b1, b2, b3, b4, b5, b6, b7, b8, b9, b10, b11, b12, b13, b14⟩ := s1
    by_cases h1 : r1.ok = true
    · rw [if_pos h1]
      generalize hr2 : assignWrong fl aw rA.c.wrongNodes r1.st r1.host = r2
      have s2 := assignWrong_spec fl aw rA.c.wrongNodes r1.st r1.host
      rw [hr2] at s2
      obtain ⟨w1, w2, w3, w4, w5, w6, w7, w8, w9, w10, w11, w12, w13, w14⟩ := s2
      by_cases h2 : r2.ok = true
      · rw [if_pos h2]
        dsimp only
        generalize hr3 : syncParentLayers objs (dedup variants) r2.st r2.host = r3
        have s3 := syncParentLayers_spec objs (dedup variants) r2.st r2.host
        rw [hr3] at s3
        obtain ⟨p1, p2, p3, p4, p5, p6, p7⟩ := s3
        generalize hr4 : syncList objs rA.c.lodLayers r3.st r3.host = r4
        have s4 := syncList_spec objs rA.c.lodLayers r3.st r3.host
        rw [hr4] at s4
        obtain ⟨q1, q2, q3, q4, q5, q6⟩ := s4
        have q7 := syncList_trace objs rA.c.lodLayers r3.st r3.host
        rw [hr4] at q7
        by_cases haw : aw = true
        · rw [if_pos haw]
          dsimp only
          generalize hr5 : sync_layer_objects_visibility objs "WrongNames" r4.st r4.host = s5
          have s5s := sync_layer_spec objs "WrongNames" r4.st r4.host
          rw [hr5] at s5s
          obtain ⟨y1, y2, y3, y4, y5, y6, y7, y8⟩ := s5s
          have y9 := sync_layer_trace objs "WrongNames" r4.st r4.host
          rw [hr5] at y9
          refine ⟨by rw [y1, q1, p1, w1, b1], by rw [y4, q3, p3, w5, b5],
            by rw [y7, q5, p5, w7, b7], by rw [y8, q6, p6, w8, b8],
            ?_, ?_, ?_, ?_, ?_⟩
          · intro x hx1 hx2
            rw [y2, q2, p2, w13 x hx2, b13 x hx1]
          · intro _ haw' x hxw
            rw [y2, q2, p2]
            exact w14 h2 haw' x hxw
          · intro _ x L hb huniq hxw
            rw [y2, q2, p2, w13 x hxw]
            exact b14 h1 x L hb huniq
          · intro hf
            rw [hf] at hA
            exact absurd hA (by simp)
          · intro _
            refine ⟨r1.trace ++ r2.trace ++ r3.trace ++ r4.trace ++ s5.2.2,
              [Ev.redrawViews], ?_, ?_, ?_⟩
            · simp [List.append_assoc]
            · intro e he
              rcases List.mem_append.mp he with he' | he'
              · rcases List.mem_append.mp he' with he'' | he''
                · rcases List.mem_append.mp he'' with he3 | he3
                  · rcases List.mem_append.mp he3 with he4 | he4
                    · obtain ⟨x, nm, hx⟩ := b11 e he4
                      exact Or.inl ⟨x, nm, hx⟩
                    · obtain ⟨x, hx⟩ := w11 e he4
                      exact Or.inl ⟨x, "WrongNames", hx⟩
                  · obtain ⟨x, b, hx⟩ := p7 e he3
                    exact Or.inr ⟨x, b, hx⟩
                · obtain ⟨x, b, hx⟩ := q7 e he''
                  exact Or.inr ⟨x, b, hx⟩
              · obtain ⟨x, b, hx⟩ := y9 e he'
                exact Or.inr ⟨x, b, hx⟩
            · intro e he
              rw [List.mem_singleton] at he
              exact he
        · rw [if_neg haw]
          dsimp only
          refine ⟨by rw [q1, p1, w1, b1], by rw [q3, p3, w5, b5],
            by rw [q5, p5, w7, b7], by rw [q6, p6, w8, b8],
            ?_, ?_, ?_, ?_, ?_⟩
          · intro x hx1 hx2
            rw [q2, p2, w13 x hx2, b13 x hx1]
          · intro _ haw' _ _
            exact absurd haw' haw
          · intro _ x L hb huniq hxw
            rw [q2, p2, w13 x hxw]
            exact b14 h1 x L hb huniq
          · intro hf
            rw [hf] at hA
            exact absurd hA (by simp)
          · intro _
            refine ⟨r1.trace ++ r2.trace ++ r3.trace ++ r4.trace ++ [],
              [Ev.redrawViews], ?_, ?_, ?_⟩
            · simp [List.append_assoc]
            · intro e he
              rcases List.mem_append.mp he with he' | he'
              · rcases List.mem_append.mp he' with he'' | he''
                · rcases List.mem_append.mp he'' with he3 | he3
                  · rcases List.mem_append.mp he3 with he4 | he4
                    · obtain ⟨x, nm, hx⟩ := b11 e he4
                      exact Or.inl ⟨x, nm, hx⟩
                    · obtain ⟨x, hx⟩ := w11 e he4
                      exact Or.inl ⟨x, "WrongNames", hx⟩
                  · obtain ⟨x, b, hx⟩ := p7 e he3
                    exact Or.inr ⟨x, b, hx⟩
                · obtain ⟨x, b, hx⟩ := q7 e he''
                  exact Or.inr ⟨x, b, hx⟩
              · exact absurd he' (by simp)
            · intro e he
              rw [List.mem_singleton] at he
              exact he
      · rw [if_neg h2]
        refine ⟨by rw [w1, b1], by rw [w5, b5], by rw [w7, b7], by rw [w8, b8],
          ?_, ?_, ?_, ?_, ?_⟩
        · intro x hx1 hx2
          rw [w13 x hx2, b13 x hx1]
        · intro hok
          exact absurd hok (by simp)
        · intro hok
          exact absurd hok (by simp)
        · intro hf
          rw [hf] at hA
          exact absurd hA (by simp)
        · intro _
          refine ⟨r1.trace ++ r2.trace, [], ?_, ?_, ?_⟩
          · simp [List.append_assoc]
          · intro e he
            rcases List.mem_append.mp he with he' | he'
            · obtain ⟨x, nm, hx⟩ := b11 e he'
              exact Or.inl ⟨x, nm, hx⟩
            · obtain ⟨x, hx⟩ := w11 e he'
              exact Or.inl ⟨x, "WrongNames", hx⟩
          · intro e he
            exact absurd he (by simp)
    · rw [if_neg h1]
      refine ⟨b1, b5, b7, b8, ?_, ?_, ?_, ?_, ?_⟩
      · intro x hx1 _
        exact b13 x hx1
      · intro hok
        exact absurd hok (by simp)
      · intro hok
        exact absurd hok (by simp)
      · intro hf
        rw [hf] at hA
        exact absurd hA (by simp)
      · intro _
        refine ⟨r1.trace, [], ?_, ?_, ?_⟩
        · simp [List.append_assoc]
        · intro e he
          obtain ⟨x, nm, hx⟩ := b11 e he
          exact Or.inl ⟨x, nm, hx⟩
        · intro e he
          exact absurd he (by simp)
  · rw [if_neg hA]
    refine ⟨rfl, rfl, rfl, rfl, fun x _ _ => rfl, ?_, ?_, fun _ => rfl, ?_⟩
    · intro hok
      exact absurd hok (by simp)
    · intro hok
      exact absurd hok (by simp)
    · intro ht
      exact absurd ht hA

/-- With a non-failing host the batch-and-sync tail succeeds. -/
theorem buildFinish_ok (objs : List Obj) (variants : List String)
    (aw : Bool) (pre : List Ev) (rA : CRes) (hA : rA.ok = true) :
    (buildFinish noFaults objs variants aw pre rA).ok = true := by
  rw [buildFinish, if_pos hA]
  dsimp only
  have h1 : (assignBatches noFaults rA.c.nodesByLayer rA.c.st rA.c.host).ok = true :=
    (assignBatches_spec noFaults rA.c.nodesByLayer rA.c.st
      rA.c.host).2.2.2.2.2.2.2.2.2.2.2.1.mpr (fun _ _ _ _ _ => rfl)
  rw [if_pos h1]
  have h2 : (assignWrong noFaults aw rA.c.wrongNodes
      (assignBatches noFaults rA.c.nodesByLayer rA.c.st rA.c.host).st
      (assignBatches noFaults rA.c.nodesByLayer rA.c.st rA.c.host).host).ok = true :=
    (assignWrong_spec noFaults aw rA.c.wrongNodes _ _).2.2.2.2.2.2.2.2.2.2.2.1.mpr
      (fun _ _ _ => rfl)
  rw [if_pos h2]

/-- `build_structure` never deletes a layer, never forgets a ledger entry,
and leaves the snapshot memo and variant list alone. -/
theorem build_structure_spec (fl : Faults) (objs : List Obj)
    (variants : List String) (aw : Bool) (st : Engine) (h : Host) :
    (∀ m b, h.layerOn m = some b →
      (build_structure fl objs variants aw st h).host.layerOn m = some b) ∧
    (∀ k x, st.original_layers.lookup k = some x →
      (build_structure fl objs variants aw st h).st.original_layers.lookup k =
        some x) ∧
    ((build_structure fl objs variants aw st h).st.last_button_states =
      st.last_button_states) ∧
    ((build_structure fl objs variants aw st h).st.current_variants =
      st.current_variants) := by
  rw [build_structure]
  generalize hP : createLayers variants st h = rP
  have sP := createLayers_spec variants st h
  rw [hP] at sP
  obtain ⟨c1, c2, c3, c4, c5, c6, c7, c8, c9⟩ := sP
  by_cases haw : aw = true
  · rw [if_pos haw]
    generalize hG : get_or_create_layer "WrongNames" rP.st rP.host = gW
    have sG := get_or_create_layer_spec "WrongNames" rP.st rP.host
    rw [hG] at sG
    obtain ⟨g1, g2, g3, g4, g5, g6, g7, g8, g9⟩ := sG
    generalize hA : buildCollect fl variants aw objs
      ⟨gW.1, gW.2.1, [], [], []⟩ = rA
    have fA := buildCollect_frame fl variants aw objs ⟨gW.1, gW.2.1, [], [], []⟩
    rw [hA] at fA
    obtain ⟨f1, f2, f3, f4, f5, f6, f7, f8⟩ := fA
    obtain ⟨e1, e2, e3, e4, e5, e6, e7, e8, e9⟩ :=
      buildFinish_spec fl objs variants aw (rP.trace ++ gW.2.2) rA
    refine ⟨?_, ?_, ?_, ?_⟩
    · intro m b hb
      rw [e1]
      exact f3 m b (g9 m b (c8 m b hb))
    · intro k x hk
      rw [e2]
      refine f4 k x ?_
      show gW.1.original_layers.lookup k = some x
      rw [g1, c3]
      exact hk
    · rw [e3]
      show rA.c.st.last_button_states = st.last_button_states
      rw [f7]
      show gW.1.last_button_states = st.last_button_states
      rw [g4, c6]
    · rw [e4]
      show rA.c.st.current_variants = st.current_variants
      rw [f8]
      show gW.1.current_variants = st.current_variants
      rw [g5, c7]
  · rw [if_neg haw]
    generalize hA : buildCollect fl variants aw objs
      ⟨(rP.st, rP.host, ([] : List Ev)).1, (rP.st, rP.host, ([] : List Ev)).2.1,
        [], [], []⟩ = rA
    have fA := buildCollect_frame fl variants aw objs
      ⟨(rP.st, rP.host, ([] : List Ev)).1, (rP.st, rP.host, ([] : List Ev)).2.1,
        [], [], []⟩
    rw [hA] at fA
    obtain ⟨f1, f2, f3, f4, f5, f6, f7, f8⟩ := fA
    obtain ⟨e1, e2, e3, e4, e5, e6, e7, e8, e9⟩ :=
      buildFinish_spec fl objs variants aw
        (rP.trace ++ (rP.st, rP.host, ([] : List Ev)).2.2) rA
    refine ⟨?_, ?_, ?_, ?_⟩
    · intro m b hb
      rw [e1]
      exact f3 m b (c8 m b hb)
    · intro k x hk
      rw [e2]
      refine f4 k x ?_
      show rP.st.original_layers.lookup k = some x
      rw [c3]
      exact hk
    · rw [e3]
      show rA.c.st.last_button_states = st.last_button_states
      rw [f7]
      show rP.st.last_button_states = st.last_button_states
      rw [c6]
    · rw [e4]
      show rA.c.st.current_variants = st.current_variants
      rw [f8]
      show rP.st.current_variants = st.current_variants
      rw [c7]

/-- With a non-failing host `build_structure` runs to completion. -/
theorem build_structure_ok (objs : List Obj) (variants : List String) (aw : Bool)
    (st : Engine) (h : Host) :
    (build_structure noFaults objs variants aw st h).ok = true := by
  rw [build_structure]
  exact buildFinish_ok objs variants aw _ _ (buildCollect_ok variants aw objs _)

/-- The decimal strings of the in-range LOD ranks are pairwise distinct. -/
theorem natStr_inj_lt4 {i j : Nat} (hi : i < 4) (hj : j < 4) (hne : i ≠ j) :
    natStr i ≠ natStr j := by
  interval_cases i <;> interval_cases j <;>
    first
    | exact absurd rfl hne
    | decide

/-- A pair of a dict after an assignment was already there or carries the
assigned key. -/
theorem mem_upsert_src {β : Type} {l : List (String × β)} {k : String} {v : β}
    {p : String × β} (hp : p ∈ upsert l k v) : p ∈ l ∨ p.1 = k := by
  induction l with
  | nil =>
    rw [upsert] at hp
    rw [List.mem_singleton] at hp
    exact Or.inr (by rw [hp])
  | cons q t ih =>
    obtain ⟨k', v'⟩ := q
    rw [upsert] at hp
    by_cases hk : k' = k
    · rw [if_pos hk] at hp
      rcases List.mem_cons.mp hp with hp' | hp'
      · exact Or.inr (by rw [hp'])
      · exact Or.inl (List.mem_cons_of_mem _ hp')
    · rw [if_neg hk] at hp
      rcases List.mem_cons.mp hp with hp' | hp'
      · exact Or.inl (by rw [hp']; exact List.mem_cons_self _ _)
      · rcases ih hp' with h' | h'
        · exact Or.inl (List.mem_cons_of_mem _ h')
        · exact Or.inr h'

/-- Frame and trace facts for the diffing write loop of `apply_visibility`. -/
theorem applyWrites_spec (objs : List Obj) (lv : List (String × Bool))
    (st : Engine) (h : Host) :
    ((applyWrites objs lv st h).st.original_layers = st.original_layers) ∧
    ((applyWrites objs lv st h).st.last_button_states = st.last_button_states) ∧
    ((applyWrites objs lv st h).st.current_variants = st.current_variants) ∧
    ((applyWrites objs lv st h).host.objLayer = h.objLayer) ∧
    ((applyWrites objs lv st h).host.objHidden = h.objHidden) ∧
    (∀ e ∈ (applyWrites objs lv st h).trace, ∃ nm b, e = Ev.setLayerOn nm b) ∧
    (∀ L, (∀ p ∈ lv, p.1 ≠ L) →
      (applyWrites objs lv st h).host.layerOn L = h.layerOn L) := by
  induction lv generalizing st h with
  | nil =>
    rw [applyWrites]
    exact ⟨rfl, rfl, rfl, rfl, rfl, fun e he => absurd he (by simp),
      fun L _ => rfl⟩
  | cons p rest ih =>
    obtain ⟨name, state⟩ := p
    rw [applyWrites]
    by_cases hskip : st.layer_visible.lookup name == some state
    · rw [if_pos hskip]
      obtain ⟨i1, i2, i3, i4, i5, i6, i7⟩ := ih st h
      exact ⟨i1, i2, i3, i4, i5, i6,
        fun L hL => i7 L (fun q hq => hL q (List.mem_cons_of_mem _ hq))⟩
    · rw [if_neg hskip]
      obtain ⟨c1, c2, c3, c4, c5⟩ := collect_layer_handles_spec objs name
        {st with layer_visible := upsert st.layer_visible name state}
        {h with layerOn := updStr h.layerOn name (some state)}
      obtain ⟨i1, i2, i3, i4, i5, i6, i7⟩ := ih
        (collect_layer_handles objs name
          {st with layer_visible := upsert st.layer_visible name state}
          {h with layerOn := updStr h.layerOn name (some state)}).2
        {h with layerOn := updStr h.layerOn name (some state)}
      refine ⟨by rw [i1, c1], by rw [i2, c4], by rw [i3, c5], i4, i5, ?_, ?_⟩
      · intro e he
        rcases List.mem_cons.mp he with he' | he'
        · exact ⟨name, state, he'⟩
        · exact i6 e he'
      · intro L hL
        rw [i7 L (fun q hq => hL q (List.mem_cons_of_mem _ hq))]
        show updStr h.layerOn name (some state) L = h.layerOn L
        exact updStr_ne _ _ (Ne.symm (hL (name, state) (List.mem_cons_self _ _)))

/-- The diffing write loop establishes each desired entry on the host when
the desired dict has distinct keys and the memo is consistent with the
host. -/
theorem applyWrites_layerOn_mem {objs : List Obj} {lv : List (String × Bool)}
    {st : Engine} {h : Host} {L : String} {s : Bool}
    (hnd : (lv.map Prod.fst).Nodup) (hmem : (L, s) ∈ lv)
    (hcons : ∀ nm b, st.layer_visible.lookup nm = some b → h.layerOn nm = some b) :
    (applyWrites objs lv st h).host.layerOn L = some s := by
  induction lv generalizing st h with
  | nil => simp at hmem
  | cons p rest ih =>
    obtain ⟨name, state⟩ := p
    rw [List.map_cons, List.nodup_cons] at hnd
    rcases List.mem_cons.mp hmem with hm' | hm'
    · rw [Prod.mk.injEq] at hm'
      obtain ⟨hL, hs⟩ := hm'
      have hnotin : ∀ q ∈ rest, q.1 ≠ L := by
        intro q hq he
        apply hnd.1
        rw [← hL, ← he]
        show q.1 ∈ List.map Prod.fst rest
        exact List.mem_map_of_mem Prod.fst hq
      rw [applyWrites]
      by_cases hskip : st.layer_visible.lookup name == some state
      · rw [if_pos hskip]
        rw [(applyWrites_spec objs rest st h).2.2.2.2.2.2 L hnotin]
        rw [beq_iff_eq] at hskip
        rw [hL, hs]
        exact hcons name state hskip
      · rw [if_neg hskip]
        rw [(applyWrites_spec objs rest _ _).2.2.2.2.2.2 L hnotin]
        show updStr h.layerOn name (some state) L = some s
        rw [← hL, ← hs, updStr_same]
    · rw [applyWrites]
      by_cases hskip : st.layer_visible.lookup name == some state
      · rw [if_pos hskip]
        exact ih hnd.2 hm' hcons
      · rw [if_neg hskip]
        refine ih hnd.2 hm' ?_
        intro nm b hb
        rw [(collect_layer_handles_spec objs name
          {st with layer_visible := upsert st.layer_visible name state}
          {h with layerOn := updStr h.layerOn name (some state)}).2.2.1] at hb
        show updStr h.layerOn name (some state) nm = some b
        by_cases hnm : nm = name
        · subst hnm
          rw [lookup_upsert_self] at hb
          rw [updStr_same]
          exact hb
        · rw [lookup_upsert_ne _ _ _ hnm] at hb
          rw [updStr_ne _ _ hnm]
          exact hcons nm b hb

/-- Frame, key and content facts for the per-variant LOD loop of the
desired-visibility dict. -/
theorem desiredLods_spec (bs : List (String × Bool)) (v : String) (varVis : Bool)
    (is : List Nat) (lv : List (String × Bool)) (st : Engine) (h : Host) :
    ((desiredLods bs v varVis is lv st h).2.original_layers = st.original_layers) ∧
    ((desiredLods bs v varVis is lv st h).2.layer_nodes = st.layer_nodes) ∧
    ((desiredLods bs v varVis is lv st h).2.layer_visible = st.layer_visible) ∧
    ((desiredLods bs v varVis is lv st h).2.last_button_states =
      st.last_button_states) ∧
    ((desiredLods bs v varVis is lv st h).2.current_variants =
      st.current_variants) ∧
    ((lv.map Prod.fst).Nodup →
      ((desiredLods bs v varVis is lv st h).1.map Prod.fst).Nodup) ∧
    (∀ p ∈ (desiredLods bs v varVis is lv st h).1,
      p ∈ lv ∨ ∃ i ∈ is, p.1 = lodLayerName v i) ∧
    (∀ nm, (∀ i ∈ is, nm ≠ lodLayerName v i) →
      (desiredLods bs v varVis is lv st h).1.lookup nm = lv.lookup nm) ∧
    (∀ i ∈ is, (∀ j ∈ is, lodLayerName v j = lodLayerName v i → j = i) →
      (h.layerOn (lodLayerName v i)).isSome = true →
      (desiredLods bs v varVis is lv st h).1.lookup (lodLayerName v i) =
        some (varVis && (bs.lookup ("btnL" ++ natStr i)).getD false)) := by
  induction is generalizing lv st with
  | nil =>
    rw [desiredLods]
    exact ⟨rfl, rfl, rfl, rfl, rfl, fun hnd => hnd, fun p hp => Or.inl hp,
      fun nm _ => rfl, fun i hi => absurd hi (by simp)⟩
  | cons i0 rest ih =>
    rw [desiredLods]
    obtain ⟨g1, g2, g3, g4, g5⟩ := get_layer_cached_spec (lodLayerName v i0) st h
    by_cases hf : (get_layer_cached (lodLayerName v i0) st h).1 = true
    · rw [if_pos hf]
      obtain ⟨i1, i2, i3, i4, i5, i6, i7, i8, i9⟩ := ih
        (upsert lv (lodLayerName v i0)
          (varVis && (bs.lookup ("btnL" ++ natStr i0)).getD false))
        (get_layer_cached (lodLayerName v i0) st h).2
      refine ⟨by rw [i1, g1], by rw [i2, g2], by rw [i3, g3], by rw [i4, g4],
        by rw [i5, g5], ?_, ?_, ?_, ?_⟩
      · intro hnd
        exact i6 (keys_nodup_upsert _ _ hnd)
      · intro p hp
        rcases i7 p hp with hp' | hp'
        · rcases mem_upsert_src hp' with hq | hq
          · exact Or.inl hq
          · exact Or.inr ⟨i0, List.mem_cons_self _ _, hq⟩
        · obtain ⟨j, hj, hq⟩ := hp'
          exact Or.inr ⟨j, List.mem_cons_of_mem _ hj, hq⟩
      · intro nm hnm
        rw [i8 nm (fun j hj => hnm j (List.mem_cons_of_mem _ hj))]
        exact lookup_upsert_ne _ _ _ (hnm i0 (List.mem_cons_self _ _))
      · intro i hi huniq hex
        rcases List.mem_cons.mp hi with hi' | hi'
        · by_cases hirest : i ∈ rest
          · exact i9 i hirest
              (fun j hj hje => huniq j (List.mem_cons_of_mem _ hj) hje) hex
          · have hnone : ∀ j ∈ rest, lodLayerName v i ≠ lodLayerName v j := by
              intro j hj hje
              exact hirest ((huniq j (List.mem_cons_of_mem _ hj) hje.symm) ▸ hj)
            rw [i8 (lodLayerName v i) hnone]
            rw [hi']
            exact lookup_upsert_self _ _ _
        · exact i9 i hi' (fun j hj hje => huniq j (List.mem_cons_of_mem _ hj) hje)
            hex
    · rw [if_neg hf]
      obtain ⟨i1, i2, i3, i4, i5, i6, i7, i8, i9⟩ := ih lv
        (get_layer_cached (lodLayerName v i0) st h).2
      refine ⟨by rw [i1, g1], by rw [i2, g2], by rw [i3, g3], by rw [i4, g4],
        by rw [i5, g5], i6, ?_, ?_, ?_⟩
      · intro p hp
        rcases i7 p hp with hp' | hp'
        · exact Or.inl hp'
        · obtain ⟨j, hj, hq⟩ := hp'
          exact Or.inr ⟨j, List.mem_cons_of_mem _ hj, hq⟩
      · intro nm hnm
        exact i8 nm (fun j hj => hnm j (List.mem_cons_of_mem _ hj))
      · intro i hi huniq hex
        rcases List.mem_cons.mp hi with hi' | hi'
        · exfalso
          rw [hi'] at hex
          exact absurd (get_layer_cached_found hex) hf
        · exact i9 i hi' (fun j hj hje => huniq j (List.mem_cons_of_mem _ hj) hje)
            hex

/-- Frame, key and content facts for the desired-visibility dict builder. -/
theorem desiredVisAux_spec (bs : List (String × Bool)) (vs : List String)
    (lv : List (String × Bool)) (st : Engine) (h : Host) :
    ((desiredVisAux bs vs lv st h).2.original_layers = st.original_layers) ∧
    ((desiredVisAux bs vs lv st h).2.layer_nodes = st.layer_nodes) ∧
    ((desiredVisAux bs vs lv st h).2.layer_visible = st.layer_visible) ∧
    ((desiredVisAux bs vs lv st h).2.last_button_states =
      st.last_button_states) ∧
    ((desiredVisAux bs vs lv st h).2.current_variants = st.current_variants) ∧
    ((lv.map Prod.fst).Nodup →
      ((desiredVisAux bs vs lv st h).1.map Prod.fst).Nodup) ∧
    (∀ p ∈ (desiredVisAux bs vs lv st h).1,
      p ∈ lv ∨ p.1 ∈ vs ∨ ∃ v ∈ vs, ∃ i ∈ List.range 4, p.1 = lodLayerName v i) ∧
    (∀ nm, (∀ v ∈ vs, nm ≠ v ∧ ∀ i ∈ List.range 4, nm ≠ lodLayerName v i) →
      (desiredVisAux bs vs lv st h).1.lookup nm = lv.lookup nm) ∧
    (∀ v ∈ vs, (∀ w ∈ vs, '_' ∉ w.data) →
      ∀ i ∈ List.range 4, (h.layerOn (lodLayerName v i)).isSome = true →
      (desiredVisAux bs vs lv st h).1.lookup (lodLayerName v i) =
        some ((bs.lookup ("btnVar_" ++ v)).getD true &&
          (bs.lookup ("btnL" ++ natStr i)).getD false)) := by
  induction vs generalizing lv st with
  | nil =>
    rw [desiredVisAux]
    exact ⟨rfl, rfl, rfl, rfl, rfl, fun hnd => hnd, fun p hp => Or.inl hp,
      fun nm _ => rfl, fun v hv => absurd hv (by simp)⟩
  | cons w rest ih =>
    rw [desiredVisAux]
    obtain ⟨g1, g2, g3, g4, g5⟩ := get_layer_cached_spec w st h
    by_cases hg : (get_layer_cached w st h).1 = true
    · rw [if_pos hg]
      obtain ⟨d1, d2, d3, d4, d5, d6, d7, d8, d9⟩ :=
        desiredLods_spec bs w ((bs.lookup ("btnVar_" ++ w)).getD true)
          (List.range 4)
          (upsert lv w ((bs.lookup ("btnVar_" ++ w)).getD true))
          (get_layer_cached w st h).2 h
      obtain ⟨i1, i2, i3, i4, i5, i6, i7, i8, i9⟩ := ih
        (desiredLods bs w ((bs.lookup ("btnVar_" ++ w)).getD true)
          (List.range 4)
          (upsert lv w ((bs.lookup ("btnVar_" ++ w)).getD true))
          (get_layer_cached w st h).2 h).1
        (desiredLods bs w ((bs.lookup ("btnVar_" ++ w)).getD true)
          (List.range 4)
          (upsert lv w ((bs.lookup ("btnVar_" ++ w)).getD true))
          (get_layer_cached w st h).2 h).2
      refine ⟨by rw [i1, d1, g1], by rw [i2, d2, g2], by rw [i3, d3, g3],
        by rw [i4, d4, g4], by rw [i5, d5, g5], ?_, ?_, ?_, ?_⟩
      · intro hnd
        exact i6 (d6 (keys_nodup_upsert _ _ hnd))
      · intro p hp
        rcases i7 p hp with hp' | hp' | hp'
        · rcases d7 p hp' with hq | hq
          · rcases mem_upsert_src hq with hr | hr
            · exact Or.inl hr
            · exact Or.inr (Or.inl (by rw [hr]; exact List.mem_cons_self _ _))
          · obtain ⟨i, hi, hq'⟩ := hq
            exact Or.inr (Or.inr ⟨w, List.mem_cons_self _ _, i, hi, hq'⟩)
        · exact Or.inr (Or.inl (List.mem_cons_of_mem _ hp'))
        · obtain ⟨v, hv, i, hi, hq⟩ := hp'
          exact Or.inr (Or.inr ⟨v, List.mem_cons_of_mem _ hv, i, hi, hq⟩)
      · intro nm hnm
        rw [i8 nm (fun v hv => hnm v (List.mem_cons_of_mem _ hv))]
        rw [d8 nm (fun i hi => (hnm w (List.mem_cons_self _ _)).2 i hi)]
        exact lookup_upsert_ne _ _ _ (hnm w (List.mem_cons_self _ _)).1
      · intro v hv hua i hi hex
        by_cases hvrest : v ∈ rest
        · exact i9 v hvrest (fun w' hw' => hua w' (List.mem_cons_of_mem _ hw'))
            i hi hex
        · have hvw : v = w := by
            rcases List.mem_cons.mp hv with h' | h'
            · exact h'
            · exact absurd h' hvrest
          subst hvw
          have hvu : '_' ∉ v.data := hua v (List.mem_cons_self _ _)
          rw [i8 (lodLayerName v i) ?_]
          · refine d9 i hi ?_ hex
            intro j hj hje
            obtain ⟨-, hns⟩ := lodLayerName_inj hvu hvu hje
            by_contra hne
            exact natStr_inj_lt4 (List.mem_range.mp hj) (List.mem_range.mp hi)
              hne hns
          · intro w' hw'
            have hw'u : '_' ∉ w'.data := hua w' (List.mem_cons_of_mem _ hw')
            constructor
            · exact (var_ne_lodLayerName hw'u).symm
            · intro j hj hje
              obtain ⟨hvw', -⟩ := lodLayerName_inj hvu hw'u hje
              exact hvrest (hvw' ▸ hw')
    · rw [if_neg hg]
      obtain ⟨d1, d2, d3, d4, d5, d6, d7, d8, d9⟩ :=
        desiredLods_spec bs w ((bs.lookup ("btnVar_" ++ w)).getD true)
          (List.range 4) lv (get_layer_cached w st h).2 h
      obtain ⟨i1, i2, i3, i4, i5, i6, i7, i8, i9⟩ := ih
        (desiredLods bs w ((bs.lookup ("btnVar_" ++ w)).getD true)
          (List.range 4) lv (get_layer_cached w st h).2 h).1
        (desiredLods bs w ((bs.lookup ("btnVar_" ++ w)).getD true)
          (List.range 4) lv (get_layer_cached w st h).2 h).2
      refine ⟨by rw [i1, d1, g1], by rw [i2, d2, g2], by rw [i3, d3, g3],
        by rw [i4, d4, g4], by rw [i5, d5, g5], ?_, ?_, ?_, ?_⟩
      · intro hnd
        exact i6 (d6 hnd)
      · intro p hp
        rcases i7 p hp with hp' | hp' | hp'
        · rcases d7 p hp' with hq | hq
          · exact Or.inl hq
          · obtain ⟨i, hi, hq'⟩ := hq
            exact Or.inr (Or.inr ⟨w, List.mem_cons_self _ _, i, hi, hq'⟩)
        · exact Or.inr (Or.inl (List.mem_cons_of_mem _ hp'))
        · obtain ⟨v, hv, i, hi, hq⟩ := hp'
          exact Or.inr (Or.inr ⟨v, List.mem_cons_of_mem _ hv, i, hi, hq⟩)
      · intro nm hnm
        rw [i8 nm (fun v hv => hnm v (List.mem_cons_of_mem _ hv))]
        exact d8 nm (fun i hi => (hnm w (List.mem_cons_self _ _)).2 i hi)
      · intro v hv hua i hi hex
        by_cases hvrest : v ∈ rest
        · exact i9 v hvrest (fun w' hw' => hua w' (List.mem_cons_of_mem _ hw'))
            i hi hex
        · have hvw : v = w := by
            rcases List.mem_cons.mp hv with h' | h'
            · exact h'
            · exact absurd h' hvrest
          subst hvw
          have hvu : '_' ∉ v.data := hua v (List.mem_cons_self _ _)
          rw [i8 (lodLayerName v i) ?_]
          · refine d9 i hi ?_ hex
            intro j hj hje
            obtain ⟨-, hns⟩ := lodLayerName_inj hvu hvu hje
            by_contra hne
            exact natStr_inj_lt4 (List.mem_range.mp hj) (List.mem_range.mp hi)
              hne hns
          · intro w' hw'
            have hw'u : '_' ∉ w'.data := hua w' (List.mem_cons_of_mem _ hw')
            constructor
            · exact (var_ne_lodLayerName hw'u).symm
            · intro j hj hje
              obtain ⟨hvw', -⟩ := lodLayerName_inj hvu hw'u hje
              exact hvrest (hvw' ▸ hw')

/-- The bulk hidden-flag write never touches the layer map. -/
theorem bulk_set_hidden_layerOn (hdls : List Nat) (hidden : Bool) (h : Host) :
    (bulk_set_hidden hdls hidden h).1.layerOn = h.layerOn :=
  (bulk_set_hidden_spec hdls hidden h).1

/-- `apply_visibility` leaves alone every layer that is neither a listed
variant layer nor one of its four LOD layers. -/
theorem apply_visibility_layerOn_ne (bs : List (String × Bool))
    (vs : List String) (objs : List Obj) (st : Engine) (h : Host) (L : String)
    (hne : ∀ w ∈ vs, L ≠ w ∧ ∀ i ∈ List.range 4, L ≠ lodLayerName w i) :
    (apply_visibility bs vs objs st h).host.layerOn L = h.layerOn L := by
  rw [apply_visibility]
  by_cases hd : dictBeq bs st.last_button_states = true
  · rw [if_pos hd]
  · rw [if_neg hd]
    unfold desiredVisibility
    rw [bulk_set_hidden_layerOn, bulk_set_hidden_layerOn]
    refine (applyWrites_spec objs _ _ _).2.2.2.2.2.2 L ?_
    intro p hp
    rcases (desiredVisAux_spec bs vs [] _ h).2.2.2.2.2.2.1 p hp with
      h0 | h0 | h0
    · exact absurd h0 (by simp)
    · exact Ne.symm (hne p.1 h0).1
    · obtain ⟨v, hv, i, hi, hq⟩ := h0
      intro he
      rw [hq] at he
      exact (hne v hv).2 i hi he.symm

/-- Frame and effect facts for the disable-time forcing loop. -/
theorem forceOn_spec (names : List String) (h : Host) :
    ((forceOn names h).1.objLayer = h.objLayer) ∧
    ((forceOn names h).1.objHidden = h.objHidden) ∧
    (∀ L, L ∉ names → (forceOn names h).1.layerOn L = h.layerOn L) ∧
    (∀ L ∈ names, (forceOn names h).1.layerOn L = some true) ∧
    (∀ e ∈ (forceOn names h).2, ∃ nm, e = Ev.setLayerOn nm true) := by
  induction names generalizing h with
  | nil =>
    rw [forceOn]
    exact ⟨rfl, rfl, fun L _ => rfl, fun L hL => absurd hL (by simp),
      fun e he => absurd he (by simp)⟩
  | cons n rest ih =>
    rw [forceOn]
    obtain ⟨i1, i2, i3, i4, i5⟩ := ih {h with layerOn := updStr h.layerOn n (some true)}
    refine ⟨i1, i2, ?_, ?_, ?_⟩
    · intro L hL
      have h1 : L ∉ rest := fun hc => hL (List.mem_cons_of_mem _ hc)
      have h2 : L ≠ n := fun hc => hL (hc ▸ List.mem_cons_self _ _)
      rw [i3 L h1]
      show updStr h.layerOn n (some true) L = h.layerOn L
      rw [updStr_ne _ _ h2]
    · intro L hL
      rcases List.mem_cons.mp hL with hL' | hL'
      · by_cases hLrest : L ∈ rest
        · exact i4 L hLrest
        · rw [i3 L hLrest, hL']
          show updStr h.layerOn n (some true) n = some true
          rw [updStr_same]
      · exact i4 L hL'
    · intro e he
      rcases List.mem_cons.mp he with he' | he'
      · exact ⟨n, he'⟩
      · exact i5 e he'

/-- Each name collected by the LOD arm of `layers_to_show` is an
in-range LOD layer name of the variant. -/
theorem mem_showLods {h : Host} {v : String} {is : List Nat} {nm : String}
    (hm : nm ∈ showLods h v is) : ∃ i ∈ is, nm = lodLayerName v i := by
  induction is with
  | nil =>
    rw [showLods] at hm
    exact absurd hm (by simp)
  | cons i rest ih =>
    rw [showLods] at hm
    rcases List.mem_append.mp hm with hm' | hm'
    · by_cases hs : (h.layerOn (lodLayerName v i)).isSome = true
      · rw [if_pos hs] at hm'
        rw [List.mem_singleton] at hm'
        exact ⟨i, List.mem_cons_self _ _, hm'⟩
      · rw [if_neg hs] at hm'
        exact absurd hm' (by simp)
    · obtain ⟨j, hj, hq⟩ := ih hm'
      exact ⟨j, List.mem_cons_of_mem _ hj, hq⟩

/-- Each name in `layers_to_show` is a listed variant or one of its four
LOD layer names. -/
theorem mem_showNames {h : Host} {vs : List String} {nm : String}
    (hm : nm ∈ showNames h vs) :
    nm ∈ vs ∨ ∃ v ∈ vs, ∃ i ∈ List.range 4, nm = lodLayerName v i := by
  induction vs with
  | nil =>
    rw [showNames] at hm
    exact absurd hm (by simp)
  | cons v rest ih =>
    rw [showNames] at hm
    rcases List.mem_append.mp hm with hm' | hm'
    · rcases List.mem_append.mp hm' with hm'' | hm''
      · by_cases hs : (h.layerOn v).isSome = true
        · rw [if_pos hs] at hm''
          rw [List.mem_singleton] at hm''
          exact Or.inl (by rw [hm'']; exact List.mem_cons_self _ _)
        · rw [if_neg hs] at hm''
          exact absurd hm'' (by simp)
      · obtain ⟨i, hi, hq⟩ := mem_showLods hm''
        exact Or.inr ⟨v, List.mem_cons_self _ _, i, hi, hq⟩
    · rcases ih hm' with h' | h'
      · exact Or.inl (List.mem_cons_of_mem _ h')
      · obtain ⟨v', hv', i, hi, hq⟩ := h'
        exact Or.inr ⟨v', List.mem_cons_of_mem _ hv', i, hi, hq⟩

/-! ## C8: tag-file loading -/

/-- Lower-casing a parsed list of JSON strings. -/
theorem lowerElems_strs (gs : List String) :
    lowerElems (gs.map Json.str) = .ok (gs.map fun s => lowerStr s.data) := by
  induction gs with
  | nil => rfl
  | cons s rest ih =>
    rw [List.map_cons, List.map_cons, lowerElems, ih]

/-- C8, corrected.  `load_variants` does return the (lower-cased) variant
keys of a well-formed file and the empty list for an absent file, but a
malformed file raises `json.JSONDecodeError` to the caller — there is no
handler in `load_variants` (lines 51-56) — and a well-formed document
whose root is not an object raises `AttributeError` from `data.get`. -/
theorem C8_load_variants_behaviour :
    load_variants .absent = .ok [] ∧
    load_variants .malformed = .error .jsonDecodeError ∧
    load_variants (.parsed .null) = .error .attributeError ∧
    (∀ fields : List (String × Json), fields.lookup "groups" = none →
      load_variants (.parsed (.obj fields)) = .ok []) ∧
    (∀ (fields : List (String × Json)) (gs : List String),
      fields.lookup "groups" = some (.arr (gs.map .str)) →
      load_variants (.parsed (.obj fields)) =
        .ok (gs.map fun s => lowerStr s.data)) := by
  refine ⟨rfl, rfl, rfl, ?_, ?_⟩
  · intro fields hnone
    simp [load_variants, hnone, lowerElems]
  · intro fields gs hsome
    simp only [load_variants, hsome]
    exact lowerElems_strs gs

/-- Witness for C8: a one-entry `groups` list loads lower-cased. -/
theorem C8_witness :
    ([("groups", Json.arr [Json.str "Track"])].lookup "groups" =
      some (Json.arr (["Track"].map Json.str))) ∧
    load_variants (.parsed (.obj [("groups", Json.arr [Json.str "Track"])])) =
      .ok (["Track"].map fun s => lowerStr s.data) :=
  ⟨rfl, C8_load_variants_behaviour.2.2.2.2
    [("groups", Json.arr [Json.str "Track"])] ["Track"] rfl⟩

/-- Counterexample for C8 as stated: a malformed tag file does not yield
the empty list, it propagates a decode error. -/
theorem C8_counterexample :
    load_variants .malformed = .error .jsonDecodeError ∧
    load_variants .malformed ≠ .ok [] :=
  ⟨rfl, fun hc => Except.noConfusion hc⟩

/-! ## C4: idempotent no-op on repeated snapshots -/

/-- `apply_visibility` with a snapshot equal (as a dict) to the last one
applied is a complete no-op returning `false`. -/
theorem apply_visibility_noop {bs : List (String × Bool)} {vs : List String}
    {objs : List Obj} {st : Engine} {h : Host}
    (hd : dictBeq bs st.last_button_states = true) :
    apply_visibility bs vs objs st h = ⟨false, st, h, []⟩ := by
  rw [apply_visibility, if_pos hd]

/-- After any `apply_visibility` call the stored snapshot compares equal
to the snapshot just applied (for snapshots with distinct keys). -/
theorem apply_visibility_lbs_beq (bs : List (String × Bool)) (vs : List String)
    (objs : List Obj) (st : Engine) (h : Host)
    (hnd : (bs.map Prod.fst).Nodup) :
    dictBeq bs (apply_visibility bs vs objs st h).st.last_button_states = true := by
  rw [apply_visibility]
  by_cases hd : dictBeq bs st.last_button_states = true
  · rw [if_pos hd]
    exact hd
  · rw [if_neg hd]
    unfold desiredVisibility
    have h1 := (applyWrites_spec objs
      (desiredVisAux bs vs [] {st with last_button_states := bs} h).1
      (desiredVisAux bs vs [] {st with last_button_states := bs} h).2 h).2.1
    have h2 := (desiredVisAux_spec bs vs [] {st with last_button_states := bs}
      h).2.2.2.1
    show dictBeq bs (applyWrites objs
      (desiredVisAux bs vs [] {st with last_button_states := bs} h).1
      (desiredVisAux bs vs [] {st with last_button_states := bs} h).2
      h).st.last_button_states = true
    rw [h1, h2]
    exact dictBeq_refl hnd

/-- C4.  Calling `apply_visibility` twice in a row with the same snapshot
performs host writes only on the first call: the second call returns
`false`, emits no host events at all, and leaves the engine state and the
host unchanged. -/
theorem C4_apply_visibility_idempotent (bs : List (String × Bool))
    (variants : List String) (objs : List Obj) (st : Engine) (h : Host)
    (hnd : (bs.map Prod.fst).Nodup) :
    apply_visibility bs variants objs (apply_visibility bs variants objs st h).st
        (apply_visibility bs variants objs st h).host =
      ⟨false, (apply_visibility bs variants objs st h).st,
        (apply_visibility bs variants objs st h).host, []⟩ :=
  apply_visibility_noop (apply_visibility_lbs_beq bs variants objs st h hnd)

/-- Witness for C4 at a concrete snapshot, scene and host. -/
theorem C4_witness :
    (([("chkEnableFilter", true)].map Prod.fst).Nodup) ∧
    apply_visibility [("chkEnableFilter", true)] ["car"] []
        (apply_visibility [("chkEnableFilter", true)] ["car"] [] Engine.init
          hostW).st
        (apply_visibility [("chkEnableFilter", true)] ["car"] [] Engine.init
          hostW).host =
      ⟨false,
        (apply_visibility [("chkEnableFilter", true)] ["car"] [] Engine.init
          hostW).st,
        (apply_visibility [("chkEnableFilter", true)] ["car"] [] Engine.init
          hostW).host, []⟩ :=
  ⟨by decide, C4_apply_visibility_idempotent [("chkEnableFilter", true)] ["car"]
    [] Engine.init hostW (by decide)⟩

/-- C3.  After a state-changing `apply_visibility` call, the layer
`v_LOD<i>` (for a listed variant `v` and rank `i` in 0..3) is visible
exactly when the snapshot's `btnVar_<v>` flag (default on) and `btnL<i>`
flag (default off) both hold — provided the layer exists and the
`_layer_visible` memo is consistent with the host. -/
theorem C3_visibility_composition (bs : List (String × Bool))
    (variants : List String) (objs : List Obj) (st : Engine) (h : Host)
    (v : String) (i : Nat)
    (hv : v ∈ variants) (hi : i ∈ List.range 4)
    (hua : ∀ w ∈ variants, '_' ∉ w.data)
    (hchg : dictBeq bs st.last_button_states = false)
    (hex : (h.layerOn (lodLayerName v i)).isSome = true)
    (hcons : ∀ nm b, st.layer_visible.lookup nm = some b →
      h.layerOn nm = some b) :
    (apply_visibility bs variants objs st h).host.layerOn (lodLayerName v i) =
      some ((bs.lookup ("btnVar_" ++ v)).getD true &&
        (bs.lookup ("btnL" ++ natStr i)).getD false) := by
  rw [apply_visibility]
  rw [if_neg (by rw [hchg]; exact Bool.false_ne_true)]
  unfold desiredVisibility
  rw [bulk_set_hidden_layerOn, bulk_set_hidden_layerOn]
  have hlookup := (desiredVisAux_spec bs variants []
    {st with last_button_states := bs} h).2.2.2.2.2.2.2.2 v hv hua i hi hex
  have hnodup := (desiredVisAux_spec bs variants []
    {st with last_button_states := bs} h).2.2.2.2.2.1 (by simp)
  refine applyWrites_layerOn_mem hnodup (lookup_mem hlookup) ?_
  intro nm b hb
  rw [(desiredVisAux_spec bs variants [] {st with last_button_states := bs}
    h).2.2.1] at hb
  exact hcons nm b hb

/-- Witness for C3: variant `car`, rank 1, both flags on. -/
theorem C3_witness :
    ("car" ∈ ["car"]) ∧ (1 ∈ List.range 4) ∧
    (∀ w ∈ ["car"], '_' ∉ w.data) ∧
    (dictBeq [("btnVar_car", true), ("btnL1", true)]
      Engine.init.last_button_states = false) ∧
    ((hostC3.layerOn (lodLayerName "car" 1)).isSome = true) ∧
    (apply_visibility [("btnVar_car", true), ("btnL1", true)] ["car"] []
      Engine.init hostC3).host.layerOn (lodLayerName "car" 1) =
      some (([("btnVar_car", true), ("btnL1", true)].lookup
        "btnVar_car").getD true &&
        ([("btnVar_car", true), ("btnL1", true)].lookup
          ("btnL" ++ natStr 1)).getD false) :=
  ⟨by decide, by decide, by decide, by decide, by decide,
    C3_visibility_composition [("btnVar_car", true), ("btnL1", true)] ["car"]
      [] Engine.init hostC3 "car" 1 (by decide) (by decide) (by decide)
      (by decide) (by decide)
      (by intro nm b hb; exact absurd hb (by simp [Engine.init]))⟩

/-- C5.  With the catch-all enabled and a non-failing host, every object
whose name does not parse to a listed variant is moved to `WrongNames`,
which is not an LOD layer name. -/
theorem C5_unmatched_containment (objs : List Obj) (variants : List String)
    (st : Engine) (h : Host) (o : Obj)
    (ho : o ∈ objs)
    (hum : ∀ lod v, parse_name (.str o.name) = some (lod, v) →
      variants.contains v = false) :
    (build_structure noFaults objs variants true st h).host.objLayer o.handle =
      "WrongNames" ∧
    ∀ v n, (build_structure noFaults objs variants true st h).host.objLayer
      o.handle ≠ lodLayerName v n := by
  have hmain : (build_structure noFaults objs variants true st h).host.objLayer
      o.handle = "WrongNames" := by
    rw [build_structure, if_pos rfl]
    generalize hP : createLayers variants st h = rP
    generalize hG : get_or_create_layer "WrongNames" rP.st rP.host = gW
    generalize hA : buildCollect noFaults variants true objs
      ⟨gW.1, gW.2.1, [], [], []⟩ = rA
    have hAok : rA.ok = true := by
      rw [← hA]
      exact buildCollect_ok _ _ _ _
    have hok : (buildFinish noFaults objs variants true (rP.trace ++ gW.2.2)
        rA).ok = true := buildFinish_ok _ _ _ _ _ hAok
    have hwrong : o.handle ∈ rA.c.wrongNodes := by
      rw [← hA]
      exact buildCollect_adds_wrong noFaults variants ho hum
        (by rw [hA]; exact hAok)
    exact (buildFinish_spec noFaults objs variants true (rP.trace ++ gW.2.2)
      rA).2.2.2.2.2.1 hok rfl o.handle hwrong
  refine ⟨hmain, ?_⟩
  intro v n he
  rw [hmain] at he
  have hmem := mem_data_lodLayerName v n
  rw [← he] at hmem
  exact absurd hmem (by decide)

/-- Witness for C5: an unparsable name lands in `WrongNames`. -/
theorem C5_witness :
    ((⟨1, "plain"⟩ : Obj) ∈ [(⟨1, "plain"⟩ : Obj)]) ∧
    (build_structure noFaults [⟨1, "plain"⟩] ["a"] true Engine.init
      hostW).host.objLayer 1 = "WrongNames" :=
  ⟨by decide,
    (C5_unmatched_containment [⟨1, "plain"⟩] ["a"] Engine.init hostW
      ⟨1, "plain"⟩ (by decide)
      (by
        intro lod v hp
        have hnone : parse_name (.str "plain") = none := by decide
        rw [hnone] at hp
        exact absurd hp (by simp))).1⟩

/-- A successful batch-and-sync tail implies the collection pass and the
batched assignment loop both succeeded. -/
theorem buildFinish_ok_batches (fl : Faults) (objs : List Obj)
    (variants : List String) (aw : Bool) (pre : List Ev) (rA : CRes)
    (hok : (buildFinish fl objs variants aw pre rA).ok = true) :
    rA.ok = true ∧
    (assignBatches fl rA.c.nodesByLayer rA.c.st rA.c.host).ok = true := by
  rw [buildFinish] at hok
  by_cases hA : rA.ok = true
  · rw [if_pos hA] at hok
    by_cases h1 : (assignBatches fl rA.c.nodesByLayer rA.c.st rA.c.host).ok = true
    · exact ⟨hA, h1⟩
    · rw [if_neg h1] at hok
      exact absurd hok (by simp)
  · rw [if_neg hA] at hok
    exact absurd hok (by simp)

/-- C7, corrected.  There is no per-item isolation: if the host raises on
`addNode` for any matched object, the whole `build_structure` call fails
(the exception propagates — lines 204-216 have no handler). -/
theorem C7_no_isolation (fl : Faults) (objs : List Obj)
    (variants : List String) (st : Engine) (h : Host) (o : Obj) (lod : Nat)
    (v : String)
    (ho : o ∈ objs) (hp : parse_name (.str o.name) = some (lod, v))
    (hv : variants.contains v = true)
    (hfail : fl.addNodeFails o.handle = true) :
    (build_structure fl objs variants true st h).ok = false := by
  rw [build_structure, if_pos rfl]
  generalize hP : createLayers variants st h = rP
  generalize hG : get_or_create_layer "WrongNames" rP.st rP.host = gW
  generalize hA : buildCollect fl variants true objs
    ⟨gW.1, gW.2.1, [], [], []⟩ = rA
  cases hq : (buildFinish fl objs variants true (rP.trace ++ gW.2.2) rA).ok with
  | false => rfl
  | true =>
    exfalso
    obtain ⟨hAok, h1ok⟩ := buildFinish_ok_batches fl objs variants true
      (rP.trace ++ gW.2.2) rA hq
    have hib := @buildCollect_adds_matched fl variants true objs
      ⟨gW.1, gW.2.1, [], [], []⟩ o lod v ho hp hv (by rw [hA]; exact hAok)
    rw [hA] at hib
    obtain ⟨hs, hm, hx⟩ := hib.1
    have hall := ((assignBatches_spec fl rA.c.nodesByLayer rA.c.st
      rA.c.host).2.2.2.2.2.2.2.2.2.2.2.1).mp h1ok
    have := hall (lodLayerName v lod) hs hm o.handle hx
    rw [hfail] at this
    exact absurd this (by simp)

/-- Witness for C7: a raising `addNode` on handle 1 fails the build. -/
theorem C7_witness :
    ((⟨1, "LOD0_a_x"⟩ : Obj) ∈ [(⟨1, "LOD0_a_x"⟩ : Obj), ⟨2, "LOD0_a_y"⟩]) ∧
    (parse_name (.str "LOD0_a_x") = some (0, "a")) ∧
    (["a"].contains "a" = true) ∧
    (faultsC7.addNodeFails 1 = true) ∧
    (build_structure faultsC7 [⟨1, "LOD0_a_x"⟩, ⟨2, "LOD0_a_y"⟩] ["a"] true
      Engine.init hostW).ok = false :=
  ⟨by decide, by decide, by decide, by decide,
    C7_no_isolation faultsC7 [⟨1, "LOD0_a_x"⟩, ⟨2, "LOD0_a_y"⟩] ["a"]
      Engine.init hostW ⟨1, "LOD0_a_x"⟩ 0 "a" (by decide) (by decide)
      (by decide) (by decide)⟩

/-- Counterexample for C7 as stated: with `addNode` raising only for the
object with handle 1, the build aborts and the other matched object
(handle 2) is never assigned — it stays in its previous layer `base`
rather than reaching `a_LOD0`. -/
theorem C7_counterexample :
    (build_structure faultsC7 [⟨1, "LOD0_a_x"⟩, ⟨2, "LOD0_a_y"⟩] ["a"] true
      Engine.init hostW).ok = false ∧
    (build_structure faultsC7 [⟨1, "LOD0_a_x"⟩, ⟨2, "LOD0_a_y"⟩] ["a"] true
      Engine.init hostW).host.objLayer 2 = "base" := by
  constructor
  · rfl
  · rfl

/-- C6, corrected.  `enable_filter` refreshes the variant registry and
clears the four session caches before building, but it does not clear the
original-assignment ledger (nor the created-layer set): existing ledger
entries survive into the new session. -/
theorem C6_enable_reset (fl : Faults) (objs : List Obj) (st : Engine)
    (h : Host) :
    ((enable_prepare objs st h).1.layer_cache = [] ∧
      (enable_prepare objs st h).1.layer_nodes = [] ∧
      (enable_prepare objs st h).1.layer_visible = [] ∧
      (enable_prepare objs st h).1.last_button_states = [] ∧
      (enable_prepare objs st h).1.current_variants =
        collect_scene_variants objs ∧
      (enable_prepare objs st h).1.original_layers = st.original_layers ∧
      (enable_prepare objs st h).1.created_layers = st.created_layers) ∧
    (∀ k x, st.original_layers.lookup k = some x →
      (enable_filter fl objs st h).st.original_layers.lookup k = some x) := by
  refine ⟨⟨rfl, rfl, rfl, rfl, rfl, rfl, rfl⟩, ?_⟩
  intro k x hk
  rw [enable_filter]
  by_cases hok : (build_structure fl objs
      (enable_prepare objs st h).1.current_variants true
      {(enable_prepare objs st h).1 with track_created := true}
      (enable_prepare objs st h).2).ok = true
  · rw [if_pos hok]
    exact (build_structure_spec fl objs
      (enable_prepare objs st h).1.current_variants true
      {(enable_prepare objs st h).1 with track_created := true}
      (enable_prepare objs st h).2).2.1 k x hk
  · rw [if_neg hok]
    exact (build_structure_spec fl objs
      (enable_prepare objs st h).1.current_variants true
      {(enable_prepare objs st h).1 with track_created := true}
      (enable_prepare objs st h).2).2.1 k x hk

/-- Witness for C6: a stale ledger entry survives `enable_filter`. -/
theorem C6_witness :
    (([(7, "foo")] : List (Nat × String)).lookup 7 = some "foo") ∧
    (enable_filter noFaults [⟨7, "LOD1_b_z"⟩]
      {original_layers := [(7, "foo")]} hostC6).st.original_layers.lookup 7 =
      some "foo" :=
  ⟨by decide,
    (C6_enable_reset noFaults [⟨7, "LOD1_b_z"⟩]
      {original_layers := [(7, "foo")]} hostC6).2 7 "foo" (by decide)⟩

/-- Counterexample for C6 as stated: the ledger is not cleared at
enable — the stale entry `7 ↦ foo` recorded in a previous session is
still the ledger after `enable_filter`, although object 7's actual layer
at enable time was `bar`. -/
theorem C6_counterexample :
    (enable_filter noFaults [⟨7, "LOD1_b_z"⟩]
      {original_layers := [(7, "foo")]} hostC6).st.original_layers =
      [(7, "foo")] ∧
    hostC6.objLayer 7 = "bar" := ⟨rfl, rfl⟩

/-- Frame and effect facts for the per-group write loop of
`restore_original_layers`. -/
theorem restoreNodes_spec (lname : String) (hdls : List Nat) (h : Host) :
    ((restoreNodes lname hdls h).1.layerOn = h.layerOn) ∧
    ((restoreNodes lname hdls h).1.layerParent = h.layerParent) ∧
    ((restoreNodes lname hdls h).1.tags = h.tags) ∧
    (∀ x, x ∉ hdls → (restoreNodes lname hdls h).1.objLayer x = h.objLayer x ∧
      (restoreNodes lname hdls h).1.objHidden x = h.objHidden x) ∧
    (∀ x ∈ hdls, (restoreNodes lname hdls h).1.objLayer x = lname ∧
      (restoreNodes lname hdls h).1.objHidden x =
        !((h.layerOn lname).getD true)) ∧
    (∀ e ∈ (restoreNodes lname hdls h).2,
      (∃ x, e = Ev.addNode x lname) ∨ ∃ x b, e = Ev.setHidden x b) := by
  induction hdls generalizing h with
  | nil =>
    rw [restoreNodes]
    exact ⟨rfl, rfl, rfl, fun x _ => ⟨rfl, rfl⟩,
      fun x hx => absurd hx (by simp), fun e he => absurd he (by simp)⟩
  | cons hd t ih =>
    rw [restoreNodes]
    obtain ⟨i1, i2, i3, i4, i5, i6⟩ := ih
      {{h with objLayer := updFun h.objLayer hd lname} with
        objHidden := updFun {h with objLayer := updFun h.objLayer hd lname}.objHidden
          hd (!(({h with objLayer := updFun h.objLayer hd lname}.layerOn
            lname).getD true))}
    refine ⟨i1, i2, i3, ?_, ?_, ?_⟩
    · intro x hx
      have hxt : x ∉ t := fun hc => hx (List.mem_cons_of_mem _ hc)
      have hxh : x ≠ hd := fun hc => hx (hc ▸ List.mem_cons_self _ _)
      obtain ⟨j1, j2⟩ := i4 x hxt
      constructor
      · refine j1.trans ?_
        show updFun h.objLayer hd lname x = h.objLayer x
        rw [updFun_ne _ _ hxh]
      · refine j2.trans ?_
        show updFun h.objHidden hd
          (!(({h with objLayer := updFun h.objLayer hd lname}.layerOn
            lname).getD true)) x = h.objHidden x
        rw [updFun_ne _ _ hxh]
    · intro x hx
      by_cases hxt : x ∈ t
      · obtain ⟨j1, j2⟩ := i5 x hxt
        exact ⟨j1, j2⟩
      · have hxh : x = hd := by
          rcases List.mem_cons.mp hx with h' | h'
          · exact h'
          · exact absurd h' hxt
        obtain ⟨j1, j2⟩ := i4 x hxt
        constructor
        · refine j1.trans ?_
          show updFun h.objLayer hd lname x = lname
          rw [hxh, updFun_same]
        · refine j2.trans ?_
          show updFun h.objHidden hd
            (!(({h with objLayer := updFun h.objLayer hd lname}.layerOn
              lname).getD true)) x = !((h.layerOn lname).getD true)
          rw [hxh, updFun_same]
    · intro e he
      rcases List.mem_cons.mp he with he' | he'
      · exact Or.inl ⟨hd, he'⟩
      · rcases List.mem_cons.mp he' with he'' | he''
        · exact Or.inr ⟨hd, _, he''⟩
        · exact i6 e he''

/-- Frame and effect facts for the grouped write pass of
`restore_original_layers`. -/
theorem restoreWrite_spec (groups : List (String × List Nat)) (h : Host) :
    ((restoreWrite groups h).1.layerOn = h.layerOn) ∧
    (∀ x, (∀ nm hs, (nm, hs) ∈ groups → x ∉ hs) →
      (restoreWrite groups h).1.objLayer x = h.objLayer x ∧
      (restoreWrite groups h).1.objHidden x = h.objHidden x) ∧
    (∀ x L, inBatch x L groups →
      (∀ nm hs, (nm, hs) ∈ groups → x ∈ hs → nm = L) →
      (restoreWrite groups h).1.objLayer x = L ∧
      (restoreWrite groups h).1.objHidden x = !((h.layerOn L).getD true)) ∧
    (∀ e ∈ (restoreWrite groups h).2,
      (∃ x nm, e = Ev.addNode x nm) ∨ ∃ x b, e = Ev.setHidden x b) := by
  induction groups generalizing h with
  | nil =>
    rw [restoreWrite]
    refine ⟨rfl, fun x _ => ⟨rfl, rfl⟩, ?_, fun e he => absurd he (by simp)⟩
    intro x L hb _
    obtain ⟨hs, hm, -⟩ := hb
    exact absurd hm (by simp)
  | cons p rest ih =>
    obtain ⟨lname, hdls⟩ := p
    rw [restoreWrite]
    obtain ⟨n1, n2, n3, n4, n5, n6⟩ := restoreNodes_spec lname hdls h
    obtain ⟨i1, i2, i3, i4⟩ := ih (restoreNodes lname hdls h).1
    refine ⟨by rw [i1, n1], ?_, ?_, ?_⟩
    · intro x hx
      have hx1 : x ∉ hdls := hx lname hdls (List.mem_cons_self _ _)
      obtain ⟨j1, j2⟩ := i2 x (fun nm hs hm => hx nm hs (List.mem_cons_of_mem _ hm))
      obtain ⟨k1, k2⟩ := n4 x hx1
      exact ⟨j1.trans k1, j2.trans k2⟩
    · intro x L hb huniq
      obtain ⟨hs, hm, hxin⟩ := hb
      by_cases hx1 : x ∈ hdls
      · have hL : lname = L := huniq lname hdls (List.mem_cons_self _ _) hx1
        by_cases hrest : ∃ nm hs', (nm, hs') ∈ rest ∧ x ∈ hs'
        · obtain ⟨nm', hs', hm', hx'⟩ := hrest
          have hL' : nm' = L := huniq nm' hs' (List.mem_cons_of_mem _ hm') hx'
          obtain ⟨j1, j2⟩ := i3 x L ⟨hs', hL' ▸ hm', hx'⟩
            (fun nm hs hmm hxx => huniq nm hs (List.mem_cons_of_mem _ hmm) hxx)
          refine ⟨j1, j2.trans ?_⟩
          rw [n1]
        · have hnone : ∀ nm hs', (nm, hs') ∈ rest → x ∉ hs' := by
            intro nm hs' hmm hxx
            exact hrest ⟨nm, hs', hmm, hxx⟩
          obtain ⟨j1, j2⟩ := i2 x hnone
          obtain ⟨k1, k2⟩ := n5 x hx1
          exact ⟨j1.trans (hL ▸ k1), j2.trans (hL ▸ k2)⟩
      · have hm2 : (L, hs) ∈ rest := by
          rcases List.mem_cons.mp hm with hm' | hm'
          · rw [Prod.mk.injEq] at hm'
            exact absurd (hm'.2 ▸ hxin) hx1
          · exact hm'
        obtain ⟨j1, j2⟩ := i3 x L ⟨hs, hm2, hxin⟩
          (fun nm hs' hmm hxx => huniq nm hs' (List.mem_cons_of_mem _ hmm) hxx)
        refine ⟨j1, j2.trans ?_⟩
        rw [n1]
    · intro e he
      rcases List.mem_append.mp he with he' | he'
      · rcases n6 e he' with h' | h'
        · obtain ⟨x, hx⟩ := h'
          exact Or.inl ⟨x, lname, hx⟩
        · exact Or.inr h'
      · exact i4 e he'

/-- The grouping pass of `restore_original_layers` only touches the
layer-name cache of the engine. -/
theorem restoreCollect_frame (objs : List Obj) (entries : List (Nat × String))
    (memo : List String) (st : Engine) (h : Host)
    (acc : List (String × List Nat)) :
    ((restoreCollect objs entries memo st h acc).1.original_layers =
      st.original_layers) ∧
    ((restoreCollect objs entries memo st h acc).1.layer_nodes =
      st.layer_nodes) ∧
    ((restoreCollect objs entries memo st h acc).1.layer_visible =
      st.layer_visible) ∧
    ((restoreCollect objs entries memo st h acc).1.last_button_states =
      st.last_button_states) ∧
    ((restoreCollect objs entries memo st h acc).1.current_variants =
      st.current_variants) := by
  induction entries generalizing memo st acc with
  | nil =>
    rw [restoreCollect]
    exact ⟨rfl, rfl, rfl, rfl, rfl⟩
  | cons p rest ih =>
    obtain ⟨hdl, lname⟩ := p
    rw [restoreCollect]
    by_cases hl : objs.any (fun o => o.handle == hdl) = true
    · rw [if_pos hl]
      by_cases hmemo : memo.contains lname = true
      · rw [if_pos hmemo]
        exact ih _ _ _
      · rw [if_neg hmemo]
        obtain ⟨g1, g2, g3, g4, g5⟩ := get_layer_cached_spec lname st h
        by_cases hf : (get_layer_cached lname st h).1 = true
        · rw [if_pos hf]
          obtain ⟨i1, i2, i3, i4, i5⟩ := ih (memo ++ [lname])
            (get_layer_cached lname st h).2 (pushVal acc lname hdl)
          exact ⟨by rw [i1, g1], by rw [i2, g2], by rw [i3, g3],
            by rw [i4, g4], by rw [i5, g5]⟩
        · rw [if_neg hf]
          obtain ⟨i1, i2, i3, i4, i5⟩ := ih memo
            (get_layer_cached lname st h).2 acc
          exact ⟨by rw [i1, g1], by rw [i2, g2], by rw [i3, g3],
            by rw [i4, g4], by rw [i5, g5]⟩
    · rw [if_neg hl]
      exact ih _ _ _

/-- `restore_original_layers` keeps the host's layer map, empties the
ledger and the `_layer_nodes` cache, and leaves the snapshot memo and
variant list alone. -/
theorem restore_original_layers_frame (objs : List Obj) (st : Engine)
    (h : Host) :
    ((restore_original_layers objs st h).host.layerOn = h.layerOn) ∧
    ((restore_original_layers objs st h).st.original_layers = []) ∧
    ((restore_original_layers objs st h).st.current_variants =
      st.current_variants) ∧
    ((restore_original_layers objs st h).st.layer_nodes = []) ∧
    ((restore_original_layers objs st h).st.last_button_states =
      st.last_button_states) := by
  rw [restore_original_layers]
  obtain ⟨w1, w2, w3, w4⟩ := restoreWrite_spec
    (restoreCollect objs {st with layer_nodes := []}.original_layers []
      {st with layer_nodes := []} h []).2 h
  obtain ⟨c1, c2, c3, c4, c5⟩ := restoreCollect_frame objs
    {st with layer_nodes := []}.original_layers [] {st with layer_nodes := []}
    h []
  exact ⟨w1, rfl, c5, c2, c4⟩

/-- `disable_filter` leaves alone the visibility of every layer that is
neither a current variant layer nor one of its four LOD layers. -/
theorem disable_filter_layerOn_ne (objs : List Obj) (st : Engine) (h : Host)
    (L : String)
    (hne : ∀ w ∈ st.current_variants,
      L ≠ w ∧ ∀ i ∈ List.range 4, L ≠ lodLayerName w i) :
    (disable_filter objs st h).host.layerOn L = h.layerOn L := by
  rw [disable_filter]
  generalize hr1 : restore_original_layers objs st h = r1
  have hf := restore_original_layers_frame objs st h
  rw [hr1] at hf
  generalize hns : showNames r1.host r1.st.current_variants = names
  have hnotin : L ∉ names := by
    intro hmem
    rw [← hns] at hmem
    rcases mem_showNames hmem with hm' | hm'
    · rw [hf.2.2.1] at hm'
      exact (hne L hm').1 rfl
    · obtain ⟨v, hv, i, hi, hq⟩ := hm'
      rw [hf.2.2.1] at hv
      exact (hne v hv).2 i hi hq
  generalize hfo : forceOn names r1.host = f
  have hfs := forceOn_spec names r1.host
  rw [hfo] at hfs
  show (syncList objs names r1.st f.1).host.layerOn L = h.layerOn L
  rw [(syncList_spec objs names r1.st f.1).1]
  rw [hfs.2.2.1 L hnotin]
  have := congrFun hf.1 L
  rw [this]

/-- C9, corrected.  Every redraw suspension `build_structure` acquires is
released, and only batched assignment and hidden-flag writes happen inside
it; but the region is entered only after the collection phase, so all
layer creation and parenting happens before `redrawOff` (or the call
fails before the region is ever entered and performs creation writes
only). -/
theorem C9_redraw_scope (fl : Faults) (objs : List Obj)
    (variants : List String) (aw : Bool) (st : Engine) (h : Host) :
    (∀ e ∈ (build_structure fl objs variants aw st h).trace,
      (∃ nm, e = Ev.newLayer nm) ∨ ∃ a b, e = Ev.setParent a b) ∨
    ∃ t1 t2 t3,
      (build_structure fl objs variants aw st h).trace =
        t1 ++ [Ev.redrawOff] ++ t2 ++ [Ev.redrawOn] ++ t3 ∧
      (∀ e ∈ t1, (∃ nm, e = Ev.newLayer nm) ∨ ∃ a b, e = Ev.setParent a b) ∧
      (∀ e ∈ t2, (∃ x nm, e = Ev.addNode x nm) ∨ ∃ x b, e = Ev.setHidden x b) ∧
      (∀ e ∈ t3, e = Ev.redrawViews) := by
  rw [build_structure]
  by_cases haw : aw = true
  · rw [if_pos haw]
    generalize hP : createLayers variants st h = rP
    have hPtr := (createLayers_spec variants st h).2.2.2.2.2.2.2.2
    rw [hP] at hPtr
    generalize hG : get_or_create_layer "WrongNames" rP.st rP.host = gW
    have hGtr := get_or_create_layer_trace "WrongNames" rP.st rP.host
    rw [hG] at hGtr
    generalize hA : buildCollect fl variants aw objs
      ⟨gW.1, gW.2.1, [], [], []⟩ = rA
    have hAtr := buildCollect_trace_events fl variants aw objs
      ⟨gW.1, gW.2.1, [], [], []⟩
    rw [hA] at hAtr
    have hpre : ∀ e ∈ rP.trace ++ gW.2.2,
        (∃ nm, e = Ev.newLayer nm) ∨ ∃ a b, e = Ev.setParent a b := by
      intro e he
      rcases List.mem_append.mp he with he' | he'
      · obtain ⟨nm, hnm⟩ := hPtr e he'
        exact Or.inl ⟨nm, hnm⟩
      · exact Or.inl ⟨"WrongNames", hGtr e he'⟩
    obtain ⟨-, -, -, -, -, -, -, e8, e9⟩ :=
      buildFinish_spec fl objs variants aw (rP.trace ++ gW.2.2) rA
    by_cases hA2 : rA.ok = true
    · obtain ⟨mid, tl, heq, hmid, htl⟩ := e9 hA2
      refine Or.inr ⟨rP.trace ++ gW.2.2 ++ rA.trace, mid, tl, ?_, ?_, hmid, htl⟩
      · rw [heq]
      · intro e he
        rcases List.mem_append.mp he with he' | he'
        · exact hpre e he'
        · exact hAtr e he'
    · refine Or.inl ?_
      intro e he
      rw [e8 (eq_false_of_ne_true hA2)] at he
      rcases List.mem_append.mp he with he' | he'
      · exact hpre e he'
      · exact hAtr e he'
  · rw [if_neg haw]
    generalize hP : createLayers variants st h = rP
    have hPtr := (createLayers_spec variants st h).2.2.2.2.2.2.2.2
    rw [hP] at hPtr
    generalize hA : buildCollect fl variants aw objs
      ⟨(rP.st, rP.host, ([] : List Ev)).1, (rP.st, rP.host, ([] : List Ev)).2.1,
        [], [], []⟩ = rA
    have hAtr := buildCollect_trace_events fl variants aw objs
      ⟨(rP.st, rP.host, ([] : List Ev)).1, (rP.st, rP.host, ([] : List Ev)).2.1,
        [], [], []⟩
    rw [hA] at hAtr
    have hpre : ∀ e ∈ rP.trace ++ (rP.st, rP.host, ([] : List Ev)).2.2,
        (∃ nm, e = Ev.newLayer nm) ∨ ∃ a b, e = Ev.setParent a b := by
      intro e he
      rcases List.mem_append.mp he with he' | he'
      · obtain ⟨nm, hnm⟩ := hPtr e he'
        exact Or.inl ⟨nm, hnm⟩
      · exact absurd he' (by simp)
    obtain ⟨-, -, -, -, -, -, -, e8, e9⟩ :=
      buildFinish_spec fl objs variants aw
        (rP.trace ++ (rP.st, rP.host, ([] : List Ev)).2.2) rA
    by_cases hA2 : rA.ok = true
    · obtain ⟨mid, tl, heq, hmid, htl⟩ := e9 hA2
      refine Or.inr ⟨rP.trace ++ (rP.st, rP.host, ([] : List Ev)).2.2 ++
        rA.trace, mid, tl, ?_, ?_, hmid, htl⟩
      · rw [heq]
      · intro e he
        rcases List.mem_append.mp he with he' | he'
        · exact hpre e he'
        · exact hAtr e he'
    · refine Or.inl ?_
      intro e he
      rw [e8 (eq_false_of_ne_true hA2)] at he
      rcases List.mem_append.mp he with he' | he'
      · exact hpre e he'
      · exact hAtr e he'

/-- Counterexample for C9 as stated: the redraw suspension is not acquired
before step 1 — in a concrete build, a layer-creation write occurs
strictly before the `redrawOff` event. -/
theorem C9_counterexample :
    Ev.newLayer "a" ∈
      ((build_structure noFaults [⟨1, "LOD0_a_x"⟩] ["a"] true Engine.init
        hostW).trace.takeWhile fun e => decide (e ≠ Ev.redrawOff)) := by
  decide

/-- C10.  A matched object with LOD rank `n ≥ 4` is assigned by
`build_structure` to the freshly existing layer `<variant>_LOD<n>`, but
`apply_visibility` (which only reads ranks 0..3) and `disable_filter`
(which only forces ranks 0..3 and the variant layer) never touch that
layer's visibility. -/
theorem C10_high_lod_frame (objs : List Obj) (variants : List String)
    (st : Engine) (h : Host) (o : Obj) (n : Nat) (v : String)
    (ho : o ∈ objs) (hp : parse_name (.str o.name) = some (n, v))
    (hv : variants.contains v = true) (hn : 4 ≤ n)
    (hnd : (objs.map Obj.handle).Nodup) (hcv : cacheValid st h) :
    ((build_structure noFaults objs variants true st h).host.objLayer o.handle =
        lodLayerName v n ∧
      ((build_structure noFaults objs variants true st h).host.layerOn
        (lodLayerName v n)).isSome = true) ∧
    (∀ (bs : List (String × Bool)) (vs2 : List String) (objs2 : List Obj)
      (st2 : Engine) (h2 : Host), (∀ w ∈ vs2, '_' ∉ w.data) →
      (apply_visibility bs vs2 objs2 st2 h2).host.layerOn (lodLayerName v n) =
        h2.layerOn (lodLayerName v n)) ∧
    (∀ (objs2 : List Obj) (st2 : Engine) (h2 : Host),
      (∀ w ∈ st2.current_variants, '_' ∉ w.data) →
      (disable_filter objs2 st2 h2).host.layerOn (lodLayerName v n) =
        h2.layerOn (lodLayerName v n)) := by
  have hvu : '_' ∉ v.data := parse_no_underscore hp
  refine ⟨?_, ?_, ?_⟩
  · rw [build_structure, if_pos rfl]
    generalize hP : createLayers variants st h = rP
    have hPv := createLayers_valid variants st h hcv
    rw [hP] at hPv
    generalize hG : get_or_create_layer "WrongNames" rP.st rP.host = gW
    have hGv := @get_or_create_layer_valid "WrongNames" rP.st rP.host hPv.1
    rw [hG] at hGv
    generalize hA : buildCollect noFaults variants true objs
      ⟨gW.1, gW.2.1, [], [], []⟩ = rA
    have hAv := buildCollect_valid noFaults variants true objs
      ⟨gW.1, gW.2.1, [], [], []⟩ hGv.1 (by intro nm hm; exact absurd hm (by simp))
    rw [hA] at hAv
    have hAok : rA.ok = true := by
      rw [← hA]
      exact buildCollect_ok _ _ _ _
    have hok : (buildFinish noFaults objs variants true (rP.trace ++ gW.2.2)
        rA).ok = true := buildFinish_ok _ _ _ _ _ hAok
    have hib := @buildCollect_adds_matched noFaults variants true objs
      ⟨gW.1, gW.2.1, [], [], []⟩ o n v ho hp hv (by rw [hA]; exact hAok)
    rw [hA] at hib
    have hnw : o.handle ∉ rA.c.wrongNodes := by
      intro hw
      rw [← hA] at hw
      rcases buildCollect_wrong_src noFaults variants true objs _ hw with
        h0 | h0
      · exact absurd h0 (by simp)
      · obtain ⟨o', ho', heq, hprop⟩ := h0
        have heo : o' = o := handle_inj hnd ho' ho heq
        rw [heo] at hprop
        have := hprop n v hp
        rw [this] at hv
        exact absurd hv (by simp)
    have huniq : ∀ nm hs, (nm, hs) ∈ rA.c.nodesByLayer → o.handle ∈ hs →
        nm = lodLayerName v n := by
      intro nm hs hm hx
      have hib2 : inBatch o.handle nm rA.c.nodesByLayer := ⟨hs, hm, hx⟩
      rw [← hA] at hib2
      rcases buildCollect_batch_src noFaults variants true objs _ hib2 with
        h0 | h0
      · obtain ⟨hs', hm', -⟩ := h0
        exact absurd hm' (by simp)
      · obtain ⟨o', ho', heq, lod', var', hp', -, hnm⟩ := h0
        have heo : o' = o := handle_inj hnd ho' ho heq
        rw [heo] at hp'
        rw [hp] at hp'
        rw [Option.some.injEq, Prod.mk.injEq] at hp'
        rw [hnm, hp'.1, hp'.2]
    obtain ⟨e1, -, -, -, -, -, e7, -, -⟩ :=
      buildFinish_spec noFaults objs variants true (rP.trace ++ gW.2.2) rA
    constructor
    · exact e7 hok o.handle (lodLayerName v n) hib.1 huniq hnw
    · rw [e1]
      exact hAv.2 (lodLayerName v n) hib.2
  · intro bs vs2 objs2 st2 h2 hua
    refine apply_visibility_layerOn_ne bs vs2 objs2 st2 h2 (lodLayerName v n)
      ?_
    intro w hw
    refine ⟨(var_ne_lodLayerName (hua w hw)).symm, ?_⟩
    intro i hi he
    obtain ⟨-, hns⟩ := lodLayerName_inj hvu (hua w hw) he
    exact natStr_ne_of_ge4_lt4 hn (List.mem_range.mp hi) hns
  · intro objs2 st2 h2 hua
    refine disable_filter_layerOn_ne objs2 st2 h2 (lodLayerName v n) ?_
    intro w hw
    refine ⟨(var_ne_lodLayerName (hua w hw)).symm, ?_⟩
    intro i hi he
    obtain ⟨-, hns⟩ := lodLayerName_inj hvu (hua w hw) he
    exact natStr_ne_of_ge4_lt4 hn (List.mem_range.mp hi) hns

/-- Witness for C10: the object `LOD5_a_x` reaches layer `a_LOD5`, which
exists, and a toggle pass over variant list `["a"]` does not change that
layer's visibility. -/
theorem C10_witness :
    ((⟨1, "LOD5_a_x"⟩ : Obj) ∈ [(⟨1, "LOD5_a_x"⟩ : Obj)]) ∧
    (parse_name (.str "LOD5_a_x") = some (5, "a")) ∧
    (build_structure noFaults [⟨1, "LOD5_a_x"⟩] ["a"] true Engine.init
      hostW).host.objLayer 1 = lodLayerName "a" 5 ∧
    (apply_visibility [("btnL1", true)] ["a"] [] Engine.init
      hostC3).host.layerOn (lodLayerName "a" 5) =
      hostC3.layerOn (lodLayerName "a" 5) := by
  have hmain := C10_high_lod_frame [⟨1, "LOD5_a_x"⟩] ["a"] Engine.init hostW
    ⟨1, "LOD5_a_x"⟩ 5 "a" (by decide) (by decide) (by decide) (by decide)
    (by decide) (by intro nm hm; exact absurd hm (by simp [Engine.init]))
  exact ⟨by decide, by decide, hmain.1.1,
    hmain.2.1 [("btnL1", true)] ["a"] [] Engine.init hostC3 (by decide)⟩

/-- Content already grouped survives the rest of the restore grouping
pass. -/
theorem restoreCollect_mono (objs : List Obj) (entries : List (Nat × String))
    (memo : List String) (st : Engine) (h : Host)
    (acc : List (String × List Nat)) {x : Nat} {nm : String}
    (hb : inBatch x nm acc) :
    inBatch x nm (restoreCollect objs entries memo st h acc).2 := by
  induction entries generalizing memo st acc with
  | nil =>
    rw [restoreCollect]
    exact hb
  | cons p rest ih =>
    obtain ⟨hdl, lname⟩ := p
    rw [restoreCollect]
    by_cases hl : objs.any (fun o => o.handle == hdl) = true
    · rw [if_pos hl]
      by_cases hmemo : memo.contains lname = true
      · rw [if_pos hmemo]
        exact ih _ _ _ (inBatch_pushVal_mono hb)
      · rw [if_neg hmemo]
        by_cases hf : (get_layer_cached lname st h).1 = true
        · rw [if_pos hf]
          exact ih _ _ _ (inBatch_pushVal_mono hb)
        · rw [if_neg hf]
          exact ih _ _ _ hb
    · rw [if_neg hl]
      exact ih _ _ _ hb

/-- Every grouped handle of the restore grouping pass comes from the
initial accumulator or from a ledger entry. -/
theorem restoreCollect_src (objs : List Obj) (entries : List (Nat × String))
    (memo : List String) (st : Engine) (h : Host)
    (acc : List (String × List Nat)) {x : Nat} {nm : String}
    (hb : inBatch x nm (restoreCollect objs entries memo st h acc).2) :
    inBatch x nm acc ∨ (x, nm) ∈ entries := by
  induction entries generalizing memo st acc with
  | nil =>
    rw [restoreCollect] at hb
    exact Or.inl hb
  | cons p rest ih =>
    obtain ⟨hdl, lname⟩ := p
    rw [restoreCollect] at hb
    by_cases hl : objs.any (fun o => o.handle == hdl) = true
    · rw [if_pos hl] at hb
      by_cases hmemo : memo.contains lname = true
      · rw [if_pos hmemo] at hb
        rcases ih _ _ _ hb with h' | h'
        · rcases inBatch_pushVal_src h' with h'' | h''
          · exact Or.inl h''
          · exact Or.inr (by rw [h''.1, h''.2]; exact List.mem_cons_self _ _)
        · exact Or.inr (List.mem_cons_of_mem _ h')
      · rw [if_neg hmemo] at hb
        by_cases hf : (get_layer_cached lname st h).1 = true
        · rw [if_pos hf] at hb
          rcases ih _ _ _ hb with h' | h'
          · rcases inBatch_pushVal_src h' with h'' | h''
            · exact Or.inl h''
            · exact Or.inr (by rw [h''.1, h''.2]; exact List.mem_cons_self _ _)
          · exact Or.inr (List.mem_cons_of_mem _ h')
        · rw [if_neg hf] at hb
          rcases ih _ _ _ hb with h' | h'
          · exact Or.inl h'
          · exact Or.inr (List.mem_cons_of_mem _ h')
    · rw [if_neg hl] at hb
      rcases ih _ _ _ hb with h' | h'
      · exact Or.inl h'
      · exact Or.inr (List.mem_cons_of_mem _ h')

/-- A ledger entry whose handle names a live object and whose layer still
exists is grouped by the restore grouping pass. -/
theorem restoreCollect_adds (objs : List Obj) (entries : List (Nat × String))
    (memo : List String) (st : Engine) (h : Host)
    (acc : List (String × List Nat)) {x : Nat} {L : String}
    (hm : (x, L) ∈ entries)
    (hlive : objs.any (fun o => o.handle == x) = true)
    (hres : (h.layerOn L).isSome = true) :
    inBatch x L (restoreCollect objs entries memo st h acc).2 := by
  induction entries generalizing memo st acc with
  | nil => simp at hm
  | cons p rest ih =>
    obtain ⟨hdl, lname⟩ := p
    rw [restoreCollect]
    rcases List.mem_cons.mp hm with hm' | hm'
    · rw [Prod.mk.injEq] at hm'
      obtain ⟨h1, h2⟩ := hm'
      subst h1
      subst h2
      rw [if_pos hlive]
      by_cases hmemo : memo.contains L = true
      · rw [if_pos hmemo]
        exact restoreCollect_mono _ _ _ _ _ _ (inBatch_pushVal_self _ _ _)
      · rw [if_neg hmemo]
        rw [if_pos (get_layer_cached_found hres)]
        exact restoreCollect_mono _ _ _ _ _ _ (inBatch_pushVal_self _ _ _)
    · by_cases hl : objs.any (fun o => o.handle == hdl) = true
      · rw [if_pos hl]
        by_cases hmemo : memo.contains lname = true
        · rw [if_pos hmemo]
          exact ih _ _ _ hm'
        · rw [if_neg hmemo]
          by_cases hf : (get_layer_cached lname st h).1 = true
          · rw [if_pos hf]
            exact ih _ _ _ hm'
          · rw [if_neg hf]
            exact ih _ _ _ hm'
      · rw [if_neg hl]
        exact ih _ _ _ hm'

/-- Pointwise effect of `restore_original_layers` on a live recorded
object whose original layer still exists: it is re-added to that layer and
its hidden flag becomes the inverse of that layer's current visibility. -/
theorem restore_spec (objs : List Obj) (st : Engine) (h : Host) {x : Nat}
    {L : String}
    (hnd : (st.original_layers.map Prod.fst).Nodup)
    (hmem : (x, L) ∈ st.original_layers)
    (hlive : objs.any (fun o => o.handle == x) = true)
    (hres : (h.layerOn L).isSome = true) :
    (restore_original_layers objs st h).host.objLayer x = L ∧
    (restore_original_layers objs st h).host.objHidden x =
      !((h.layerOn L).getD true) := by
  rw [restore_original_layers]
  have hib : inBatch x L (restoreCollect objs
      {st with layer_nodes := []}.original_layers []
      {st with layer_nodes := []} h []).2 :=
    restoreCollect_adds _ _ _ _ _ _ hmem hlive hres
  have huniq : ∀ nm hs, (nm, hs) ∈ (restoreCollect objs
      {st with layer_nodes := []}.original_layers []
      {st with layer_nodes := []} h []).2 → x ∈ hs → nm = L := by
    intro nm hs hmm hx
    rcases restoreCollect_src objs _ [] _ h [] ⟨hs, hmm, hx⟩ with h' | h'
    · obtain ⟨hs', hm', -⟩ := h'
      exact absurd hm' (by simp)
    · have l1 := mem_lookup_nodup hnd h'
      have l2 := mem_lookup_nodup hnd hmem
      rw [l1] at l2
      exact (Option.some.injEq _ _).mp l2
  obtain ⟨-, -, w3, -⟩ := restoreWrite_spec (restoreCollect objs
    {st with layer_nodes := []}.original_layers []
    {st with layer_nodes := []} h []).2 h
  obtain ⟨hw1, hw2⟩ := w3 x L hib huniq
  exact ⟨hw1, hw2⟩

/-- A handle in no cached or computed member list of a layer is not
reported as a member by `_collect_layer_handles`, and the refreshed cache
still avoids it. -/
theorem collect_layer_handles_out (objs : List Obj) (name : String)
    (st : Engine) (h : Host) (x : Nat)
    (hnoall : ∀ nm hs, st.layer_nodes.lookup nm = some hs → x ∉ hs)
    (hne : ¬(h.objLayer x = name)) :
    x ∉ (collect_layer_handles objs name st h).1 ∧
    (∀ nm hs, (collect_layer_handles objs name st h).2.layer_nodes.lookup nm =
      some hs → x ∉ hs) := by
  have hxcomp : x ∉ (objs.filter
      (fun o => h.objLayer o.handle == name)).map (·.handle) := by
    intro hx
    rw [List.mem_map] at hx
    obtain ⟨o', ho', hh⟩ := hx
    rw [List.mem_filter] at ho'
    have hcond := ho'.2
    rw [hh] at hcond
    exact hne (beq_iff_eq.mp hcond)
  rw [collect_layer_handles]
  cases hq : st.layer_nodes.lookup name with
  | some hs =>
    exact ⟨hnoall name hs hq, hnoall⟩
  | none =>
    constructor
    · exact hxcomp
    · intro nm hs hl
      by_cases hnm : nm = name
      · subst hnm
        show x ∉ hs
        have hl2 : (upsert st.layer_nodes nm
            ((objs.filter (fun o => h.objLayer o.handle == nm)).map
              (·.handle))).lookup nm = some hs := hl
        rw [lookup_upsert_self] at hl2
        rw [Option.some.injEq] at hl2
        rw [← hl2]
        exact hxcomp
      · have hl2 : (upsert st.layer_nodes name
            ((objs.filter (fun o => h.objLayer o.handle == name)).map
              (·.handle))).lookup nm = some hs := hl
        rw [lookup_upsert_ne _ _ _ hnm] at hl2
        exact hnoall nm hs hl2

/-- The layer-list sync never touches the hidden flag of an object whose
layer is not in the list (given a member cache that avoids it). -/
theorem syncList_objHidden (objs : List Obj) (names : List String)
    (st : Engine) (h : Host) (x : Nat)
    (hnoall : ∀ nm hs, st.layer_nodes.lookup nm = some hs → x ∉ hs)
    (hnm : ∀ nm ∈ names, ¬(h.objLayer x = nm)) :
    (syncList objs names st h).host.objHidden x = h.objHidden x := by
  induction names generalizing st h with
  | nil =>
    rw [syncList]
  | cons n rest ih =>
    rw [syncList]
    obtain ⟨hout, hkeep⟩ := collect_layer_handles_out objs n st h x hnoall
      (hnm n (List.mem_cons_self _ _))
    have hb5 := (bulk_set_hidden_spec (collect_layer_handles objs n st h).1
      (!(h.layerOn n).getD true) h).2.2.2.2 x
    rw [if_neg hout] at hb5
    have hobjL := (bulk_set_hidden_spec (collect_layer_handles objs n st h).1
      (!(h.layerOn n).getD true) h).2.2.1
    have hc2 : ∀ nm ∈ rest,
        ¬((sync_layer_objects_visibility objs n st h).2.1.objLayer x = nm) := by
      intro nm hm he
      refine hnm nm (List.mem_cons_of_mem _ hm) ?_
      rw [← congrFun hobjL x]
      exact he
    exact (ih _ _ hkeep hc2).trans hb5

/-- The ledger built by a fresh-session `build_structure` run maps every
scene object to its pre-build layer, with no duplicate handles. -/
theorem build_structure_ledger (objs : List Obj) (variants : List String)
    (st : Engine) (h : Host) (hfresh : st.original_layers = []) :
    (∀ o ∈ objs, (build_structure noFaults objs variants true st
      h).st.original_layers.lookup o.handle = some (h.objLayer o.handle)) ∧
    (((build_structure noFaults objs variants true st h).st.original_layers.map
      Prod.fst).Nodup) := by
  rw [build_structure, if_pos rfl]
  generalize hP : createLayers variants st h = rP
  have hPs := createLayers_spec variants st h
  rw [hP] at hPs
  generalize hG : get_or_create_layer "WrongNames" rP.st rP.host = gW
  have hGs := get_or_create_layer_spec "WrongNames" rP.st rP.host
  rw [hG] at hGs
  generalize hA : buildCollect noFaults variants true objs
    ⟨gW.1, gW.2.1, [], [], []⟩ = rA
  have hAok : rA.ok = true := by
    rw [← hA]
    exact buildCollect_ok _ _ _ _
  have h830 : gW.1.original_layers = [] := by
    rw [hGs.1, hPs.2.2.1, hfresh]
  have hobj : gW.2.1.objLayer = h.objLayer := by
    rw [hGs.2.2.2.2.2.1, hPs.1]
  obtain ⟨-, e2, -, -, -, -, -, -, -⟩ :=
    buildFinish_spec noFaults objs variants true (rP.trace ++ gW.2.2) rA
  constructor
  · intro o ho
    have hlk := @buildCollect_ledger_lookup noFaults variants objs
      ⟨gW.1, gW.2.1, [], [], []⟩ o ho (by rw [hA]; exact hAok)
    rw [hA] at hlk
    have hlk2 : rA.c.st.original_layers.lookup o.handle =
        some (h.objLayer o.handle) := by
      rw [hlk]
      show some ((gW.1.original_layers.lookup o.handle).getD
        (gW.2.1.objLayer o.handle)) = _
      rw [h830, hobj]
      rfl
    rw [e2]
    exact hlk2
  · rw [e2]
    have hnd := buildCollect_ledger_nodup noFaults variants true objs
      ⟨gW.1, gW.2.1, [], [], []⟩
      (by
        show ((gW.1.original_layers).map Prod.fst).Nodup
        rw [h830]
        simp)
    rw [hA] at hnd
    exact hnd

/-- After a fresh-session `enable_filter` run: the ledger maps each object
to its pre-enable layer with no duplicate handles, pre-existing layers
keep their visibility, and `_current_variants` is the refreshed registry. -/
theorem enable_filter_state (objs : List Obj) (st : Engine) (h : Host)
    (hfresh : st.original_layers = []) :
    (∀ o ∈ objs, (enable_filter noFaults objs st h).st.original_layers.lookup
      o.handle = some (h.objLayer o.handle)) ∧
    (((enable_filter noFaults objs st h).st.original_layers.map
      Prod.fst).Nodup) ∧
    (∀ m c, h.layerOn m = some c →
      (enable_filter noFaults objs st h).host.layerOn m = some c) ∧
    ((enable_filter noFaults objs st h).st.current_variants =
      collect_scene_variants objs) := by
  rw [enable_filter]
  have hok : (build_structure noFaults objs
      (enable_prepare objs st h).1.current_variants true
      {(enable_prepare objs st h).1 with track_created := true}
      (enable_prepare objs st h).2).ok = true := build_structure_ok _ _ _ _ _
  rw [if_pos hok]
  refine ⟨?_, ?_, ?_, ?_⟩
  · intro o ho
    exact (build_structure_ledger objs
      (enable_prepare objs st h).1.current_variants
      {(enable_prepare objs st h).1 with track_created := true}
      (enable_prepare objs st h).2 hfresh).1 o ho
  · exact (build_structure_ledger objs
      (enable_prepare objs st h).1.current_variants
      {(enable_prepare objs st h).1 with track_created := true}
      (enable_prepare objs st h).2 hfresh).2
  · intro m c hb
    exact (build_structure_spec noFaults objs
      (enable_prepare objs st h).1.current_variants true
      {(enable_prepare objs st h).1 with track_created := true}
      (enable_prepare objs st h).2).1 m c hb
  · exact (build_structure_spec noFaults objs
      (enable_prepare objs st h).1.current_variants true
      {(enable_prepare objs st h).1 with track_created := true}
      (enable_prepare objs st h).2).2.2.2

/-- C1, corrected.  For a fresh session over a scene with distinct
handles, `enable_filter` then `disable_filter` does restore every
object's layer membership (provided its original layer still exists and
is not shadowed by a variant or LOD layer name of the session), but the
hidden flag is not restored to its pre-enable value: `disable_filter`
recomputes it as the inverse of the original layer's current visibility. -/
theorem C1_roundtrip (objs : List Obj) (st : Engine) (h : Host) (o : Obj)
    (b : Bool)
    (ho : o ∈ objs)
    (hfresh : st.original_layers = [])
    (hb : h.layerOn (h.objLayer o.handle) = some b)
    (hsafe : ∀ v ∈ collect_scene_variants objs,
      h.objLayer o.handle ≠ v ∧
      ∀ i ∈ List.range 4, h.objLayer o.handle ≠ lodLayerName v i) :
    (disable_filter objs (enable_filter noFaults objs st h).st
      (enable_filter noFaults objs st h).host).host.objLayer o.handle =
      h.objLayer o.handle ∧
    (disable_filter objs (enable_filter noFaults objs st h).st
      (enable_filter noFaults objs st h).host).host.objHidden o.handle =
      !b := by
  obtain ⟨f1, f2, f3, f4⟩ := enable_filter_state objs st h hfresh
  generalize hE : enable_filter noFaults objs st h = e
  rw [hE] at f1 f2 f3 f4
  have hmem : (o.handle, h.objLayer o.handle) ∈ e.st.original_layers :=
    lookup_mem (f1 o ho)
  have hlive : objs.any (fun o' => o'.handle == o.handle) = true := by
    rw [List.any_eq_true]
    exact ⟨o, ho, beq_self_eq_true _⟩
  have hres : (e.host.layerOn (h.objLayer o.handle)).isSome = true := by
    rw [f3 (h.objLayer o.handle) b hb]
    rfl
  obtain ⟨r1L, r1H⟩ := restore_spec objs e.st e.host f2 hmem hlive hres
  have hr1Hval : (restore_original_layers objs e.st e.host).host.objHidden
      o.handle = !b := by
    rw [r1H, f3 (h.objLayer o.handle) b hb]
    rfl
  rw [disable_filter]
  generalize hr1 : restore_original_layers objs e.st e.host = r1
  rw [hr1] at r1L hr1Hval
  have hf := restore_original_layers_frame objs e.st e.host
  rw [hr1] at hf
  generalize hns : showNames r1.host r1.st.current_variants = names
  have hnamesne : ∀ nm ∈ names, ¬(r1.host.objLayer o.handle = nm) := by
    intro nm hm he
    rw [← hns] at hm
    rw [r1L] at he
    rcases mem_showNames hm with hm' | hm'
    · rw [hf.2.2.1, f4] at hm'
      exact (hsafe nm hm').1 he
    · obtain ⟨v, hv, i, hi, hq⟩ := hm'
      rw [hf.2.2.1, f4] at hv
      exact (hsafe v hv).2 i hi (he.trans hq)
  generalize hfo : forceOn names r1.host = f
  have hfs := forceOn_spec names r1.host
  rw [hfo] at hfs
  constructor
  · show (syncList objs names r1.st f.1).host.objLayer o.handle =
      h.objLayer o.handle
    rw [(syncList_spec objs names r1.st f.1).2.1]
    rw [hfs.1]
    exact r1L
  · show (syncList objs names r1.st f.1).host.objHidden o.handle = !b
    have hsync := syncList_objHidden objs names r1.st f.1 o.handle
      (by
        intro nm hs hl
        rw [hf.2.2.2.1] at hl
        exact absurd hl (by simp))
      (by
        intro nm hm he
        refine hnamesne nm hm ?_
        rw [← congrFun hfs.1 o.handle]
        exact he)
    rw [hsync]
    rw [congrFun hfs.2.1 o.handle]
    exact hr1Hval

/-- Witness for C1 (corrected form): object 1 in visible layer `base`
returns to `base`, with hidden flag recomputed to `false`. -/
theorem C1_witness :
    ((⟨1, "LOD0_car_x"⟩ : Obj) ∈ [(⟨1, "LOD0_car_x"⟩ : Obj)]) ∧
    (hostC1.layerOn (hostC1.objLayer 1) = some true) ∧
    (disable_filter [⟨1, "LOD0_car_x"⟩]
      (enable_filter noFaults [⟨1, "LOD0_car_x"⟩] Engine.init hostC1).st
      (enable_filter noFaults [⟨1, "LOD0_car_x"⟩] Engine.init
        hostC1).host).host.objLayer 1 = hostC1.objLayer 1 ∧
    (disable_filter [⟨1, "LOD0_car_x"⟩]
      (enable_filter noFaults [⟨1, "LOD0_car_x"⟩] Engine.init hostC1).st
      (enable_filter noFaults [⟨1, "LOD0_car_x"⟩] Engine.init
        hostC1).host).host.objHidden 1 = !true := by
  have hmain := C1_roundtrip [⟨1, "LOD0_car_x"⟩] Engine.init hostC1
    ⟨1, "LOD0_car_x"⟩ true (by decide) rfl (by decide) (by decide)
  exact ⟨by decide, by decide, hmain.1, hmain.2⟩

/-- Counterexample for C1 as stated: the object was hidden before
`enable_filter` (`isHidden = true`), its layer membership is restored by
`disable_filter`, but its hidden flag ends up `false` — the inverse of
its (visible) original layer — not its pre-enable value. -/
theorem C1_counterexample :
    hostC1.objHidden 1 = true ∧
    (disable_filter [⟨1, "LOD0_car_x"⟩]
      (enable_filter noFaults [⟨1, "LOD0_car_x"⟩] Engine.init hostC1).st
      (enable_filter noFaults [⟨1, "LOD0_car_x"⟩] Engine.init
        hostC1).host).host.objLayer 1 = "base" ∧
    (disable_filter [⟨1, "LOD0_car_x"⟩]
      (enable_filter noFaults [⟨1, "LOD0_car_x"⟩] Engine.init hostC1).st
      (enable_filter noFaults [⟨1, "LOD0_car_x"⟩] Engine.init
        hostC1).host).host.objHidden 1 = false := ⟨rfl, rfl, rfl⟩

end LodKit
